import Mathlib

/-!
# Line-editing shell input layer (`src/user/shell.c`)

A shallow embedding of the byte queue, the line buffer, the history ring and
the escape decoder of `shell.c`, followed by theorems about them.

Conventions of the embedding:

* a C `int` is an `Int`; the history counters `hiscnt` and `hiscur` are the
  integers of the shell that a long run takes out of the range of a 32-bit
  `int` (the first after 2^31 - 1 commits), and every addition and
  subtraction on them goes through `wrap32`, the two's complement wrap-around
  of the compiled code; the cursor, the line length and the queue indices
  are far from the limits of `int` in every well-formed state;
* a stored `char` is its object representation, a `Nat` below 256; whether
  plain `char` is signed only matters where a `char` is read back into an
  `int`, and is the parameter `sgn` of `queue_pop`;
* an array is a `List`, every access is bounds checked and an access outside
  the array makes the operation yield `none`;
* `stdout` is the list of bytes written, returned next to the new state;
* `isprint` is the one of the "C" locale;
* the terminal is outside the repository: where a property speaks of what is
  displayed, it is about `display`, the row of cells with a cursor that the
  specification describes.
-/

namespace BerryShell

/-! ## Constants -/

def LINE_LENGTH : Int := 64
def HISTORY_COUNT : Int := 8
def QUEUE_SIZE : Int := 16
def QUEUE_EMPTY : Int := 0x10000

/-- The largest value of a 32-bit `int`. -/
def INT_MAX : Int := 2147483647

/-- The value a 32-bit `int` holds when the exact result of an addition or
subtraction is `x`: `x` itself inside `-2^31 .. 2^31 - 1`, and wrapped around
modulo `2^32` outside (`INT_MAX + 1` gives `INT_MIN`). -/
def wrap32 (x : Int) : Int := (x + 2147483648) % 4294967296 - 2147483648

/-! ## Memory primitives -/

/-- Stored form of the conversion `(char)ch`: the low eight bits. -/
def toChar (ch : Int) : Nat := (ch % 256).toNat

/-- Value of a stored `char` once promoted to `int`. -/
def charVal (sgn : Bool) (b : Nat) : Int :=
  if sgn && decide (128 ≤ b) then (b : Int) - 256 else (b : Int)

/-- Bounds-checked read `a[i]`. -/
def rd (a : List Nat) (i : Int) : Option Nat :=
  if 0 ≤ i then a[i.toNat]? else none

/-- Bounds-checked write `a[i] = v`. -/
def wr (a : List Nat) (i : Int) (v : Nat) : Option (List Nat) :=
  if 0 ≤ i ∧ i < a.length then some (a.set i.toNat v) else none

/-- Bounds-checked selection of a row `h[i]` of a two-dimensional array. -/
def rdRow (h : List (List Nat)) (i : Int) : Option (List Nat) :=
  if 0 ≤ i then h[i.toNat]? else none

/-- Replacement of the row `h[i]`. -/
def wrRow (h : List (List Nat)) (i : Int) (r : List Nat) : Option (List (List Nat)) :=
  if 0 ≤ i ∧ i < h.length then some (h.set i.toNat r) else none

/-- The C string stored at the start of an array: the bytes before the first
NUL; `none` when the array holds no NUL (the read would leave the array). -/
def cstr : List Nat → Option (List Nat)
  | [] => none
  | c :: cs => if c = 0 then some [] else (cstr cs).map (fun t => c :: t)

/-- The C string that starts at `a + i`. -/
def cstrAt (a : List Nat) (i : Int) : Option (List Nat) :=
  if 0 ≤ i ∧ i ≤ a.length then cstr (a.drop i.toNat) else none

/-- Result of `strlen`. -/
def strlen (a : List Nat) : Option Int :=
  (cstr a).map (fun t => (t.length : Int))

/-- Loop of `strcpy`: copies `src` byte by byte to `dst[i..]`, the NUL
included, and stops after it. -/
def strcpy_go : List Nat → Nat → List Nat → Option (List Nat)
  | [], _, _ => none
  | c :: cs, i, dst =>
    match wr dst i c with
    | none => none
    | some dst1 => if c = 0 then some dst1 else strcpy_go cs (i + 1) dst1

/-- The call `strcpy(dst, src)`. -/
def strcpy (dst src : List Nat) : Option (List Nat) :=
  strcpy_go src 0 dst

/-- The classification `isprint(ch)`. -/
def isprint (ch : Int) : Bool := decide (0x20 ≤ ch) && decide (ch ≤ 0x7E)

/-! ## Data model -/

/-- The record `struct queue`. -/
structure queue where
  front : Int
  rear : Int
  array : List Nat
deriving DecidableEq

/-- The record `struct shell`. -/
structure shell where
  linepos : Int
  linecount : Int
  newline : Int
  hiscur : Int
  hiscnt : Int
  line : List Nat
  history : List (List Nat)
  queue : queue
  prompt : List Nat
deriving DecidableEq

/-- The zero-initialised static `m_shell`. -/
def m_shell : shell :=
  { linepos := 0, linecount := 0, newline := 0, hiscur := 0, hiscnt := 0,
    line := List.replicate 65 0,
    history := List.replicate 8 (List.replicate 65 0),
    queue := { front := 0, rear := 0, array := List.replicate 16 0 },
    prompt := [] }

/-! ## Byte queue -/

/-- The expansion of `queue_next(queue, attr)` at the value of `attr`. -/
def queue_next (v : Int) : Int :=
  if v < QUEUE_SIZE - 1 then v + 1 else 0

/-- The test `queue_isempty(queue)`. -/
def queue_isempty (q : queue) : Bool := decide (q.front = q.rear)

/-- The function `queue_push`; yields the new queue and the returned `int`. -/
def queue_push (q : queue) (ch : Int) : Option (queue × Int) :=
  let next := queue_next q.front
  if next ≠ q.rear then
    match wr q.array q.front (toChar ch) with
    | none => none
    | some arr => some ({ q with array := arr, front := next }, 0)
  else some (q, 1)

/-- The function `queue_pop`; yields the new queue and the returned `int`. -/
def queue_pop (sgn : Bool) (q : queue) : Option (queue × Int) :=
  if !queue_isempty q then
    match rd q.array q.rear with
    | none => none
    | some b => some ({ q with rear := queue_next q.rear }, charVal sgn b)
  else some (q, QUEUE_EMPTY)

/-- The function `shell_addchar`, on the shell state it owns. -/
def shell_addchar (sh : shell) (ch : Int) : Option (shell × Int) :=
  match queue_push sh.queue ch with
  | none => none
  | some (q, _) => some ({ sh with queue := q }, ch)

/-! ## Line buffer and history -/

/-- The function `pack_line`; `++shell->hiscnt` is an `int` increment. -/
def pack_line (sh : shell) : Option shell :=
  match wr sh.line sh.linecount 0 with
  | none => none
  | some line =>
    if sh.linecount ≠ 0 then
      let hiscur := Int.tmod sh.hiscnt HISTORY_COUNT
      match rdRow sh.history hiscur with
      | none => none
      | some row =>
        match strcpy row line with
        | none => none
        | some row1 =>
          match wrRow sh.history hiscur row1 with
          | none => none
          | some hist =>
            some { sh with line := line, history := hist,
                           hiscnt := wrap32 (sh.hiscnt + 1),
                           hiscur := wrap32 (sh.hiscnt + 1), linecount := 0, linepos := 0 }
    else some { sh with line := line, linecount := 0, linepos := 0 }

/-- The `while (pos < count)` loop of `remove_char`; the first argument bounds
the number of iterations. -/
def remove_loop : Nat → Int → Int → List Nat → Option (List Nat)
  | 0, pos, count, line => if pos < count then none else some line
  | n + 1, pos, count, line =>
    if pos < count then
      match rd line (pos + 1) with
      | none => none
      | some c =>
        match wr line pos c with
        | none => none
        | some line1 => remove_loop n (pos + 1) count line1
    else some line

/-- The function `remove_char`. -/
def remove_char (sh : shell) : Option shell :=
  let pos := sh.linepos - 1
  let count := sh.linecount
  match remove_loop (count - pos).toNat pos count sh.line with
  | none => none
  | some line1 =>
    match wr line1 (sh.linecount - 1) 0 with
    | none => none
    | some line2 =>
      some { sh with linepos := sh.linepos - 1, linecount := sh.linecount - 1, line := line2 }

/-- The `while (count >= pos)` loop of `insert_char`. -/
def shift_loop : Nat → Int → Int → List Nat → Option (List Nat)
  | 0, pos, count, line => if count ≥ pos then none else some line
  | n + 1, pos, count, line =>
    if count ≥ pos then
      match rd line count with
      | none => none
      | some c =>
        match wr line (count + 1) c with
        | none => none
        | some line1 => shift_loop n pos (count - 1) line1
    else some line

/-- The first `for` loop of `insert_char`: `fputc(line[pos])` for `pos` up to
`count`; yields the bytes written. -/
def echo_loop : Nat → Int → Int → List Nat → Option (List Nat)
  | 0, pos, count, _ => if pos < count then none else some []
  | n + 1, pos, count, line =>
    if pos < count then
      match rd line pos with
      | none => none
      | some c => (echo_loop n (pos + 1) count line).map (fun t => c :: t)
    else some []

/-- The function `insert_char`; yields the new state and the bytes written. -/
def insert_char (sh : shell) (ch : Int) : Option (shell × List Nat) :=
  let pos := sh.linepos
  let count := sh.linecount
  if count < LINE_LENGTH then
    match shift_loop (count - pos + 1).toNat pos count sh.line with
    | none => none
    | some line1 =>
      match wr line1 pos (toChar ch) with
      | none => none
      | some line2 =>
        let linecount := sh.linecount + 1
        let linepos := sh.linepos + 1
        match echo_loop (linecount - pos).toNat pos linecount line2 with
        | none => none
        | some out =>
          some ({ sh with line := line2, linecount := linecount, linepos := linepos },
                out ++ List.replicate (linecount - linepos).toNat 8)
  else some (sh, [])

/-- The function `backspace`. -/
def backspace (sh : shell) : Option (shell × List Nat) :=
  if sh.linepos > 0 then
    match remove_char sh with
    | none => none
    | some sh1 =>
      if sh1.linepos < sh1.linecount then
        match cstrAt sh1.line sh1.linepos with
        | none => none
        | some tail =>
          some (sh1, [8] ++ tail ++ [32, 8]
                      ++ List.replicate (sh1.linecount - sh1.linepos).toNat 8)
      else some (sh1, [8, 32, 8])
  else some (sh, [])

/-- The function `addchar`; yields the new state, the bytes written and the
returned `int`. -/
def addchar (sh : shell) (ch : Int) : Option (shell × List Nat × Int) :=
  if ch = 13 then
    match pack_line sh with
    | none => none
    | some sh1 => some ({ sh1 with newline := 1 }, [10], 1)
  else if ch = 10 then
    if sh.newline ≠ 0 then some ({ sh with newline := 0 }, [], 0)
    else
      match pack_line sh with
      | none => none
      | some sh1 => some (sh1, [], 1)
  else if ch = 8 ∨ ch = 127 then
    match backspace sh with
    | none => none
    | some (sh1, out) => some (sh1, out, 0)
  else if isprint ch then
    match insert_char sh ch with
    | none => none
    | some (sh1, out) => some (sh1, out, 0)
  else some (sh, [], 0)

/-- The function `change_history`. -/
def change_history (sh : shell) : Option (shell × List Nat) :=
  let pos := Int.tmod sh.hiscur HISTORY_COUNT
  match rdRow sh.history pos with
  | none => none
  | some row =>
    match strcpy sh.line row with
    | none => none
    | some line1 =>
      match cstr row, strlen row with
      | some text, some len =>
        some ({ sh with line := line1, linecount := len, linepos := len },
              [13] ++ sh.prompt ++ text ++ [27, 91, 75])
      | _, _ => none

/-- The function `up_key`; the sum in its test and the decrement are `int`
arithmetic. -/
def up_key (sh : shell) : Option (shell × List Nat) :=
  if sh.hiscur > 0 ∧ wrap32 (sh.hiscur + HISTORY_COUNT) > sh.hiscnt then
    change_history { sh with hiscur := wrap32 (sh.hiscur - 1) }
  else some (sh, [])

/-- The function `down_key`; the sum in its test and the increment are `int`
arithmetic. -/
def down_key (sh : shell) : Option (shell × List Nat) :=
  if wrap32 (sh.hiscur + 1) < sh.hiscnt then
    change_history { sh with hiscur := wrap32 (sh.hiscur + 1) }
  else some (sh, [])

/-- The function `left_key`. -/
def left_key (sh : shell) : Option (shell × List Nat) :=
  if sh.linepos > 0 then some ({ sh with linepos := sh.linepos - 1 }, [8])
  else some (sh, [])

/-- The function `right_key`. -/
def right_key (sh : shell) : Option (shell × List Nat) :=
  if sh.linepos < sh.linecount then
    match rd sh.line sh.linepos with
    | none => none
    | some c => some ({ sh with linepos := sh.linepos + 1 }, [c])
  else some (sh, [])

/-! ## The read loop -/

/-- What one pass through the body of the `for (;;)` loop of `p_readline`
leaves behind: the state, the decoder state, the bytes written, and whether
the pass ended in `return shell->line`. -/
structure pass where
  sh : shell
  state : Int
  out : List Nat
  ret : Bool
deriving DecidableEq

/-- Body of the `for (;;)` loop of `p_readline`, after `ch = wait_char(shell)`. -/
def p_readline_body (sh : shell) (state : Int) (ch : Int) : Option pass :=
  if ch = 0x1B then
    some { sh := { sh with newline := 0 }, state := 1, out := [], ret := false }
  else if state = 1 then
    some { sh := { sh with newline := 0 }, state := if ch = 0x5B then 2 else 0,
           out := [], ret := false }
  else if state = 2 then
    let r :=
      if ch = 0x41 then up_key sh
      else if ch = 0x42 then down_key sh
      else if ch = 0x43 then right_key sh
      else if ch = 0x44 then left_key sh
      else some (sh, [])
    match r with
    | none => none
    | some (sh1, out) =>
      some { sh := { sh1 with newline := 0 }, state := 0, out := out, ret := false }
  else
    match addchar sh ch with
    | none => none
    | some (sh1, out, r) =>
      if r ≠ 0 then some { sh := sh1, state := state, out := out, ret := true }
      else some { sh := { sh1 with newline := 0 }, state := state, out := out, ret := false }

/-- How a call that waits for input ends. -/
inductive ending (α : Type) where
  /-- The call came back with a value. -/
  | done : α → ending α
  /-- An array was accessed outside its bounds. -/
  | fault : ending α
  /-- The queue is empty and the producer has nothing left to feed: the spin
  of `wait_char` goes on for ever. -/
  | starved : ending α
  /-- The iteration bound of the model was used up. -/
  | fuel : ending α
deriving DecidableEq

/-- The function `wait_char`.  The producer context is the list `pending` of
the bytes it has yet to feed: when the consumer finds the queue empty, the
producer runs `shell_addchar` on the next pending byte and the consumer polls
again.  Yields the byte read, the new state and what is still pending. -/
def wait_char (sgn : Bool) : shell → List Int → ending (Int × shell × List Int)
  | sh, [] =>
    match queue_pop sgn sh.queue with
    | none => ending.fault
    | some (q, ch) =>
      if ch = QUEUE_EMPTY then ending.starved
      else ending.done (ch, { sh with queue := q }, [])
  | sh, b :: rest =>
    match queue_pop sgn sh.queue with
    | none => ending.fault
    | some (q, ch) =>
      if ch = QUEUE_EMPTY then
        match shell_addchar sh b with
        | none => ending.fault
        | some (sh1, _) => wait_char sgn sh1 rest
      else ending.done (ch, { sh with queue := q }, b :: rest)

/-- What a completed `p_readline` call hands back: the state (the returned
pointer is `shell->line` in it), the bytes written and the producer bytes not
yet fed. -/
structure result where
  sh : shell
  out : List Nat
  pending : List Int
deriving DecidableEq

/-- The `for (;;)` loop of `p_readline` from decoder state `state`, with `acc`
the bytes written so far; the first argument bounds the number of passes. -/
def p_readline_loop (sgn : Bool) : Nat → shell → Int → List Nat → List Int → ending result
  | 0, _, _, _, _ => ending.fuel
  | n + 1, sh, state, acc, pending =>
    match wait_char sgn sh pending with
    | ending.fault => ending.fault
    | ending.starved => ending.starved
    | ending.fuel => ending.fuel
    | ending.done (ch, sh1, rest) =>
      match p_readline_body sh1 state ch with
      | none => ending.fault
      | some p =>
        if p.ret then ending.done { sh := p.sh, out := acc ++ p.out, pending := rest }
        else p_readline_loop sgn n p.sh p.state (acc ++ p.out) rest

/-- The function `p_readline`. -/
def p_readline (sgn : Bool) (n : Nat) (sh : shell) (pending : List Int) : ending result :=
  p_readline_loop sgn n sh 0 [] pending

/-- The function `shell_readline`. -/
def shell_readline (sgn : Bool) (n : Nat) (sh : shell) (prompt : List Nat)
    (pending : List Int) : ending result :=
  p_readline_loop sgn n { sh with prompt := prompt } 0 prompt pending

/-! ## Specification vocabulary -/

/-- Well-formed queue: sixteen cells and both indices inside them. -/
def queue_ok (q : queue) : Prop :=
  q.array.length = 16 ∧ 0 ≤ q.front ∧ q.front < 16 ∧ 0 ≤ q.rear ∧ q.rear < 16

instance (q : queue) : Decidable (queue_ok q) := by
  unfold queue_ok; infer_instance

/-- Number of bytes the queue holds. -/
def occupancy (q : queue) : Nat := ((q.front - q.rear) % 16).toNat

/-- The bytes the queue holds, oldest first. -/
def contents (q : queue) : List Nat :=
  (List.range (occupancy q)).map (fun (k : Nat) => q.array.getD ((q.rear + (k : Int)) % 16).toNat 0)

/-- Calls `queue_push` on each byte in turn, return values ignored. -/
def pushAll : queue → List Int → Option queue
  | q, [] => some q
  | q, b :: bs =>
    match queue_push q b with
    | none => none
    | some (q1, _) => pushAll q1 bs

/-- Calls `queue_pop` the given number of times and collects what it returns. -/
def popN (sgn : Bool) : Nat → queue → Option (queue × List Int)
  | 0, q => some (q, [])
  | n + 1, q =>
    match queue_pop sgn q with
    | none => none
    | some (q1, r) => (popN sgn n q1).map (fun p => (p.1, r :: p.2))

/-- Well-formed line buffer: 65 cells and `0 <= linepos <= linecount <= 64`. -/
def line_ok (sh : shell) : Prop :=
  sh.line.length = 65 ∧ 0 ≤ sh.linepos ∧ sh.linepos ≤ sh.linecount ∧ sh.linecount ≤ 64

/-- Well-formed history: eight rows of 65 cells, each holding a NUL, and
`0 <= hiscur <= hiscnt <= INT_MAX`. -/
def history_ok (sh : shell) : Prop :=
  sh.history.length = 8 ∧ (∀ row ∈ sh.history, row.length = 65 ∧ 0 ∈ row) ∧
    0 ≤ sh.hiscur ∧ sh.hiscur ≤ sh.hiscnt ∧ sh.hiscnt ≤ 2147483647

/-- Well-formed shell state. -/
def shell_ok (sh : shell) : Prop :=
  line_ok sh ∧ history_ok sh ∧ queue_ok sh.queue

/-- Well-formed arrays and indices, whatever the history counters hold: the
part of `shell_ok` that no counter overflow can break. -/
def mem_ok (sh : shell) : Prop :=
  line_ok sh ∧ sh.history.length = 8 ∧ (∀ row ∈ sh.history, row.length = 65 ∧ 0 ∈ row) ∧
    queue_ok sh.queue

/-- The configurations the program can be in between two passes of the loop
of `p_readline`, from the zeroed `m_shell`: the shell state and the decoder
state, together with the lines committed to the history so far, oldest first.
The producer may feed a byte at any moment (`feed`); the consumer pops a byte
and runs the loop body on it, which either goes on (`pass`) or returns
(`ret`), and then the next call starts with the decoder idle and the prompt
its caller gives.  A line counts as committed when `pack_line` found
`linecount` nonzero. -/
inductive Reachable (sgn : Bool) : List (List Nat) → shell → Int → Prop
  | init (prompt : List Nat) : Reachable sgn [] { m_shell with prompt := prompt } 0
  | feed {log : List (List Nat)} {sh sh1 : shell} {st b r : Int} :
      Reachable sgn log sh st → shell_addchar sh b = some (sh1, r) →
      Reachable sgn log sh1 st
  | pass {log : List (List Nat)} {sh : shell} {st ch : Int} {q : queue} {p : pass} :
      Reachable sgn log sh st → queue_pop sgn sh.queue = some (q, ch) →
      ch ≠ QUEUE_EMPTY → p_readline_body { sh with queue := q } st ch = some p →
      p.ret = false → Reachable sgn log p.sh p.state
  | ret {log : List (List Nat)} {sh : shell} {st ch : Int} {q : queue} {p : pass}
      {t : List Nat} (prompt : List Nat) :
      Reachable sgn log sh st → queue_pop sgn sh.queue = some (q, ch) →
      ch ≠ QUEUE_EMPTY → p_readline_body { sh with queue := q } st ch = some p →
      p.ret = true → cstr p.sh.line = some t →
      Reachable sgn (if sh.linecount ≠ 0 then log ++ [t] else log)
        { p.sh with prompt := prompt } 0

/-- Presses the up arrow the given number of times, each `up_key` on the
state the presses before it left; yields the final state and all bytes
written. -/
def upN : Nat → shell → Option (shell × List Nat)
  | 0, sh => some (sh, [])
  | n + 1, sh =>
    match upN n sh with
    | none => none
    | some (sh1, out) =>
      match up_key sh1 with
      | none => none
      | some (sh2, out2) => some (sh2, out ++ out2)

/-- Runs a sequence of arrow keys, `true` for `up_key` and `false` for
`down_key`; yields the final state. -/
def arrows : List Bool → shell → Option shell
  | [], sh => some sh
  | k :: ks, sh =>
    match (if k then up_key sh else down_key sh) with
    | none => none
    | some (sh1, _) => arrows ks sh1

/-- The history agrees with the lines committed so far: `hiscnt` counts them
and entry number `j` of the last eight sits in row `j % 8`. -/
def log_ok (log : List (List Nat)) (sh : shell) : Prop :=
  sh.hiscnt = (log.length : Int) ∧
    ∀ j : Nat, j < log.length → log.length ≤ j + 8 →
      ((sh.history)[j % 8]?).bind cstr = log[j]?

/-- What an editing or browsing step leaves alone: the history rows, the
commit counter, the queue, the prompt and the CR flag. -/
def frame (sh sh1 : shell) : Prop :=
  sh1.history = sh.history ∧ sh1.hiscnt = sh.hiscnt ∧ sh1.queue = sh.queue ∧
    sh1.prompt = sh.prompt ∧ sh1.newline = sh.newline

/-- What a pass that ends in `return` did to the line and the history: it ran
`pack_line`. -/
def committed (sh sh1 : shell) : Prop :=
  ∃ sh2, pack_line sh = some sh2 ∧ sh1.line = sh2.line ∧ sh1.history = sh2.history ∧
    sh1.hiscnt = sh2.hiscnt ∧ sh1.hiscur = sh2.hiscur ∧ sh1.linecount = 0 ∧ sh1.linepos = 0

/-- The state `m_shell` is in once the line "a" has been typed and entered:
the sample state of the closed instances below. -/
def demo_shell : shell :=
  { linepos := 0, linecount := 0, newline := 1, hiscur := 1, hiscnt := 1,
    line := 97 :: List.replicate 64 0,
    history := (97 :: List.replicate 64 0) :: List.replicate 7 (List.replicate 65 0),
    queue := { front := 2, rear := 2, array := 97 :: 13 :: List.replicate 14 0 },
    prompt := [] }

/-- The state `m_shell` is in once the producer has queued the byte `x` and
the consumer has not polled yet. -/
def stale_shell : shell :=
  { m_shell with queue := { front := 1, rear := 0, array := 120 :: List.replicate 15 0 } }

/-- Enters each line in turn: one `p_readline` call per line, fed the bytes of
the line and a carriage return. -/
def enterLines (sgn : Bool) : shell → List (List Nat) → Option shell
  | sh, [] => some sh
  | sh, l :: ls =>
    match p_readline sgn (l.length + 1) sh (l.map Int.ofNat ++ [13]) with
    | ending.done r => enterLines sgn r.sh ls
    | _ => none

/-- The string a call that came back hands to its caller, read through the
returned pointer; nothing when the call did not come back. -/
def returned (e : ending result) : Option (List Nat) :=
  match e with
  | ending.done r => cstr r.sh.line
  | _ => none

/-- The nine lines "a", "b", ..., "i". -/
def nine_lines : List (List Nat) :=
  [[97], [98], [99], [100], [101], [102], [103], [104], [105]]

/-- The state `m_shell` is in once `nine_lines` have been typed and entered:
row 0 of the history holds "i", the ninth line. -/
def nine_shell : shell :=
  { linepos := 0, linecount := 0, newline := 1, hiscur := 9, hiscnt := 9,
    line := 105 :: List.replicate 64 0,
    history := [105 :: List.replicate 64 0, 98 :: List.replicate 64 0,
      99 :: List.replicate 64 0, 100 :: List.replicate 64 0, 101 :: List.replicate 64 0,
      102 :: List.replicate 64 0, 103 :: List.replicate 64 0, 104 :: List.replicate 64 0],
    queue := { front := 2, rear := 2,
               array := [105, 13, 98, 13, 99, 13, 100, 13, 101, 13, 102, 13, 103, 13, 104, 13] },
    prompt := [] }

/-! ## Vocabulary of the editing, display and queue properties -/

/-- The logical content of the line buffer, `line[0..linecount)`. -/
def content (sh : shell) : List Nat := sh.line.take sh.linecount.toNat

/-- Printable ASCII byte, 0x20..0x7E. -/
def printable (b : Nat) : Prop := 32 ≤ b ∧ b ≤ 126

instance (b : Nat) : Decidable (printable b) := by
  unfold printable; infer_instance

/-- The line "a" being edited with the cursor in front of it. -/
def home_shell : shell := { demo_shell with linecount := 1, linepos := 0 }

/-- The line "a" being edited with the cursor behind it. -/
def end_shell : shell := { demo_shell with linecount := 1, linepos := 1 }

/-- A call on the queue: `queue_push` with a byte, or `queue_pop`. -/
inductive qcall where
  | push (ch : Int)
  | pop
deriving DecidableEq

/-- Makes the calls one after the other on the queue; yields the final queue
and what each call returned. -/
def qrun (sgn : Bool) : queue → List qcall → Option (queue × List Int)
  | q, [] => some (q, [])
  | q, qcall.push ch :: cs =>
    match queue_push q ch with
    | none => none
    | some (q1, r) => (qrun sgn q1 cs).map (fun p => (p.1, r :: p.2))
  | q, qcall.pop :: cs =>
    match queue_pop sgn q with
    | none => none
    | some (q1, r) => (qrun sgn q1 cs).map (fun p => (p.1, r :: p.2))

/-- Push on the abstract bounded FIFO, a list of at most fifteen bytes: the
byte is appended and 0 returned when fewer than fifteen are held, otherwise
the list stays as it is and 1 is returned. -/
def fifo_push (l : List Nat) (ch : Int) : List Nat × Int :=
  if l.length < 15 then (l ++ [toChar ch], 0) else (l, 1)

/-- Pop on the abstract bounded FIFO: the head is removed and returned as a
`char` value, or `QUEUE_EMPTY` is returned when the list is empty. -/
def fifo_pop (sgn : Bool) : List Nat → List Nat × Int
  | [] => ([], QUEUE_EMPTY)
  | b :: t => (t, charVal sgn b)

/-- Makes the calls one after the other on the abstract FIFO. -/
def fifo_run (sgn : Bool) : List Nat → List qcall → List Nat × List Int
  | l, [] => (l, [])
  | l, qcall.push ch :: cs =>
    ((fifo_run sgn (fifo_push l ch).1 cs).1, (fifo_push l ch).2 :: (fifo_run sgn (fifo_push l ch).1 cs).2)
  | l, qcall.pop :: cs =>
    ((fifo_run sgn (fifo_pop sgn l).1 cs).1, (fifo_pop sgn l).2 :: (fifo_run sgn (fifo_pop sgn l).1 cs).2)

/-- Printable state: the logical content of the line buffer and the string
held in each history row consist of printable bytes. -/
def printable_ok (sh : shell) : Prop :=
  (∀ c ∈ content sh, printable c) ∧
    ∀ row ∈ sh.history, ∀ t, cstr row = some t → ∀ c ∈ t, printable c

/-- The browse cursor is no more than eight entries behind the commit count. -/
def browse_ok (sh : shell) : Prop := sh.hiscnt ≤ sh.hiscur + 8

/-- Modelled from the spec: the terminal, which is not part of the
repository, as the row of cells after the prompt and a column cursor. -/
structure display where
  cells : Nat → Nat
  cursor : Nat

/-- Modelled from the spec: what the terminal does with one byte.  A
printable byte overwrites the cell under the cursor and advances the cursor;
the backspace byte moves the cursor one cell left without erasing; no other
byte is described and none has an effect here. -/
def term_put (d : display) (b : Nat) : display :=
  if b = 8 then { d with cursor := d.cursor - 1 }
  else if 32 ≤ b ∧ b ≤ 126 then
    { cells := fun i => if i = d.cursor then b else d.cells i, cursor := d.cursor + 1 }
  else d

/-- Modelled from the spec: the terminal after the bytes written to it. -/
def term_run (d : display) (out : List Nat) : display := out.foldl term_put d

/-- The cells show the text, blank beyond it, and the cursor is at offset
`pos`. -/
def shows (d : display) (text : List Nat) (pos : Nat) : Prop :=
  d.cursor = pos ∧ ∀ i, d.cells i = text.getD i 32

/-! # Theorems -/

/-! ## Byte queue: FIFO behaviour -/

theorem queue_next_eq (v : Int) (h0 : 0 ≤ v) (h1 : v < 16) : queue_next v = (v + 1) % 16 := by
  unfold queue_next QUEUE_SIZE
  split <;> omega

theorem wr_eq_some {a : List Nat} {i : Int} (v : Nat) (h0 : 0 ≤ i) (h1 : i < a.length) :
    wr a i v = some (a.set i.toNat v) := by
  unfold wr; rw [if_pos ⟨h0, h1⟩]

theorem rd_eq_some {a : List Nat} {i : Int} (h0 : 0 ≤ i) (h1 : i < a.length) :
    rd a i = some (a.getD i.toNat 0) := by
  unfold rd; rw [if_pos h0]
  have : i.toNat < a.length := by omega
  simp [List.getD, List.getElem?_eq_getElem this]

theorem push_ok (q : queue) (ch : Int) (hq : queue_ok q) (hn : occupancy q < 15) :
    ∃ q1, queue_push q ch = some (q1, 0) ∧ queue_ok q1 ∧
      q1.rear = q.rear ∧ q1.front = queue_next q.front ∧
      q1.array = q.array.set q.front.toNat (toChar ch) ∧
      contents q1 = contents q ++ [toChar ch] := by
  obtain ⟨hl, hf0, hf1, hr0, hr1⟩ := hq
  have hnx := queue_next_eq q.front hf0 hf1
  unfold occupancy at hn
  have hne : queue_next q.front ≠ q.rear := by rw [hnx]; omega
  refine ⟨{ q with array := q.array.set q.front.toNat (toChar ch), front := queue_next q.front }, ?_, ?_, rfl, rfl, rfl, ?_⟩
  · unfold queue_push
    simp only [hne, ne_eq, not_false_eq_true, if_true]
    rw [wr_eq_some _ hf0 (by omega)]
  · refine ⟨by simp [hl], ?_, ?_, hr0, hr1⟩ <;> (simp only; rw [hnx]; omega)
  · unfold contents occupancy
    simp only
    have ho : ((queue_next q.front - q.rear) % 16).toNat = ((q.front - q.rear) % 16).toNat + 1 := by
      rw [hnx]; omega
    rw [ho, List.range_succ, List.map_append]
    congr 1
    · apply List.map_congr_left
      intro k hk
      rw [List.mem_range] at hk
      have : q.front.toNat ≠ ((q.rear + (k:Int)) % 16).toNat := by omega
      simp [List.getD, List.getElem?_set_ne this]
    · have : ((q.rear + ((((q.front - q.rear) % 16).toNat : Nat) : Int)) % 16).toNat = q.front.toNat := by omega
      simp only [List.map_cons, List.map_nil, this]
      have hlt : q.front.toNat < q.array.length := by omega
      simp [List.getD, hlt]

theorem push_full (q : queue) (ch : Int) (hq : queue_ok q) (hn : ¬ occupancy q < 15) :
    queue_push q ch = some (q, 1) := by
  obtain ⟨hl, hf0, hf1, hr0, hr1⟩ := hq
  have hnx := queue_next_eq q.front hf0 hf1
  unfold occupancy at hn
  have hne : queue_next q.front = q.rear := by rw [hnx]; omega
  unfold queue_push
  simp [hne]

theorem occupancy_lt (q : queue) : occupancy q < 16 := by
  unfold occupancy; omega

theorem contents_length (q : queue) : (contents q).length = occupancy q := by
  simp [contents]

theorem pop_empty (sgn : Bool) (q : queue) (hq : queue_ok q) (hn : occupancy q = 0) :
    queue_pop sgn q = some (q, QUEUE_EMPTY) := by
  obtain ⟨hl, hf0, hf1, hr0, hr1⟩ := hq
  unfold occupancy at hn
  have : q.front = q.rear := by omega
  simp [queue_pop, queue_isempty, this]

theorem pop_ok (sgn : Bool) (q : queue) (hq : queue_ok q) (hn : 0 < occupancy q) :
    ∃ q1 b t, queue_pop sgn q = some (q1, charVal sgn b) ∧ queue_ok q1 ∧
      q1.front = q.front ∧ q1.rear = queue_next q.rear ∧ q1.array = q.array ∧
      contents q = b :: t ∧ contents q1 = t := by
  obtain ⟨hl, hf0, hf1, hr0, hr1⟩ := hq
  have hnx := queue_next_eq q.rear hr0 hr1
  unfold occupancy at hn
  have hne : q.front ≠ q.rear := by omega
  refine ⟨{ q with rear := queue_next q.rear }, q.array.getD q.rear.toNat 0,
    contents { q with rear := queue_next q.rear }, ?_, ?_, rfl, rfl, rfl, ?_, rfl⟩
  · unfold queue_pop queue_isempty
    simp only [hne, decide_False, Bool.not_false, if_true]
    rw [rd_eq_some hr0 (by omega)]
  · refine ⟨hl, hf0, hf1, ?_, ?_⟩ <;> (simp only; rw [hnx]; omega)
  · unfold contents occupancy
    simp only
    obtain ⟨m, hm⟩ : ∃ m, ((q.front - q.rear) % 16).toNat = m + 1 := ⟨((q.front - q.rear) % 16).toNat - 1, by omega⟩
    have ho : ((q.front - queue_next q.rear) % 16).toNat = m := by
      rw [hnx]; omega
    rw [hm, ho, List.range_succ_eq_map, List.map_cons, List.map_map]
    congr 1
    · have : (q.rear % 16).toNat = q.rear.toNat := by omega
      simp [this]
    · apply List.map_congr_left
      intro k _
      have : ((queue_next q.rear + (k:Int)) % 16).toNat = ((q.rear + ((k + 1 : Nat) : Int)) % 16).toNat := by
        rw [hnx]; omega
      simp only [Function.comp, this, Nat.succ_eq_add_one]

theorem pushAll_contents (bs : List Int) : ∀ (q : queue), queue_ok q →
    ∃ q1, pushAll q bs = some q1 ∧ queue_ok q1 ∧ q1.rear = q.rear ∧
      contents q1 = contents q ++ (bs.take (15 - occupancy q)).map toChar := by
  induction bs with
  | nil => intro q hq; exact ⟨q, rfl, hq, rfl, by simp⟩
  | cons b bs ih =>
    intro q hq
    by_cases hn : occupancy q < 15
    · obtain ⟨q1, hp, hq1, hr, _, _, hc⟩ := push_ok q b hq hn
      obtain ⟨q2, hp2, hq2, hr2, hc2⟩ := ih q1 hq1
      refine ⟨q2, ?_, hq2, hr2.trans hr, ?_⟩
      · simp only [pushAll, hp, hp2]
      · have h1 : occupancy q1 = occupancy q + 1 := by
          rw [← contents_length, ← contents_length, hc]; simp
        have h2 : 15 - occupancy q = (15 - occupancy q1) + 1 := by omega
        rw [hc2, hc, h1, h2, h1]
        simp [List.take_succ_cons]
    · have hp := push_full q b hq hn
      obtain ⟨q2, hp2, hq2, hr2, hc2⟩ := ih q hq
      refine ⟨q2, ?_, hq2, hr2, ?_⟩
      · simp only [pushAll, hp, hp2]
      · have h0 : 15 - occupancy q = 0 := by omega
        rw [hc2, h0]; simp

theorem popN_contents (sgn : Bool) (k : Nat) : ∀ (q : queue), queue_ok q →
    ∃ q1, popN sgn k q = some (q1,
      ((contents q).map (charVal sgn) ++ List.replicate k QUEUE_EMPTY).take k) ∧ queue_ok q1 := by
  induction k with
  | zero => intro q hq; exact ⟨q, by simp [popN], hq⟩
  | succ k ih =>
    intro q hq
    by_cases hn : 0 < occupancy q
    · obtain ⟨q1, b, t, hp, hq1, _, _, _, hc, hc1⟩ := pop_ok sgn q hq hn
      obtain ⟨q2, hp2, hq2⟩ := ih q1 hq1
      refine ⟨q2, ?_, hq2⟩
      simp only [popN, hp, hp2, Option.map_some', hc, hc1]
      have : List.take k (List.map (charVal sgn) t ++ List.replicate (k + 1) QUEUE_EMPTY)
          = List.take k (List.map (charVal sgn) t ++ List.replicate k QUEUE_EMPTY) := by
        rw [List.replicate_succ', ← List.append_assoc, List.take_append_of_le_length]
        simp
      simp [List.take_succ_cons, this]
    · have h0 : occupancy q = 0 := by omega
      have hp := pop_empty sgn q hq h0
      obtain ⟨q2, hp2, hq2⟩ := ih q hq
      refine ⟨q2, ?_, hq2⟩
      have hc : contents q = [] := List.eq_nil_of_length_eq_zero (by rw [contents_length, h0])
      simp only [popN, hp, hp2, Option.map_some', hc]
      simp [List.replicate_succ, List.take_succ_cons]

/-- C2. Pushing `b_1..b_n` on an empty queue (any index) and then popping
yields the first `min n 15` bytes in order, as `char` values, and then
`QUEUE_EMPTY` for every further pop: the list of the first `k` results is the
first `k` elements of those bytes followed by `QUEUE_EMPTY`s. -/
theorem queue_fifo_capacity (sgn : Bool) (q : queue) (bs : List Int) (k : Nat)
    (hq : queue_ok q) (he : q.front = q.rear) :
    ∃ q1 q2, pushAll q bs = some q1 ∧
      popN sgn k q1 = some (q2,
        ((bs.take 15).map (fun b => charVal sgn (toChar b))
          ++ List.replicate k QUEUE_EMPTY).take k) := by
  obtain ⟨q1, hp, hq1, _, hc⟩ := pushAll_contents bs q hq
  obtain ⟨q2, hp2, _⟩ := popN_contents sgn k q1 hq1
  have h0 : occupancy q = 0 := by unfold occupancy; rw [he]; simp
  have hc0 : contents q = [] := List.eq_nil_of_length_eq_zero (by rw [contents_length, h0])
  refine ⟨q1, q2, hp, ?_⟩
  rw [hp2, hc, hc0, h0]
  simp [List.map_map, Function.comp_def]

theorem queue_fifo_capacity_witness :
    ∃ q1 q2, pushAll { front := 14, rear := 14, array := List.replicate 16 0 }
        [1, 2, 3, 4, 5, 6, 7, 8, 9, 10, 11, 12, 13, 14, 15, 16, 17] = some q1 ∧
      popN false 17 q1 = some (q2,
        (([1, 2, 3, 4, 5, 6, 7, 8, 9, 10, 11, 12, 13, 14, 15, 16, 17].take 15).map
            (fun b => charVal false (toChar b))
          ++ List.replicate 17 QUEUE_EMPTY).take 17) :=
  queue_fifo_capacity false { front := 14, rear := 14, array := List.replicate 16 0 }
    [1, 2, 3, 4, 5, 6, 7, 8, 9, 10, 11, 12, 13, 14, 15, 16, 17] 17 (by decide) (by decide)

/-- C3. With both indices inside the array, `shell_addchar` always comes back
with `ch` and touches nothing but the queue; `queue_push` returns 0, stores
the byte at `front` and advances `front` alone exactly when
`queue_next front` differs from `rear`, and otherwise returns 1 and leaves the
whole queue as it was. -/
theorem push_never_fails (sh : shell) (ch : Int) (hq : queue_ok sh.queue) :
    (∃ q1 r, queue_push sh.queue ch = some (q1, r) ∧
      shell_addchar sh ch = some ({ sh with queue := q1 }, ch) ∧
      (r = 0 ↔ queue_next sh.queue.front ≠ sh.queue.rear) ∧
      (r = 0 ∨ r = 1)) ∧
    (queue_next sh.queue.front ≠ sh.queue.rear →
      queue_push sh.queue ch = some
        ({ front := queue_next sh.queue.front, rear := sh.queue.rear,
           array := sh.queue.array.set sh.queue.front.toNat (toChar ch) }, 0)) ∧
    (queue_next sh.queue.front = sh.queue.rear →
      queue_push sh.queue ch = some (sh.queue, 1)) := by
  obtain ⟨hl, hf0, hf1, hr0, hr1⟩ := hq
  have hw := wr_eq_some (a := sh.queue.array) (toChar ch) hf0 (by omega)
  by_cases hne : queue_next sh.queue.front = sh.queue.rear
  · have hp : queue_push sh.queue ch = some (sh.queue, 1) := by simp [queue_push, hne]
    refine ⟨⟨sh.queue, 1, hp, ?_, ?_, Or.inr rfl⟩, fun h => absurd hne h, fun _ => hp⟩
    · simp [shell_addchar, hp]
    · simp [hne]
  · have hp : queue_push sh.queue ch = some
        ({ front := queue_next sh.queue.front, rear := sh.queue.rear,
           array := sh.queue.array.set sh.queue.front.toNat (toChar ch) }, 0) := by
      simp [queue_push, hne, hw]
    refine ⟨⟨_, 0, hp, ?_, ?_, Or.inl rfl⟩, fun _ => hp, fun h => absurd h hne⟩
    · simp [shell_addchar, hp]
    · simp [hne]

theorem push_never_fails_witness :
    (∃ q1 r, queue_push m_shell.queue 65 = some (q1, r) ∧
      shell_addchar m_shell 65 = some ({ m_shell with queue := q1 }, 65) ∧
      (r = 0 ↔ queue_next m_shell.queue.front ≠ m_shell.queue.rear) ∧
      (r = 0 ∨ r = 1)) ∧
    (queue_next m_shell.queue.front ≠ m_shell.queue.rear →
      queue_push m_shell.queue 65 = some
        ({ front := queue_next m_shell.queue.front, rear := m_shell.queue.rear,
           array := m_shell.queue.array.set m_shell.queue.front.toNat (toChar 65) }, 0)) ∧
    (queue_next m_shell.queue.front = m_shell.queue.rear →
      queue_push m_shell.queue 65 = some (m_shell.queue, 1)) :=
  push_never_fails m_shell 65 (by decide)

/-! ## C strings and `strcpy` -/

theorem cstr_eq_some_iff (a t : List Nat) :
    cstr a = some t ↔ ∃ r, a = t ++ 0 :: r ∧ ∀ c ∈ t, c ≠ 0 := by
  induction a generalizing t with
  | nil => simp [cstr]
  | cons c cs ih =>
    unfold cstr
    by_cases hc : c = 0
    · subst hc
      simp only [if_true, Option.some.injEq]
      constructor
      · intro h; subst h; exact ⟨cs, rfl, by simp⟩
      · rintro ⟨r, h, hz⟩
        cases t with
        | nil => rfl
        | cons d t =>
          simp only [List.cons_append, List.cons.injEq] at h
          exact absurd h.1.symm (hz d (by simp))
    · simp only [hc, if_false, Option.map_eq_some']
      constructor
      · rintro ⟨u, hu, rfl⟩
        obtain ⟨r, h, hz⟩ := (ih u).1 hu
        refine ⟨r, by rw [h]; rfl, ?_⟩
        intro d hd
        rcases List.mem_cons.1 hd with h | h
        · rw [h]; exact hc
        · exact hz d h
      · rintro ⟨r, h, hz⟩
        cases t with
        | nil => simp only [List.nil_append, List.cons.injEq] at h; exact absurd h.1 hc
        | cons d t =>
          simp only [List.cons_append, List.cons.injEq] at h
          refine ⟨t, (ih t).2 ⟨r, h.2, fun x hx => hz x (by simp [hx])⟩, by rw [h.1]⟩

theorem cstr_of_mem (a : List Nat) (h : 0 ∈ a) : ∃ t, cstr a = some t := by
  induction a with
  | nil => simp at h
  | cons c cs ih =>
    unfold cstr
    by_cases hc : c = 0
    · exact ⟨[], by simp [hc]⟩
    · have : 0 ∈ cs := by
        rcases List.mem_cons.1 h with h | h
        · exact absurd h.symm hc
        · exact h
      obtain ⟨t, ht⟩ := ih this
      exact ⟨c :: t, by simp [hc, ht]⟩

theorem cstr_length_lt {a t : List Nat} (h : cstr a = some t) : t.length < a.length := by
  obtain ⟨r, h1, _⟩ := (cstr_eq_some_iff a t).1 h
  rw [h1]; simp

theorem cstr_append_zero (t r : List Nat) (hz : ∀ c ∈ t, c ≠ 0) : cstr (t ++ 0 :: r) = some t :=
  (cstr_eq_some_iff _ _).2 ⟨r, rfl, hz⟩

theorem strcpy_go_eq (t : List Nat) : ∀ (r : List Nat) (i : Nat) (dst : List Nat),
    (∀ c ∈ t, c ≠ 0) → i + t.length < dst.length →
    strcpy_go (t ++ 0 :: r) i dst = some (dst.take i ++ t ++ 0 :: dst.drop (i + t.length + 1)) := by
  induction t with
  | nil =>
    intro r i dst _ hl
    simp only [List.nil_append, strcpy_go, List.length_nil, Nat.add_zero] at hl ⊢
    rw [wr_eq_some 0 (by omega) (by omega)]
    simp [List.set_eq_take_append_cons_drop, hl]
  | cons c t ih =>
    intro r i dst hz hl
    simp only [List.length_cons] at hl
    have hc : c ≠ 0 := hz c (by simp)
    show strcpy_go (c :: (t ++ 0 :: r)) i dst = _
    rw [strcpy_go, wr_eq_some c (by omega) (by omega)]
    simp only [hc, if_false, Int.toNat_ofNat]
    rw [ih r (i + 1) _ (fun x hx => hz x (by simp [hx])) (by simp; omega)]
    have h1 : List.take (i + 1) (dst.set i c) = List.take i dst ++ [c] := by
      rw [List.take_succ, List.getElem?_set_self (by omega)]
      apply List.ext_getElem?
      intro n
      rw [List.getElem?_append, List.getElem?_append, List.getElem?_take, List.getElem?_take]
      simp only [List.length_take, List.length_set]
      by_cases hn : n < i
      · simp [hn, show n < dst.length by omega, show i ≠ n by omega]
      · simp [hn, show ¬ (n < i ∧ n < dst.length) by omega]
    have h2 : List.drop (i + 1 + t.length + 1) (dst.set i c)
        = List.drop (i + (t.length + 1) + 1) dst := by
      rw [List.drop_set_of_lt c dst (by omega)]
      congr 1; omega
    rw [h1, h2]
    simp

/-! ## The loops of `remove_char` and `insert_char` -/

theorem rd_eq_get {a : List Nat} {i : Int} (h0 : 0 ≤ i) : rd a i = a[i.toNat]? := by
  unfold rd; rw [if_pos h0]

theorem get_some_of_lt (a : List Nat) (n : Nat) (h : n < a.length) : ∃ v, a[n]? = some v :=
  ⟨a[n], List.getElem?_eq_getElem h⟩

theorem shift_loop_spec (n : Nat) : ∀ (p c : Int) (ln : List Nat),
    0 ≤ p → c + 1 = p + n → c + 1 < ln.length →
    ∃ l1, shift_loop n p c ln = some l1 ∧ l1.length = ln.length ∧
      ∀ i : Nat, l1[i]? = if p < (i : Int) ∧ (i : Int) ≤ c + 1 then ln[i - 1]? else ln[i]? := by
  induction n with
  | zero =>
    intro p c ln _ hc _
    have hlt : ¬ c ≥ p := by omega
    refine ⟨ln, by simp [shift_loop, hlt], rfl, ?_⟩
    intro i
    rw [if_neg (by omega)]
  | succ n ih =>
    intro p c ln hp hc hl
    have hge : c ≥ p := by omega
    obtain ⟨v, hv⟩ := get_some_of_lt ln c.toNat (by omega)
    obtain ⟨l1, h1, h2, h3⟩ := ih p (c - 1) (ln.set (c + 1).toNat v) hp
      (by push_cast at hc ⊢; omega) (by simp only [List.length_set]; omega)
    refine ⟨l1, ?_, by simpa using h2, ?_⟩
    · simp only [shift_loop, hge, if_true, rd_eq_get (show 0 ≤ c by omega), hv]
      rw [wr_eq_some v (by omega) hl]
      exact h1
    · intro i
      rw [h3 i]
      simp only [List.getElem?_set]
      split_ifs <;> first | rfl | (exfalso; omega) | (rw [← hv]; congr 1; omega)

theorem remove_loop_spec (n : Nat) : ∀ (p c : Int) (ln : List Nat),
    0 ≤ p → p + n = c → c < ln.length →
    ∃ l1, remove_loop n p c ln = some l1 ∧ l1.length = ln.length ∧
      ∀ i : Nat, l1[i]? = if p ≤ (i : Int) ∧ (i : Int) < c then ln[i + 1]? else ln[i]? := by
  induction n with
  | zero =>
    intro p c ln _ hc _
    have hlt : ¬ p < c := by omega
    refine ⟨ln, by simp [remove_loop, hlt], rfl, ?_⟩
    intro i
    rw [if_neg (by omega)]
  | succ n ih =>
    intro p c ln hp hc hl
    have hge : p < c := by omega
    obtain ⟨v, hv⟩ := get_some_of_lt ln (p + 1).toNat (by omega)
    obtain ⟨l1, h1, h2, h3⟩ := ih (p + 1) c (ln.set p.toNat v) (by omega)
      (by push_cast at hc ⊢; omega) (by simp only [List.length_set]; omega)
    refine ⟨l1, ?_, by simpa using h2, ?_⟩
    · simp only [remove_loop, hge, if_true, rd_eq_get (show 0 ≤ p + 1 by omega), hv]
      rw [wr_eq_some v hp (by omega)]
      exact h1
    · intro i
      rw [h3 i]
      simp only [List.getElem?_set]
      split_ifs <;> first | rfl | (exfalso; omega) | (rw [← hv]; congr 1; omega)

theorem echo_loop_spec (n : Nat) : ∀ (p c : Int) (ln : List Nat),
    0 ≤ p → p + n = c → c ≤ ln.length →
    echo_loop n p c ln = some ((ln.drop p.toNat).take n) := by
  induction n with
  | zero =>
    intro p c ln _ hc _
    have hlt : ¬ p < c := by omega
    simp [echo_loop, hlt]
  | succ n ih =>
    intro p c ln hp hc hl
    have hge : p < c := by omega
    obtain ⟨v, hv⟩ := get_some_of_lt ln p.toNat (by omega)
    simp only [echo_loop, hge, if_true, rd_eq_get hp, hv]
    rw [ih (p + 1) c ln (by omega) (by push_cast at hc ⊢; omega) hl]
    simp only [Option.map_some', Option.some.injEq]
    have hd : List.drop p.toNat ln = v :: List.drop (p + 1).toNat ln := by
      have hlt : p.toNat < ln.length := by omega
      rw [show (p + 1).toNat = p.toNat + 1 by omega, List.drop_eq_getElem_cons hlt]
      congr 1
      rw [List.getElem?_eq_getElem hlt] at hv
      exact (Option.some.inj hv)
    rw [hd, List.take_succ_cons]

/-! ## Editing operations -/

theorem insert_char_full (sh : shell) (ch : Int) (h : ¬ sh.linecount < 64) :
    insert_char sh ch = some (sh, []) := by
  simp [insert_char, LINE_LENGTH, h]

theorem insert_char_spec (sh : shell) (ch : Int) (hk : line_ok sh) (h : sh.linecount < 64) :
    ∃ l2, insert_char sh ch = some
        ({ sh with line := l2, linecount := sh.linecount + 1, linepos := sh.linepos + 1 },
          (l2.drop sh.linepos.toNat).take (sh.linecount + 1 - sh.linepos).toNat
            ++ List.replicate (sh.linecount - sh.linepos).toNat 8) ∧
      l2.length = 65 ∧
      ∀ i : Nat, l2[i]? =
        if (i : Int) = sh.linepos then some (toChar ch)
        else if sh.linepos < (i : Int) ∧ (i : Int) ≤ sh.linecount + 1 then (sh.line)[i - 1]?
        else (sh.line)[i]? := by
  obtain ⟨hl, hp0, hpc, hc⟩ := hk
  obtain ⟨l1, h1, h2, h3⟩ := shift_loop_spec (sh.linecount - sh.linepos + 1).toNat
    sh.linepos sh.linecount sh.line hp0 (by omega) (by omega)
  have hw := wr_eq_some (a := l1) (toChar ch) hp0 (by omega)
  have he := echo_loop_spec (sh.linecount + 1 - sh.linepos).toNat sh.linepos
    (sh.linecount + 1) (l1.set sh.linepos.toNat (toChar ch)) hp0 (by omega)
    (by simp only [List.length_set]; omega)
  refine ⟨l1.set sh.linepos.toNat (toChar ch), ?_, by simp only [List.length_set]; omega, ?_⟩
  · unfold insert_char
    simp only [LINE_LENGTH, h, if_true, h1, hw, he]
    simp
  · intro i
    rw [List.getElem?_set, h3 i]
    split_ifs <;> first | rfl | (exfalso; omega)

theorem remove_char_spec (sh : shell) (hk : line_ok sh) (h : 0 < sh.linepos) :
    ∃ l2, remove_char sh = some
        { sh with linepos := sh.linepos - 1, linecount := sh.linecount - 1, line := l2 } ∧
      l2.length = 65 ∧
      ∀ i : Nat, l2[i]? =
        if (i : Int) = sh.linecount - 1 then some 0
        else if sh.linepos - 1 ≤ (i : Int) ∧ (i : Int) < sh.linecount then (sh.line)[i + 1]?
        else (sh.line)[i]? := by
  obtain ⟨hl, hp0, hpc, hc⟩ := hk
  obtain ⟨l1, h1, h2, h3⟩ := remove_loop_spec (sh.linecount - (sh.linepos - 1)).toNat
    (sh.linepos - 1) sh.linecount sh.line (by omega) (by omega) (by omega)
  have hw := wr_eq_some (a := l1) (i := sh.linecount - 1) 0 (by omega) (by omega)
  refine ⟨l1.set (sh.linecount - 1).toNat 0, ?_, by simp only [List.length_set]; omega, ?_⟩
  · unfold remove_char
    simp only [h1, hw]
  · intro i
    rw [List.getElem?_set, h3 i]
    split_ifs <;> first | rfl | (exfalso; omega)

theorem mem_drop_of_get {a : List Nat} {n k : Nat} {v : Nat} (h : a[k]? = some v) (hn : n ≤ k) :
    v ∈ a.drop n := by
  rw [List.mem_iff_getElem?]
  exact ⟨k - n, by rw [List.getElem?_drop, show n + (k - n) = k by omega, h]⟩

theorem backspace_spec (sh : shell) (hk : line_ok sh) :
    ∃ sh1 out, backspace sh = some (sh1, out) ∧
      (sh.linepos = 0 → sh1 = sh ∧ out = []) ∧
      (0 < sh.linepos → remove_char sh = some sh1) := by
  by_cases h : 0 < sh.linepos
  · obtain ⟨l2, hr, hl2, hp⟩ := remove_char_spec sh hk h
    obtain ⟨hl, hp0, hpc, hc⟩ := hk
    have hz : l2[(sh.linecount - 1).toNat]? = some 0 := by
      rw [hp, if_pos (by omega)]
    obtain ⟨t, ht⟩ := cstr_of_mem _ (mem_drop_of_get hz (show (sh.linepos - 1).toNat ≤ _ by omega))
    have hca : cstrAt l2 (sh.linepos - 1) = some t := by
      unfold cstrAt
      rw [if_pos (by omega), ht]
    unfold backspace
    simp only [gt_iff_lt, h, if_true, hr, hca]
    by_cases h2 : sh.linepos - 1 < sh.linecount - 1
    · exact ⟨_, _, by rw [if_pos h2], fun h0 => by omega, fun _ => rfl⟩
    · exact ⟨_, _, by rw [if_neg h2], fun h0 => by omega, fun _ => rfl⟩
  · have h0 : sh.linepos = 0 := by have := hk.2.1; omega
    refine ⟨sh, [], by simp [backspace, h], fun _ => ⟨rfl, rfl⟩, fun h1 => absurd h1 h⟩

/-! ## Commit and history load -/

theorem strcpy_spec (dst src t : List Nat) (h : cstr src = some t) (hl : t.length < dst.length) :
    strcpy dst src = some (t ++ 0 :: dst.drop (t.length + 1)) := by
  obtain ⟨r, hr, hz⟩ := (cstr_eq_some_iff src t).1 h
  unfold strcpy
  rw [hr, strcpy_go_eq t r 0 dst hz (by omega)]
  simp

theorem strcpy_length (dst t : List Nat) (hl : t.length < dst.length) :
    (t ++ 0 :: dst.drop (t.length + 1)).length = dst.length := by
  simp only [List.length_append, List.length_cons, List.length_drop]; omega

theorem cstr_set_zero (a : List Nat) (n : Nat) (h : n < a.length) :
    ∃ t, cstr (a.set n 0) = some t ∧ t.length ≤ n ∧
      ((∀ c ∈ a.take n, c ≠ 0) → t = a.take n) := by
  have hs : a.set n 0 = a.take n ++ 0 :: a.drop (n + 1) := by
    rw [List.set_eq_take_append_cons_drop, if_pos h]
  obtain ⟨t, ht⟩ := cstr_of_mem (a.set n 0) (by rw [hs]; simp)
  refine ⟨t, ht, ?_, ?_⟩
  · obtain ⟨r, hr, hz⟩ := (cstr_eq_some_iff _ _).1 ht
    by_contra hlt
    have h1 : (a.set n 0)[n]? = some 0 := List.getElem?_set_self h
    rw [hr, List.getElem?_append_left (by omega)] at h1
    exact hz 0 (List.mem_iff_getElem?.2 ⟨n, h1⟩) rfl
  · intro hz
    have := cstr_append_zero (a.take n) (a.drop (n + 1)) hz
    rw [← hs, ht] at this
    exact Option.some.inj this

theorem tmod8 (x : Int) (h : 0 ≤ x) :
    Int.tmod x HISTORY_COUNT = x % 8 ∧ 0 ≤ x % 8 ∧ x % 8 < 8 := by
  refine ⟨?_, by omega, by omega⟩
  unfold HISTORY_COUNT
  rw [Int.tmod_eq_emod h (by omega)]

theorem rdRow_eq {h : List (List Nat)} {i : Int} (h0 : 0 ≤ i) (h1 : i < h.length) :
    ∃ row, h[i.toNat]? = some row ∧ rdRow h i = some row ∧ row ∈ h := by
  have hlt : i.toNat < h.length := by omega
  refine ⟨h[i.toNat], List.getElem?_eq_getElem hlt, ?_, List.getElem_mem hlt⟩
  unfold rdRow; rw [if_pos h0, List.getElem?_eq_getElem hlt]

theorem wrRow_eq {h : List (List Nat)} {i : Int} (r : List Nat) (h0 : 0 ≤ i) (h1 : i < h.length) :
    wrRow h i r = some (h.set i.toNat r) := by
  unfold wrRow; rw [if_pos ⟨h0, h1⟩]

theorem wrap32_id (x : Int) (h0 : -2147483648 ≤ x) (h1 : x ≤ 2147483647) : wrap32 x = x := by
  unfold wrap32; omega

theorem tmod8_lt (x : Int) : Int.tmod x HISTORY_COUNT < 8 := by
  unfold HISTORY_COUNT
  exact Int.tmod_lt_of_pos x (by decide)

/-- What `pack_line` does when `hiscnt % 8`, as C computes it, is the row
index `j`. -/
theorem pack_line_at (sh : shell) (hk : line_ok sh) (hhl : sh.history.length = 8)
    (hrows : ∀ row ∈ sh.history, row.length = 65 ∧ 0 ∈ row) (j : Int)
    (hj : Int.tmod sh.hiscnt HISTORY_COUNT = j) (hj0 : 0 ≤ j) :
    ∃ t row, cstr (sh.line.set sh.linecount.toNat 0) = some t ∧ t.length ≤ sh.linecount.toNat ∧
      ((∀ c ∈ sh.line.take sh.linecount.toNat, c ≠ 0) → t = sh.line.take sh.linecount.toNat) ∧
      (sh.history)[j.toNat]? = some row ∧ row ∈ sh.history ∧
      pack_line sh = some
        (if sh.linecount ≠ 0 then
          { sh with line := sh.line.set sh.linecount.toNat 0,
                    history := sh.history.set j.toNat (t ++ 0 :: row.drop (t.length + 1)),
                    hiscnt := wrap32 (sh.hiscnt + 1), hiscur := wrap32 (sh.hiscnt + 1),
                    linecount := 0, linepos := 0 }
        else { sh with line := sh.line.set sh.linecount.toNat 0, linecount := 0, linepos := 0 }) := by
  obtain ⟨hl, hp0, hpc, hc⟩ := hk
  obtain ⟨t, ht, htl, htz⟩ := cstr_set_zero sh.line sh.linecount.toNat (by omega)
  have hj8 : j < 8 := by rw [← hj]; exact tmod8_lt _
  obtain ⟨row, hrow, hrd, hmem⟩ := rdRow_eq (h := sh.history) hj0 (by omega)
  have hrl := (hrows row hmem).1
  refine ⟨t, row, ht, htl, htz, hrow, hmem, ?_⟩
  have hw := wr_eq_some (a := sh.line) (i := sh.linecount) 0 (by omega) (by omega)
  unfold pack_line
  have hwr := wrRow_eq (h := sh.history) (t ++ 0 :: List.drop (t.length + 1) row) hj0 (by omega)
  simp only [hw, hj, hrd, strcpy_spec row _ t ht (by omega), hwr]
  split <;> rfl

theorem pack_line_spec (sh : shell) (hk : line_ok sh) (hh : history_ok sh) :
    ∃ t row, cstr (sh.line.set sh.linecount.toNat 0) = some t ∧ t.length ≤ sh.linecount.toNat ∧
      ((∀ c ∈ sh.line.take sh.linecount.toNat, c ≠ 0) → t = sh.line.take sh.linecount.toNat) ∧
      (sh.history)[(sh.hiscnt % 8).toNat]? = some row ∧
      pack_line sh = some
        (if sh.linecount ≠ 0 then
          { sh with line := sh.line.set sh.linecount.toNat 0,
                    history := sh.history.set (sh.hiscnt % 8).toNat
                      (t ++ 0 :: row.drop (t.length + 1)),
                    hiscnt := wrap32 (sh.hiscnt + 1), hiscur := wrap32 (sh.hiscnt + 1),
                    linecount := 0, linepos := 0 }
        else { sh with line := sh.line.set sh.linecount.toNat 0, linecount := 0, linepos := 0 }) := by
  obtain ⟨hhl, hrows, hcur0, hcur, _⟩ := hh
  obtain ⟨hm, hm0, hm1⟩ := tmod8 sh.hiscnt (by omega)
  obtain ⟨t, row, h1, h2, h3, h4, _, h5⟩ := pack_line_at sh hk hhl hrows _ hm hm0
  exact ⟨t, row, h1, h2, h3, h4, h5⟩

/-- A `pack_line` that stays inside the arrays, whatever `hiscnt` holds. -/
theorem pack_line_some (sh sh1 : shell) (hk : line_ok sh) (hhl : sh.history.length = 8)
    (hrows : ∀ row ∈ sh.history, row.length = 65 ∧ 0 ∈ row) (h : pack_line sh = some sh1) :
    ∃ t, cstr (sh.line.set sh.linecount.toNat 0) = some t ∧ t.length ≤ sh.linecount.toNat ∧
      ((∀ c ∈ sh.line.take sh.linecount.toNat, c ≠ 0) → t = sh.line.take sh.linecount.toNat) ∧
      ((sh.linecount = 0 ∧
          sh1 = { sh with line := sh.line.set sh.linecount.toNat 0, linecount := 0,
                          linepos := 0 }) ∨
       (sh.linecount ≠ 0 ∧ ∃ row j, j < 8 ∧ row ∈ sh.history ∧
          sh1 = { sh with line := sh.line.set sh.linecount.toNat 0,
                          history := sh.history.set j (t ++ 0 :: row.drop (t.length + 1)),
                          hiscnt := wrap32 (sh.hiscnt + 1), hiscur := wrap32 (sh.hiscnt + 1),
                          linecount := 0, linepos := 0 })) := by
  have hw := wr_eq_some (a := sh.line) (i := sh.linecount) 0 (by have := hk.2.1; have := hk.2.2.1; omega)
    (by have := hk.1; have := hk.2.2.2; omega)
  by_cases h0 : sh.linecount = 0
  · obtain ⟨t, ht, htl, htz⟩ := cstr_set_zero sh.line sh.linecount.toNat
      (by have := hk.1; have := hk.2.2.2; omega)
    refine ⟨t, ht, htl, htz, Or.inl ⟨h0, ?_⟩⟩
    unfold pack_line at h
    rw [hw] at h
    simp only [h0, ne_eq, not_true_eq_false, if_false] at h
    rw [← Option.some.inj h, h0]
  · by_cases hj0 : 0 ≤ Int.tmod sh.hiscnt HISTORY_COUNT
    · obtain ⟨t, row, ht, htl, htz, hrow, hmem, hp⟩ := pack_line_at sh hk hhl hrows _ rfl hj0
      rw [if_pos h0, h] at hp
      have h8 := tmod8_lt sh.hiscnt
      exact ⟨t, ht, htl, htz, Or.inr ⟨h0, row, _, by omega, hmem, Option.some.inj hp⟩⟩
    · exfalso
      unfold pack_line at h
      rw [hw] at h
      simp only [h0, ne_eq, not_false_eq_true, if_true, rdRow, hj0, if_false] at h
      exact absurd h (by simp)

/-- What `change_history` does when `hiscur % 8`, as C computes it, is the
row index `j`. -/
theorem change_history_at (sh : shell) (hl : sh.line.length = 65) (hhl : sh.history.length = 8)
    (hrows : ∀ row ∈ sh.history, row.length = 65 ∧ 0 ∈ row) (j : Int)
    (hj : Int.tmod sh.hiscur HISTORY_COUNT = j) (hj0 : 0 ≤ j) :
    ∃ t row, (sh.history)[j.toNat]? = some row ∧ cstr row = some t ∧
      t.length ≤ 64 ∧
      change_history sh = some
        ({ sh with line := t ++ 0 :: sh.line.drop (t.length + 1),
                   linecount := (t.length : Int), linepos := (t.length : Int) },
         [13] ++ sh.prompt ++ t ++ [27, 91, 75]) := by
  have hj8 : j < 8 := by rw [← hj]; exact tmod8_lt _
  obtain ⟨row, hrow, hrd, hmem⟩ := rdRow_eq (h := sh.history) hj0 (by omega)
  obtain ⟨hrl, hrz⟩ := hrows row hmem
  obtain ⟨t, ht⟩ := cstr_of_mem row hrz
  have htl := cstr_length_lt ht
  refine ⟨t, row, hrow, ht, by omega, ?_⟩
  unfold change_history
  simp only [hj, hrd, strcpy_spec sh.line row t ht (by omega), ht, strlen, Option.map_some']

theorem change_history_spec (sh : shell) (hl : sh.line.length = 65) (hhl : sh.history.length = 8)
    (hrows : ∀ row ∈ sh.history, row.length = 65 ∧ 0 ∈ row) (hcur : 0 ≤ sh.hiscur) :
    ∃ t row, (sh.history)[(sh.hiscur % 8).toNat]? = some row ∧ cstr row = some t ∧
      t.length ≤ 64 ∧
      change_history sh = some
        ({ sh with line := t ++ 0 :: sh.line.drop (t.length + 1),
                   linecount := (t.length : Int), linepos := (t.length : Int) },
         [13] ++ sh.prompt ++ t ++ [27, 91, 75]) := by
  obtain ⟨hm, hm0, hm1⟩ := tmod8 sh.hiscur hcur
  exact change_history_at sh hl hhl hrows _ hm hm0

/-- A `change_history` that stays inside the arrays, whatever `hiscur`
holds: it loads the string of one of the rows. -/
theorem change_history_some (sh sh1 : shell) (out : List Nat) (hl : sh.line.length = 65)
    (hhl : sh.history.length = 8) (hrows : ∀ row ∈ sh.history, row.length = 65 ∧ 0 ∈ row)
    (h : change_history sh = some (sh1, out)) :
    ∃ t row, row ∈ sh.history ∧ cstr row = some t ∧ t.length ≤ 64 ∧
      sh1 = { sh with line := t ++ 0 :: sh.line.drop (t.length + 1),
                      linecount := (t.length : Int), linepos := (t.length : Int) } ∧
      out = [13] ++ sh.prompt ++ t ++ [27, 91, 75] := by
  by_cases hj0 : 0 ≤ Int.tmod sh.hiscur HISTORY_COUNT
  · obtain ⟨t, row, hrow, ht, htl, hch⟩ := change_history_at sh hl hhl hrows _ rfl hj0
    rw [h] at hch
    have he := Option.some.inj hch
    simp only [Prod.mk.injEq] at he
    exact ⟨t, row, List.getElem?_mem hrow, ht, htl, he.1, he.2⟩
  · exfalso
    unfold change_history at h
    simp only [rdRow, hj0, if_false] at h
    exact absurd h (by simp)

/-- The row index of the counter value `INT_MIN`. -/
theorem tmod8_int_min : Int.tmod (-2147483648) HISTORY_COUNT = 0 := by decide

/-! ## Well-formedness is preserved -/

theorem frame_refl (sh : shell) : frame sh sh := ⟨rfl, rfl, rfl, rfl, rfl⟩

theorem shell_ok_mem {sh : shell} (hk : shell_ok sh) : mem_ok sh :=
  ⟨hk.1, hk.2.1.1, hk.2.1.2.1, hk.2.2⟩

theorem shell_ok_frame {sh sh1 : shell} (hk : shell_ok sh) (hl : line_ok sh1)
    (hf : frame sh sh1) (hc : sh1.hiscur = sh.hiscur) : shell_ok sh1 := by
  obtain ⟨_, hh, hq⟩ := hk
  obtain ⟨h1, h2, h3, _, _⟩ := hf
  refine ⟨hl, ?_, by rw [h3]; exact hq⟩
  unfold history_ok at hh ⊢
  rw [h1, h2, hc]; exact hh

theorem mem_ok_frame {sh sh1 : shell} (hk : mem_ok sh) (hl : line_ok sh1)
    (hf : frame sh sh1) : mem_ok sh1 := by
  obtain ⟨_, hhl, hrows, hq⟩ := hk
  obtain ⟨h1, _, h3, _, _⟩ := hf
  exact ⟨hl, by rw [h1]; exact hhl, by rw [h1]; exact hrows, by rw [h3]; exact hq⟩

theorem insert_char_line (sh : shell) (ch : Int) (hk : line_ok sh) :
    ∃ sh1 out, insert_char sh ch = some (sh1, out) ∧ line_ok sh1 ∧ frame sh sh1 ∧
      sh1.hiscur = sh.hiscur := by
  by_cases h : sh.linecount < 64
  · obtain ⟨l2, hi, hl2, _⟩ := insert_char_spec sh ch hk h
    obtain ⟨hl, hp0, hpc, hc⟩ := hk
    exact ⟨_, _, hi, ⟨hl2, by simp only; omega, by simp only; omega, by simp only; omega⟩,
      ⟨rfl, rfl, rfl, rfl, rfl⟩, rfl⟩
  · exact ⟨sh, [], insert_char_full sh ch h, hk, frame_refl sh, rfl⟩

theorem backspace_line (sh : shell) (hk : line_ok sh) :
    ∃ sh1 out, backspace sh = some (sh1, out) ∧ line_ok sh1 ∧ frame sh sh1 ∧
      sh1.hiscur = sh.hiscur := by
  obtain ⟨sh1, out, hb, h0, h1⟩ := backspace_spec sh hk
  refine ⟨sh1, out, hb, ?_⟩
  by_cases h : 0 < sh.linepos
  · obtain ⟨l2, hr, hl2, _⟩ := remove_char_spec sh hk h
    have := h1 h
    rw [hr] at this
    have he := (Option.some.inj this).symm
    subst he
    obtain ⟨hl, hp0, hpc, hc⟩ := hk
    exact ⟨⟨hl2, by simp only; omega, by simp only; omega, by simp only; omega⟩,
      ⟨rfl, rfl, rfl, rfl, rfl⟩, rfl⟩
  · have hz : sh.linepos = 0 := by have := hk.2.1; omega
    obtain ⟨he, _⟩ := h0 hz
    subst he
    exact ⟨hk, frame_refl _, rfl⟩

theorem left_key_line (sh : shell) (hk : line_ok sh) :
    ∃ sh1 out, left_key sh = some (sh1, out) ∧ line_ok sh1 ∧ frame sh sh1 ∧
      sh1.hiscur = sh.hiscur := by
  unfold left_key
  obtain ⟨hl, hp0, hpc, hc⟩ := hk
  split
  · exact ⟨_, _, rfl, ⟨hl, by simp only; omega, by simp only; omega, hc⟩,
      ⟨rfl, rfl, rfl, rfl, rfl⟩, rfl⟩
  · exact ⟨_, _, rfl, ⟨hl, hp0, hpc, hc⟩, frame_refl _, rfl⟩

theorem right_key_line (sh : shell) (hk : line_ok sh) :
    ∃ sh1 out, right_key sh = some (sh1, out) ∧ line_ok sh1 ∧ frame sh sh1 ∧
      sh1.hiscur = sh.hiscur := by
  unfold right_key
  obtain ⟨hl, hp0, hpc, hc⟩ := hk
  split
  · obtain ⟨v, hv⟩ := get_some_of_lt sh.line sh.linepos.toNat (by omega)
    rw [rd_eq_get hp0, hv]
    exact ⟨_, _, rfl, ⟨hl, by simp only; omega, by simp only; omega, hc⟩,
      ⟨rfl, rfl, rfl, rfl, rfl⟩, rfl⟩
  · exact ⟨_, _, rfl, ⟨hl, hp0, hpc, hc⟩, frame_refl _, rfl⟩

theorem insert_char_ok (sh : shell) (ch : Int) (hk : shell_ok sh) :
    ∃ sh1 out, insert_char sh ch = some (sh1, out) ∧ shell_ok sh1 ∧ frame sh sh1 ∧
      sh1.hiscur = sh.hiscur := by
  obtain ⟨sh1, out, h, hl, hf, hc⟩ := insert_char_line sh ch hk.1
  exact ⟨sh1, out, h, shell_ok_frame hk hl hf hc, hf, hc⟩

theorem backspace_ok (sh : shell) (hk : shell_ok sh) :
    ∃ sh1 out, backspace sh = some (sh1, out) ∧ shell_ok sh1 ∧ frame sh sh1 ∧
      sh1.hiscur = sh.hiscur := by
  obtain ⟨sh1, out, h, hl, hf, hc⟩ := backspace_line sh hk.1
  exact ⟨sh1, out, h, shell_ok_frame hk hl hf hc, hf, hc⟩

theorem left_key_ok (sh : shell) (hk : shell_ok sh) :
    ∃ sh1 out, left_key sh = some (sh1, out) ∧ shell_ok sh1 ∧ frame sh sh1 ∧
      sh1.hiscur = sh.hiscur := by
  obtain ⟨sh1, out, h, hl, hf, hc⟩ := left_key_line sh hk.1
  exact ⟨sh1, out, h, shell_ok_frame hk hl hf hc, hf, hc⟩

theorem right_key_ok (sh : shell) (hk : shell_ok sh) :
    ∃ sh1 out, right_key sh = some (sh1, out) ∧ shell_ok sh1 ∧ frame sh sh1 ∧
      sh1.hiscur = sh.hiscur := by
  obtain ⟨sh1, out, h, hl, hf, hc⟩ := right_key_line sh hk.1
  exact ⟨sh1, out, h, shell_ok_frame hk hl hf hc, hf, hc⟩

theorem change_history_ok (sh : shell) (hl : sh.line.length = 65) (hhl : sh.history.length = 8)
    (hrows : ∀ row ∈ sh.history, row.length = 65 ∧ 0 ∈ row) (hcur : 0 ≤ sh.hiscur)
    (hcnt : sh.hiscur ≤ sh.hiscnt) (hmax : sh.hiscnt ≤ 2147483647) (hq : queue_ok sh.queue) :
    ∃ sh1 out, change_history sh = some (sh1, out) ∧ shell_ok sh1 ∧ frame sh sh1 ∧
      sh1.hiscur = sh.hiscur := by
  obtain ⟨t, row, _, _, htl, hc⟩ := change_history_spec sh hl hhl hrows hcur
  refine ⟨_, _, hc, ⟨⟨?_, ?_, ?_, ?_⟩, ⟨hhl, hrows, hcur, hcnt, hmax⟩, hq⟩,
    ⟨rfl, rfl, rfl, rfl, rfl⟩, rfl⟩
  · simp only; rw [strcpy_length _ _ (by omega)]; exact hl
  · simp only; omega
  · simp only; omega
  · simp only; omega

/-- In a well-formed state a true test of `up_key` means `hiscur + 8` did not
overflow. -/
theorem up_guard {sh : shell} (hh : history_ok sh)
    (hg : sh.hiscur > 0 ∧ wrap32 (sh.hiscur + HISTORY_COUNT) > sh.hiscnt) :
    0 < sh.hiscur ∧ sh.hiscur + 8 > sh.hiscnt ∧ sh.hiscur + 8 ≤ 2147483647 ∧
      wrap32 (sh.hiscur - 1) = sh.hiscur - 1 := by
  obtain ⟨_, _, hcur0, hcur, hmax⟩ := hh
  obtain ⟨h0, h8⟩ := hg
  unfold wrap32 HISTORY_COUNT at *
  omega

/-- In a well-formed state with `hiscur` below `INT_MAX` the sum in the test
of `down_key` does not overflow. -/
theorem down_guard {sh : shell} (hh : history_ok sh) (hlt : sh.hiscur < 2147483647) :
    wrap32 (sh.hiscur + 1) = sh.hiscur + 1 := by
  obtain ⟨_, _, hcur0, hcur, hmax⟩ := hh
  unfold wrap32
  omega

theorem up_key_ok (sh : shell) (hk : shell_ok sh) :
    ∃ sh1 out, up_key sh = some (sh1, out) ∧ shell_ok sh1 ∧ frame sh sh1 := by
  unfold up_key
  have hh := hk.2.1
  obtain ⟨⟨hl, hp0, hpc, hc⟩, ⟨hhl, hrows, hcur0, hcur, hmax⟩, hq⟩ := hk
  split
  · rename_i hg
    obtain ⟨g0, g8, _, gw⟩ := up_guard hh hg
    rw [gw]
    obtain ⟨sh1, out, h1, h2, h3, _⟩ := change_history_ok { sh with hiscur := sh.hiscur - 1 } hl hhl hrows
      (by simp only; omega) (by simp only; omega) hmax hq
    exact ⟨sh1, out, h1, h2, h3⟩
  · exact ⟨_, _, rfl, ⟨⟨hl, hp0, hpc, hc⟩, ⟨hhl, hrows, hcur0, hcur, hmax⟩, hq⟩, frame_refl _⟩

theorem down_key_ok (sh : shell) (hk : shell_ok sh) (hlt : sh.hiscur < 2147483647) :
    ∃ sh1 out, down_key sh = some (sh1, out) ∧ shell_ok sh1 ∧ frame sh sh1 := by
  unfold down_key
  rw [down_guard hk.2.1 hlt]
  obtain ⟨⟨hl, hp0, hpc, hc⟩, ⟨hhl, hrows, hcur0, hcur, hmax⟩, hq⟩ := hk
  split
  · rename_i hg
    obtain ⟨sh1, out, h1, h2, h3, _⟩ := change_history_ok { sh with hiscur := sh.hiscur + 1 } hl hhl hrows
      (by simp only; omega) (by simp only; omega) hmax hq
    exact ⟨sh1, out, h1, h2, h3⟩
  · exact ⟨_, _, rfl, ⟨⟨hl, hp0, hpc, hc⟩, ⟨hhl, hrows, hcur0, hcur, hmax⟩, hq⟩, frame_refl _⟩

/-- In a well-formed state `down_key` stays inside the arrays even when its
sum overflows: `INT_MIN % 8` is 0. -/
theorem down_key_total (sh : shell) (hk : shell_ok sh) :
    ∃ sh1 out, down_key sh = some (sh1, out) := by
  by_cases hlt : sh.hiscur < 2147483647
  · obtain ⟨sh1, out, h, _⟩ := down_key_ok sh hk hlt
    exact ⟨sh1, out, h⟩
  · obtain ⟨⟨hl, hp0, hpc, hc⟩, ⟨hhl, hrows, hcur0, hcur, hmax⟩, hq⟩ := hk
    have he : sh.hiscur = 2147483647 := by omega
    have hw : wrap32 (sh.hiscur + 1) = -2147483648 := by rw [he]; decide
    unfold down_key
    rw [hw]
    split
    · obtain ⟨t, row, _, _, _, hch⟩ := change_history_at { sh with hiscur := -2147483648 } hl hhl
        hrows 0 tmod8_int_min (le_refl 0)
      exact ⟨_, _, hch⟩
    · exact ⟨_, _, rfl⟩

theorem pack_line_ok (sh : shell) (hk : shell_ok sh) (hlt : sh.hiscnt < 2147483647) :
    ∃ sh1 t, pack_line sh = some sh1 ∧ shell_ok sh1 ∧ cstr sh1.line = some t ∧
      sh1.linecount = 0 ∧ sh1.linepos = 0 ∧
      sh1.queue = sh.queue ∧ sh1.prompt = sh.prompt ∧ sh1.newline = sh.newline ∧
      (sh.linecount = 0 → sh1.history = sh.history ∧ sh1.hiscnt = sh.hiscnt ∧
        sh1.hiscur = sh.hiscur) ∧
      (sh.linecount ≠ 0 → sh1.hiscnt = sh.hiscnt + 1 ∧ sh1.hiscur = sh.hiscnt + 1 ∧
        ∃ row1, sh1.history = sh.history.set (sh.hiscnt % 8).toNat row1 ∧ cstr row1 = some t) := by
  obtain ⟨t, row, ht, htl, _, hrow, hp⟩ := pack_line_spec sh hk.1 hk.2.1
  obtain ⟨⟨hl, hp0, hpc, hc⟩, ⟨hhl, hrows, hcur0, hcur, hmax⟩, hq⟩ := hk
  have hw : wrap32 (sh.hiscnt + 1) = sh.hiscnt + 1 := wrap32_id _ (by omega) (by omega)
  rw [hw] at hp
  have hrmem : row ∈ sh.history := List.getElem?_mem hrow
  have hrl := (hrows row hrmem).1
  by_cases h0 : sh.linecount = 0
  · rw [if_neg (by simp [h0])] at hp
    refine ⟨_, t, hp, ⟨⟨by simp [hl], by simp, by simp, by simp⟩, ⟨hhl, hrows, hcur0, hcur, hmax⟩, hq⟩,
      ht, rfl, rfl, rfl, rfl, rfl, fun _ => ⟨rfl, rfl, rfl⟩, fun h => absurd h0 h⟩
  · rw [if_pos h0] at hp
    have hz : ∀ c ∈ t, c ≠ 0 := ((cstr_eq_some_iff _ _).1 ht).choose_spec.2
    refine ⟨_, t, hp, ⟨⟨by simp [hl], by simp, by simp, by simp⟩, ⟨by simp [hhl], ?_, ?_, ?_, ?_⟩, hq⟩,
      ht, rfl, rfl, rfl, rfl, rfl, fun h => absurd h h0,
      fun _ => ⟨rfl, rfl, _, rfl, cstr_append_zero t _ hz⟩⟩
    · intro r hr
      simp only at hr
      rcases List.mem_or_eq_of_mem_set hr with h | h
      · exact hrows r h
      · subst h
        exact ⟨by rw [strcpy_length _ _ (by omega)]; exact hrl, by simp⟩
    · simp only; omega
    · simp only; omega
    · simp only; omega

/-! ## Arrays and indices stay well formed whatever the counters hold -/

theorem change_history_mem (sh sh1 : shell) (out : List Nat) (hk : mem_ok sh)
    (h : change_history sh = some (sh1, out)) :
    mem_ok sh1 ∧ frame sh sh1 ∧ sh1.hiscur = sh.hiscur := by
  obtain ⟨⟨hl, hp0, hpc, hc⟩, hhl, hrows, hq⟩ := hk
  obtain ⟨t, row, _, _, htl, he, _⟩ := change_history_some sh sh1 out hl hhl hrows h
  subst he
  refine ⟨⟨⟨?_, ?_, ?_, ?_⟩, hhl, hrows, hq⟩, ⟨rfl, rfl, rfl, rfl, rfl⟩, rfl⟩
  · simp only; rw [strcpy_length _ _ (by omega)]; exact hl
  · simp only; omega
  · simp only; omega
  · simp only; omega

theorem up_key_mem (sh sh1 : shell) (out : List Nat) (hk : mem_ok sh)
    (h : up_key sh = some (sh1, out)) : mem_ok sh1 ∧ frame sh sh1 := by
  unfold up_key at h
  split at h
  · obtain ⟨h1, h2, _⟩ := change_history_mem _ sh1 out
      (show mem_ok { sh with hiscur := wrap32 (sh.hiscur - 1) } from hk) h
    exact ⟨h1, h2⟩
  · simp only [Option.some.injEq, Prod.mk.injEq] at h
    rw [← h.1]
    exact ⟨hk, frame_refl sh⟩

theorem down_key_mem (sh sh1 : shell) (out : List Nat) (hk : mem_ok sh)
    (h : down_key sh = some (sh1, out)) : mem_ok sh1 ∧ frame sh sh1 := by
  unfold down_key at h
  split at h
  · obtain ⟨h1, h2, _⟩ := change_history_mem _ sh1 out
      (show mem_ok { sh with hiscur := wrap32 (sh.hiscur + 1) } from hk) h
    exact ⟨h1, h2⟩
  · simp only [Option.some.injEq, Prod.mk.injEq] at h
    rw [← h.1]
    exact ⟨hk, frame_refl sh⟩

theorem pack_line_mem (sh sh1 : shell) (hk : mem_ok sh) (h : pack_line sh = some sh1) :
    mem_ok sh1 ∧ sh1.line = sh.line.set sh.linecount.toNat 0 ∧
      sh1.linecount = 0 ∧ sh1.linepos = 0 ∧
      sh1.queue = sh.queue ∧ sh1.prompt = sh.prompt ∧ sh1.newline = sh.newline := by
  obtain ⟨⟨hl, hp0, hpc, hc⟩, hhl, hrows, hq⟩ := hk
  obtain ⟨t, ht, htl, _, hcase⟩ := pack_line_some sh sh1 ⟨hl, hp0, hpc, hc⟩ hhl hrows h
  rcases hcase with ⟨_, he⟩ | ⟨_, row, j, hj, hmem, he⟩
  · subst he
    exact ⟨⟨⟨by simp [hl], by simp, by simp, by simp⟩, hhl, hrows, hq⟩, rfl, rfl, rfl, rfl, rfl,
      rfl⟩
  · subst he
    have hrl := (hrows row hmem).1
    refine ⟨⟨⟨by simp [hl], by simp, by simp, by simp⟩, by simp [hhl], ?_, hq⟩, rfl, rfl, rfl,
      rfl, rfl, rfl⟩
    intro r hr
    simp only at hr
    rcases List.mem_or_eq_of_mem_set hr with h | h
    · exact hrows r h
    · subst h
      exact ⟨by rw [strcpy_length _ _ (by omega)]; exact hrl, by simp⟩

/-! ## Passes of the read loop and reachable states -/

theorem shell_ok_newline (sh : shell) (v : Int) (hk : shell_ok sh) :
    shell_ok { sh with newline := v } := hk

theorem shell_ok_queue (sh : shell) (q : queue) (hk : shell_ok sh) (hq : queue_ok q) :
    shell_ok { sh with queue := q } := ⟨hk.1, hk.2.1, hq⟩

theorem shell_ok_prompt (sh : shell) (p : List Nat) (hk : shell_ok sh) :
    shell_ok { sh with prompt := p } := hk

theorem mem_ok_queue (sh : shell) (q : queue) (hk : mem_ok sh) (hq : queue_ok q) :
    mem_ok { sh with queue := q } := ⟨hk.1, hk.2.1, hk.2.2.1, hq⟩

theorem addchar_ok (sh : shell) (ch : Int) (hk : shell_ok sh) (hlt : sh.hiscnt < 2147483647) :
    ∃ sh1 out r, addchar sh ch = some (sh1, out, r) ∧ shell_ok sh1 ∧
      sh1.queue = sh.queue ∧ sh1.prompt = sh.prompt ∧
      (r = 0 → sh1.history = sh.history ∧ sh1.hiscnt = sh.hiscnt ∧ sh1.hiscur = sh.hiscur) ∧
      (r ≠ 0 → committed sh sh1) := by
  unfold addchar
  by_cases h13 : ch = 13
  · obtain ⟨sh1, t, hp, hok, _, hc, hpz, hq, hpr, _⟩ := pack_line_ok sh hk hlt
    simp only [h13, if_true, hp]
    exact ⟨_, _, _, rfl, shell_ok_newline sh1 1 hok, hq, hpr, fun h => absurd h (by decide),
      fun _ => ⟨sh1, hp, rfl, rfl, rfl, rfl, hc, hpz⟩⟩
  · simp only [h13, if_false]
    by_cases h10 : ch = 10
    · simp only [h10, if_true]
      by_cases hn : sh.newline ≠ 0
      · simp only [hn, ne_eq, not_false_eq_true, if_true]
        exact ⟨_, _, _, rfl, shell_ok_newline sh 0 hk, rfl, rfl, fun _ => ⟨rfl, rfl, rfl⟩,
          fun h => absurd rfl h⟩
      · obtain ⟨sh1, t, hp, hok, _, hc, hpz, hq, hpr, _⟩ := pack_line_ok sh hk hlt
        simp only [hn, if_false, hp]
        exact ⟨_, _, _, rfl, hok, hq, hpr, fun h => absurd h (by decide),
          fun _ => ⟨sh1, hp, rfl, rfl, rfl, rfl, hc, hpz⟩⟩
    · simp only [h10, if_false]
      by_cases hb : ch = 8 ∨ ch = 127
      · obtain ⟨sh1, out, h1, hok, hf, hcur⟩ := backspace_ok sh hk
        simp only [hb, if_true, h1]
        exact ⟨_, _, _, rfl, hok, hf.2.2.1, hf.2.2.2.1, fun _ => ⟨hf.1, hf.2.1, hcur⟩,
          fun h => absurd rfl h⟩
      · simp only [hb, if_false]
        by_cases hpr : isprint ch = true
        · obtain ⟨sh1, out, h1, hok, hf, hcur⟩ := insert_char_ok sh ch hk
          simp only [hpr, if_true, h1]
          exact ⟨_, _, _, rfl, hok, hf.2.2.1, hf.2.2.2.1, fun _ => ⟨hf.1, hf.2.1, hcur⟩,
            fun h => absurd rfl h⟩
        · simp only [hpr, if_false]
          exact ⟨_, _, _, rfl, hk, rfl, rfl, fun _ => ⟨rfl, rfl, rfl⟩, fun h => absurd rfl h⟩

theorem arrow_ok (sh : shell) (ch : Int) (hk : shell_ok sh) (hlt : sh.hiscnt < 2147483647) :
    ∃ sh1 out, (if ch = 0x41 then up_key sh
      else if ch = 0x42 then down_key sh
      else if ch = 0x43 then right_key sh
      else if ch = 0x44 then left_key sh
      else some (sh, [])) = some (sh1, out) ∧ shell_ok sh1 ∧ frame sh sh1 := by
  split
  · exact up_key_ok sh hk
  · split
    · exact down_key_ok sh hk (by have := hk.2.1.2.2.2.1; omega)
    · split
      · obtain ⟨a, b, h1, h2, h3, _⟩ := right_key_ok sh hk
        exact ⟨a, b, h1, h2, h3⟩
      · split
        · obtain ⟨a, b, h1, h2, h3, _⟩ := left_key_ok sh hk
          exact ⟨a, b, h1, h2, h3⟩
        · exact ⟨sh, [], rfl, hk, frame_refl sh⟩

/-- In a well-formed state no arrow key leaves the arrays. -/
theorem arrow_total (sh : shell) (ch : Int) (hk : shell_ok sh) :
    ∃ sh1 out, (if ch = 0x41 then up_key sh
      else if ch = 0x42 then down_key sh
      else if ch = 0x43 then right_key sh
      else if ch = 0x44 then left_key sh
      else some (sh, [])) = some (sh1, out) := by
  split
  · obtain ⟨a, b, h, _⟩ := up_key_ok sh hk
    exact ⟨a, b, h⟩
  · split
    · exact down_key_total sh hk
    · split
      · obtain ⟨a, b, h1, _⟩ := right_key_ok sh hk
        exact ⟨a, b, h1⟩
      · split
        · obtain ⟨a, b, h1, _⟩ := left_key_ok sh hk
          exact ⟨a, b, h1⟩
        · exact ⟨sh, [], rfl⟩

theorem body_ok (sh : shell) (st ch : Int) (hk : shell_ok sh) (hlt : sh.hiscnt < 2147483647) :
    ∃ p, p_readline_body sh st ch = some p ∧ shell_ok p.sh ∧
      p.sh.queue = sh.queue ∧ p.sh.prompt = sh.prompt ∧
      (p.ret = false → p.sh.history = sh.history ∧ p.sh.hiscnt = sh.hiscnt) ∧
      (p.ret = true → committed sh p.sh ∧ p.state = st) ∧
      (st = 0 ∨ st = 1 ∨ st = 2 → p.state = 0 ∨ p.state = 1 ∨ p.state = 2) := by
  unfold p_readline_body
  by_cases hesc : ch = 0x1B
  · simp only [hesc, if_true]
    exact ⟨_, rfl, shell_ok_newline sh 0 hk, rfl, rfl, fun _ => ⟨rfl, rfl⟩,
      fun h => by simp at h, fun _ => Or.inr (Or.inl rfl)⟩
  · simp only [hesc, if_false]
    by_cases h1 : st = 1
    · simp only [h1, if_true]
      refine ⟨_, rfl, shell_ok_newline sh 0 hk, rfl, rfl, fun _ => ⟨rfl, rfl⟩,
        fun h => by simp at h, fun _ => ?_⟩
      simp only
      split
      · exact Or.inr (Or.inr rfl)
      · exact Or.inl rfl
    · simp only [h1, if_false]
      by_cases h2 : st = 2
      · obtain ⟨sh1, out, ha, hok, hf⟩ := arrow_ok sh ch hk hlt
        simp only [h2, if_true, ha]
        exact ⟨_, rfl, shell_ok_newline sh1 0 hok, hf.2.2.1, hf.2.2.2.1, fun _ => ⟨hf.1, hf.2.1⟩,
          fun h => by simp at h, fun _ => Or.inl rfl⟩
      · obtain ⟨sh1, out, r, ha, hok, hq, hpr, hr0, hr1⟩ := addchar_ok sh ch hk hlt
        simp only [h2, if_false, ha]
        by_cases hr : r = 0
        · simp only [hr, ne_eq, not_true_eq_false, if_false]
          exact ⟨_, rfl, shell_ok_newline sh1 0 hok, hq, hpr, fun _ => ⟨(hr0 hr).1, (hr0 hr).2.1⟩,
            fun h => by simp at h, fun h => Or.inl (by simpa using h)⟩
        · simp only [hr, ne_eq, not_false_eq_true, if_true]
          exact ⟨_, rfl, hok, hq, hpr, fun h => by simp at h, fun _ => ⟨hr1 hr, rfl⟩, fun h => Or.inl (by simpa using h)⟩

theorem log_ok_history {log : List (List Nat)} {sh sh1 : shell} (h : log_ok log sh)
    (hh : sh1.history = sh.history) (hc : sh1.hiscnt = sh.hiscnt) : log_ok log sh1 := by
  unfold log_ok at h ⊢
  rw [hh, hc]; exact h

theorem log_ok_commit {log : List (List Nat)} {sh sh1 : shell} {t : List Nat}
    (h : log_ok log sh) (hk : shell_ok sh) (hlt : sh.hiscnt < 2147483647)
    (hc : committed sh sh1) (ht : cstr sh1.line = some t) :
    log_ok (if sh.linecount ≠ 0 then log ++ [t] else log) sh1 := by
  obtain ⟨sh2, hp, hln, hhist, hcnt, _, _, _⟩ := hc
  obtain ⟨sh3, t3, hp3, _, ht3, _, _, _, _, _, hz, hnz⟩ := pack_line_ok sh hk hlt
  rw [hp] at hp3
  have he := Option.some.inj hp3
  subst he
  rw [hln, ht3] at ht
  have he := Option.some.inj ht
  subst he
  by_cases h0 : sh.linecount = 0
  · rw [if_neg (by simp [h0])]
    exact log_ok_history h (hhist.trans (hz h0).1) (hcnt.trans (hz h0).2.1)
  · rw [if_pos h0]
    obtain ⟨hc1, _, row1, hr1, hcs⟩ := hnz h0
    obtain ⟨hn, hj⟩ := h
    have hl8 : sh.history.length = 8 := hk.2.1.1
    refine ⟨by rw [hcnt, hc1, hn]; simp, ?_⟩
    intro j hjl hj8
    rw [hhist, hr1, hn]
    simp only [List.length_append, List.length_singleton] at hjl hj8
    have hmod : ((log.length : Int) % 8).toNat = log.length % 8 := by omega
    rw [hmod, List.getElem?_set]
    by_cases hjn : j = log.length
    · subst hjn
      rw [if_pos rfl, if_pos (by rw [hl8]; omega)]
      simp [hcs]
    · rw [if_neg (by omega), hj j (by omega) (by omega), List.getElem?_append_left (by omega)]

theorem addchar_mem (sh sh1 : shell) (ch r : Int) (out : List Nat) (hk : mem_ok sh)
    (h : addchar sh ch = some (sh1, out, r)) :
    mem_ok sh1 ∧ sh1.queue = sh.queue ∧ sh1.prompt = sh.prompt := by
  unfold addchar at h
  split at h
  · cases hpk : pack_line sh with
    | none => rw [hpk] at h; exact absurd h (by simp)
    | some sh2 =>
      rw [hpk] at h
      simp only [Option.some.injEq, Prod.mk.injEq] at h
      obtain ⟨h1, _, _, _, h2, h3, _⟩ := pack_line_mem sh sh2 hk hpk
      rw [← h.1]
      exact ⟨h1, h2, h3⟩
  · split at h
    · split at h
      · simp only [Option.some.injEq, Prod.mk.injEq] at h
        rw [← h.1]
        exact ⟨hk, rfl, rfl⟩
      · cases hpk : pack_line sh with
        | none => rw [hpk] at h; exact absurd h (by simp)
        | some sh2 =>
          rw [hpk] at h
          simp only [Option.some.injEq, Prod.mk.injEq] at h
          obtain ⟨h1, _, _, _, h2, h3, _⟩ := pack_line_mem sh sh2 hk hpk
          rw [← h.1]
          exact ⟨h1, h2, h3⟩
    · split at h
      · obtain ⟨sh2, out2, hb, hl, hf, _⟩ := backspace_line sh hk.1
        rw [hb] at h
        simp only [Option.some.injEq, Prod.mk.injEq] at h
        rw [← h.1]
        exact ⟨mem_ok_frame hk hl hf, hf.2.2.1, hf.2.2.2.1⟩
      · split at h
        · obtain ⟨sh2, out2, hb, hl, hf, _⟩ := insert_char_line sh ch hk.1
          rw [hb] at h
          simp only [Option.some.injEq, Prod.mk.injEq] at h
          rw [← h.1]
          exact ⟨mem_ok_frame hk hl hf, hf.2.2.1, hf.2.2.2.1⟩
        · simp only [Option.some.injEq, Prod.mk.injEq] at h
          rw [← h.1]
          exact ⟨hk, rfl, rfl⟩

theorem arrow_mem (sh sh1 : shell) (ch : Int) (out : List Nat) (hk : mem_ok sh)
    (h : (if ch = 0x41 then up_key sh
      else if ch = 0x42 then down_key sh
      else if ch = 0x43 then right_key sh
      else if ch = 0x44 then left_key sh
      else some (sh, [])) = some (sh1, out)) : mem_ok sh1 ∧ frame sh sh1 := by
  split at h
  · exact up_key_mem sh sh1 out hk h
  · split at h
    · exact down_key_mem sh sh1 out hk h
    · split at h
      · obtain ⟨sh2, out2, hb, hl, hf, _⟩ := right_key_line sh hk.1
        rw [hb] at h
        simp only [Option.some.injEq, Prod.mk.injEq] at h
        rw [← h.1]
        exact ⟨mem_ok_frame hk hl hf, hf⟩
      · split at h
        · obtain ⟨sh2, out2, hb, hl, hf, _⟩ := left_key_line sh hk.1
          rw [hb] at h
          simp only [Option.some.injEq, Prod.mk.injEq] at h
          rw [← h.1]
          exact ⟨mem_ok_frame hk hl hf, hf⟩
        · simp only [Option.some.injEq, Prod.mk.injEq] at h
          rw [← h.1]
          exact ⟨hk, frame_refl sh⟩

/-- A pass that stays inside the arrays leaves them well formed, whatever the
history counters hold. -/
theorem body_mem (sh : shell) (st ch : Int) (p : pass) (hk : mem_ok sh)
    (h : p_readline_body sh st ch = some p) :
    mem_ok p.sh ∧ p.sh.queue = sh.queue ∧ p.sh.prompt = sh.prompt ∧
      (st = 0 ∨ st = 1 ∨ st = 2 → p.state = 0 ∨ p.state = 1 ∨ p.state = 2) := by
  unfold p_readline_body at h
  split at h
  · rw [← Option.some.inj h]
    exact ⟨hk, rfl, rfl, fun _ => Or.inr (Or.inl rfl)⟩
  · split at h
    · rw [← Option.some.inj h]
      refine ⟨hk, rfl, rfl, fun _ => ?_⟩
      simp only
      split
      · exact Or.inr (Or.inr rfl)
      · exact Or.inl rfl
    · split at h
      · simp only at h
        split at h
        · exact absurd h (by simp)
        · rename_i sh1 out heq
          rw [← Option.some.inj h]
          obtain ⟨h1, hf⟩ := arrow_mem sh sh1 ch out hk heq
          exact ⟨h1, hf.2.2.1, hf.2.2.2.1, fun _ => Or.inl rfl⟩
      · split at h
        · exact absurd h (by simp)
        · rename_i sh1 out r heq
          obtain ⟨h1, h2, h3⟩ := addchar_mem sh sh1 ch r out hk heq
          split at h
          · rw [← Option.some.inj h]
            exact ⟨h1, h2, h3, fun hs => hs⟩
          · rw [← Option.some.inj h]
            exact ⟨h1, h2, h3, fun hs => hs⟩

theorem pop_queue_ok (sgn : Bool) (q0 q : queue) (ch : Int) (hq : queue_ok q0)
    (h : queue_pop sgn q0 = some (q, ch)) : queue_ok q := by
  by_cases hn : 0 < occupancy q0
  · obtain ⟨q1, b, t, hp, hq1, _⟩ := pop_ok sgn q0 hq hn
    rw [hp] at h
    simp only [Option.some.injEq, Prod.mk.injEq] at h
    rw [← h.1]; exact hq1
  · rw [pop_empty sgn q0 hq (by omega)] at h
    simp only [Option.some.injEq, Prod.mk.injEq] at h
    rw [← h.1]; exact hq

theorem addchar_queue_ok (sh sh1 : shell) (b r : Int) (hq : queue_ok sh.queue)
    (h : shell_addchar sh b = some (sh1, r)) :
    queue_ok sh1.queue ∧ sh1 = { sh with queue := sh1.queue } := by
  unfold shell_addchar at h
  by_cases hn : occupancy sh.queue < 15
  · obtain ⟨q1, hp, hq1, _⟩ := push_ok sh.queue b hq hn
    rw [hp] at h
    simp only [Option.some.injEq, Prod.mk.injEq] at h
    rw [← h.1]
    exact ⟨hq1, rfl⟩
  · rw [push_full sh.queue b hq hn] at h
    simp only [Option.some.injEq, Prod.mk.injEq] at h
    rw [← h.1]
    exact ⟨hq, rfl⟩

/-- In every reachable state, however many lines have been committed, the
arrays and the indices into the line buffer and the queue are well formed,
and the decoder state is one of three. -/
theorem reach_mem {sgn : Bool} {log : List (List Nat)} {sh : shell} {st : Int}
    (h : Reachable sgn log sh st) : mem_ok sh ∧ (st = 0 ∨ st = 1 ∨ st = 2) := by
  induction h with
  | init p =>
    refine ⟨⟨⟨by simp [m_shell], by simp [m_shell], by simp [m_shell], by simp [m_shell]⟩,
      by simp [m_shell], ?_, (by decide : queue_ok m_shell.queue)⟩, Or.inl rfl⟩
    intro row hrow
    simp only [m_shell] at hrow
    rw [List.eq_of_mem_replicate hrow]
    simp
  | @feed log sh sh1 st b r _ ha ih =>
    obtain ⟨hk, hs⟩ := ih
    obtain ⟨hq1, he⟩ := addchar_queue_ok sh sh1 b r hk.2.2.2 ha
    rw [he]
    exact ⟨mem_ok_queue sh _ hk hq1, hs⟩
  | @pass log sh st ch q p _ hpop hne hb hr ih =>
    obtain ⟨hk, hs⟩ := ih
    have hq := pop_queue_ok sgn sh.queue q ch hk.2.2.2 hpop
    obtain ⟨h1, _, _, h4⟩ := body_mem _ st ch p (mem_ok_queue sh q hk hq) hb
    exact ⟨h1, h4 hs⟩
  | @ret log sh st ch q p t pr _ hpop hne hb hr ht ih =>
    obtain ⟨hk, hs⟩ := ih
    have hq := pop_queue_ok sgn sh.queue q ch hk.2.2.2 hpop
    obtain ⟨h1, _, _, h4⟩ := body_mem _ st ch p (mem_ok_queue sh q hk hq) hb
    exact ⟨h1, Or.inl rfl⟩

theorem reach_inv_step {sgn : Bool} {log : List (List Nat)} {sh : shell} {st : Int}
    (h : Reachable sgn log sh st) :
    (log.length : Int) < 2147483647 → shell_ok sh ∧ log_ok log sh := by
  induction h with
  | init p =>
    intro _
    refine ⟨⟨⟨by simp [m_shell], by simp [m_shell], by simp [m_shell], by simp [m_shell]⟩,
      ⟨by simp [m_shell], ?_, by simp [m_shell], by simp [m_shell], by simp [m_shell]⟩,
      (by decide : queue_ok m_shell.queue)⟩,
      ⟨by simp [m_shell], fun j hj => by simp at hj⟩⟩
    intro row hrow
    simp only [m_shell] at hrow
    rw [List.eq_of_mem_replicate hrow]
    simp
  | @feed log sh sh1 st b r _ ha ih =>
    intro hn
    obtain ⟨hk, hl⟩ := ih hn
    obtain ⟨hq1, he⟩ := addchar_queue_ok sh sh1 b r hk.2.2 ha
    rw [he]
    exact ⟨shell_ok_queue sh _ hk hq1, log_ok_history hl rfl rfl⟩
  | @pass log sh st ch q p _ hpop hne hb hr ih =>
    intro hn
    obtain ⟨hk, hl⟩ := ih hn
    have hq := pop_queue_ok sgn sh.queue q ch hk.2.2 hpop
    obtain ⟨p1, hb1, hok, _, _, hf, _, hst⟩ := body_ok { sh with queue := q } st ch
      (shell_ok_queue sh q hk hq) (by have := hl.1; simp only; omega)
    rw [hb] at hb1
    have he := Option.some.inj hb1
    subst he
    exact ⟨hok, log_ok_history hl (hf hr).1 (hf hr).2⟩
  | @ret log sh st ch q p t pr _ hpop hne hb hr ht ih =>
    intro hn
    have hn0 : (log.length : Int) < 2147483647 := by
      split at hn
      · simp only [List.length_append, List.length_singleton] at hn
        push_cast at hn
        omega
      · exact hn
    obtain ⟨hk, hl⟩ := ih hn0
    have hq := pop_queue_ok sgn sh.queue q ch hk.2.2 hpop
    have hlt : sh.hiscnt < 2147483647 := by have := hl.1; omega
    obtain ⟨p1, hb1, hok, _, _, _, hc, _⟩ := body_ok { sh with queue := q } st ch
      (shell_ok_queue sh q hk hq) hlt
    rw [hb] at hb1
    have he := Option.some.inj hb1
    subst he
    have hlq : log_ok log { sh with queue := q } := log_ok_history hl rfl rfl
    have := log_ok_commit hlq (shell_ok_queue sh q hk hq) hlt (hc hr).1 ht
    exact ⟨shell_ok_prompt _ pr hok, log_ok_history this rfl rfl⟩

/-- While fewer than `INT_MAX` lines have been committed the reachable
states are well formed, counters included, and the history agrees with the
lines committed. -/
theorem reach_inv {sgn : Bool} {log : List (List Nat)} {sh : shell} {st : Int}
    (h : Reachable sgn log sh st) (hn : (log.length : Int) < 2147483647) :
    shell_ok sh ∧ log_ok log sh ∧ (st = 0 ∨ st = 1 ∨ st = 2) :=
  ⟨(reach_inv_step h hn).1, (reach_inv_step h hn).2, (reach_mem h).2⟩

/-! ## Feeding bytes through the queue -/

theorem toChar_lt (ch : Int) : toChar ch < 256 := by
  unfold toChar; omega

theorem charVal_ne_empty (sgn : Bool) (b : Nat) (h : b < 256) : charVal sgn b ≠ QUEUE_EMPTY := by
  unfold charVal QUEUE_EMPTY
  split <;> omega

theorem charVal_toChar_ascii (sgn : Bool) (b : Int) (h0 : 0 ≤ b) (h1 : b < 128) :
    charVal sgn (toChar b) = b := by
  unfold charVal toChar
  have : ¬ (128 ≤ (b % 256).toNat) := by omega
  simp only [this, decide_False, Bool.and_false, Bool.false_eq_true, if_false]
  omega

theorem wait_char_feed (sgn : Bool) (sh : shell) (b : Int) (hq : queue_ok sh.queue)
    (he : sh.queue.front = sh.queue.rear) :
    ∃ q1 q2, shell_addchar sh b = some ({ sh with queue := q1 }, b) ∧
      queue_pop sgn q1 = some (q2, charVal sgn (toChar b)) ∧
      queue_ok q2 ∧ q2.front = q2.rear ∧ ∀ rest,
      wait_char sgn sh (b :: rest)
        = ending.done (charVal sgn (toChar b), { sh with queue := q2 }, rest) := by
  have h0 : occupancy sh.queue = 0 := by unfold occupancy; rw [he]; simp
  have hc0 : contents sh.queue = [] := List.eq_nil_of_length_eq_zero (by rw [contents_length, h0])
  obtain ⟨q1, hp, hq1, hr1, hf1, _, hc1⟩ := push_ok sh.queue b hq (by omega)
  have ho1 : 0 < occupancy q1 := by rw [← contents_length, hc1]; simp
  obtain ⟨q2, v, t, hpop, hq2, hf2, hr2, _, hc2, _⟩ := pop_ok sgn q1 hq1 ho1
  rw [hc1, hc0] at hc2
  simp only [List.nil_append, List.cons.injEq] at hc2
  have hne := charVal_ne_empty sgn _ (toChar_lt b)
  rw [← hc2.1] at hpop
  refine ⟨q1, q2, by simp [shell_addchar, hp], hpop, hq2, by rw [hf2, hr2, hf1, hr1, he],
    fun rest => ?_⟩
  rw [wait_char, pop_empty sgn sh.queue hq h0]
  simp only [if_true, shell_addchar, hp]
  cases rest with
  | nil => rw [wait_char]; simp only [hpop]; rw [if_neg hne]
  | cons c cs => rw [wait_char]; simp only [hpop]; rw [if_neg hne]

theorem wait_char_starved (sgn : Bool) (sh : shell) (hq : queue_ok sh.queue)
    (he : sh.queue.front = sh.queue.rear) :
    wait_char sgn sh [] = ending.starved := by
  have h0 : occupancy sh.queue = 0 := by unfold occupancy; rw [he]; simp
  rw [wait_char, pop_empty sgn sh.queue hq h0]
  simp

/-- One pass of the loop on a byte fed into the empty queue. -/
theorem loop_pass (sgn : Bool) (sh : shell) (b : Int) (hq : queue_ok sh.queue)
    (he : sh.queue.front = sh.queue.rear) :
    ∃ q2, queue_ok q2 ∧ q2.front = q2.rear ∧
      (∀ (n : Nat) (st : Int) (acc : List Nat) (rest : List Int),
        p_readline_loop sgn (n + 1) sh st acc (b :: rest) =
          match p_readline_body { sh with queue := q2 } st (charVal sgn (toChar b)) with
          | none => ending.fault
          | some p =>
            if p.ret then ending.done { sh := p.sh, out := acc ++ p.out, pending := rest }
            else p_readline_loop sgn n p.sh p.state (acc ++ p.out) rest) ∧
      (∀ (log : List (List Nat)) (st : Int) (p : pass), Reachable sgn log sh st →
        p_readline_body { sh with queue := q2 } st (charVal sgn (toChar b)) = some p →
        (p.ret = false → Reachable sgn log p.sh p.state) ∧
        (p.ret = true → ∀ t, cstr p.sh.line = some t →
          Reachable sgn (if sh.linecount ≠ 0 then log ++ [t] else log) p.sh 0)) := by
  obtain ⟨q1, q2, hadd, hpop, hq2, he2, hw⟩ := wait_char_feed sgn sh b hq he
  have hne := charVal_ne_empty sgn _ (toChar_lt b)
  refine ⟨q2, hq2, he2, fun n st acc rest => ?_, fun log st p hr hb => ⟨fun h => ?_, fun h t ht => ?_⟩⟩
  · rw [p_readline_loop, hw rest]
    try rfl
  · exact Reachable.pass (Reachable.feed hr hadd) hpop hne hb h
  · have h1 := Reachable.ret p.sh.prompt (Reachable.feed hr hadd) hpop hne hb h ht
    exact h1

theorem loop_starved (sgn : Bool) (sh : shell) (n : Nat) (st : Int) (acc : List Nat)
    (hq : queue_ok sh.queue) (he : sh.queue.front = sh.queue.rear) :
    p_readline_loop sgn (n + 1) sh st acc [] = ending.starved := by
  rw [p_readline_loop, wait_char_starved sgn sh hq he]

theorem isprint_iff (c : Int) : isprint c = true ↔ 32 ≤ c ∧ c ≤ 126 := by
  simp [isprint]

theorem toChar_print (c : Int) (h : isprint c = true) : toChar c = c.toNat := by
  have := (isprint_iff c).1 h
  unfold toChar; omega

/-- A printable byte typed with the cursor at the end of the line. -/
theorem body_type (sh : shell) (c : Int) (hk : line_ok sh) (he : sh.linepos = sh.linecount)
    (h64 : sh.linecount < 64) (hc : isprint c = true) :
    ∃ l2, p_readline_body sh 0 c = some
        { sh := { sh with line := l2, linecount := sh.linecount + 1,
                          linepos := sh.linepos + 1, newline := 0 },
          state := 0, out := [toChar c], ret := false } ∧
      l2.length = 65 ∧
      l2.take (sh.linecount + 1).toNat = sh.line.take sh.linecount.toNat ++ [toChar c] := by
  obtain ⟨l2, hi, hl2, hp⟩ := insert_char_spec sh c hk h64
  obtain ⟨hl, hp0, hpc, hc64⟩ := hk
  have hr := (isprint_iff c).1 hc
  have hout : (l2.drop sh.linepos.toNat).take (sh.linecount + 1 - sh.linepos).toNat
      ++ List.replicate (sh.linecount - sh.linepos).toNat 8 = [toChar c] := by
    rw [he, show (sh.linecount + 1 - sh.linecount).toNat = 1 by omega,
      show (sh.linecount - sh.linecount).toNat = 0 by omega]
    have hlt : sh.linecount.toNat < l2.length := by omega
    have hg := hp sh.linecount.toNat
    rw [if_pos (by omega), List.getElem?_eq_getElem hlt] at hg
    rw [List.drop_eq_getElem_cons hlt, Option.some.inj hg]
    simp
  refine ⟨l2, ?_, hl2, ?_⟩
  · unfold p_readline_body addchar
    rw [if_neg (by omega), if_neg (by omega), if_neg (by omega)]
    simp only [show c ≠ 13 by omega, show c ≠ 10 by omega, show ¬ (c = 8 ∨ c = 127) by omega,
      if_false, hc, if_true, hi, hout]
    simp
  · apply List.ext_getElem?
    intro i
    have hmin : min sh.linecount.toNat sh.line.length = sh.linecount.toNat := by
      rw [Nat.min_eq_left]; omega
    rw [List.getElem?_take, List.getElem?_append, List.getElem?_take, hp i]
    simp only [List.length_take, hmin]
    rcases Nat.lt_trichotomy i sh.linecount.toNat with h | h | h
    · rw [if_pos (by omega), if_neg (by omega), if_neg (by omega), if_pos h, if_pos h]
    · rw [if_pos (by omega), if_pos (by omega), if_neg (by omega), h]
      simp
    · rw [if_neg (by omega), if_neg (by omega)]
      rw [List.getElem?_eq_none (by simp; omega)]

theorem loop_type (sgn : Bool) (s : List Nat) : ∀ (sh : shell), shell_ok sh →
    sh.queue.front = sh.queue.rear → sh.linepos = sh.linecount →
    sh.linecount + (s.length : Int) ≤ 64 → (∀ c ∈ s, 32 ≤ c ∧ c ≤ 126) →
    ∃ sh1, shell_ok sh1 ∧ sh1.queue.front = sh1.queue.rear ∧
      sh1.linecount = sh.linecount + (s.length : Int) ∧ sh1.linepos = sh1.linecount ∧
      sh1.line.take sh1.linecount.toNat = sh.line.take sh.linecount.toNat ++ s ∧
      sh1.history = sh.history ∧ sh1.hiscnt = sh.hiscnt ∧ sh1.hiscur = sh.hiscur ∧
      sh1.prompt = sh.prompt ∧
      (∀ (n : Nat) (acc : List Nat) (rest : List Int),
        p_readline_loop sgn (n + s.length) sh 0 acc (s.map Int.ofNat ++ rest)
          = p_readline_loop sgn n sh1 0 (acc ++ s) rest) ∧
      (∀ log, Reachable sgn log sh 0 → Reachable sgn log sh1 0) := by
  induction s with
  | nil =>
    intro sh hk he hp _ _
    exact ⟨sh, hk, he, by simp, hp, by simp, rfl, rfl, rfl, rfl, fun n acc rest => by simp,
      fun _ h => h⟩
  | cons c s ih =>
    intro sh hk he hp h64 hpr
    simp only [List.length_cons] at h64
    have hc := hpr c (by simp)
    obtain ⟨q2, hq2, he2, hloop, hreach⟩ := loop_pass sgn sh (Int.ofNat c) hk.2.2 he
    have hcv : charVal sgn (toChar (Int.ofNat c)) = Int.ofNat c :=
      charVal_toChar_ascii sgn _ (by simp) (by simp; omega)
    have hip : isprint (Int.ofNat c) = true := (isprint_iff _).2 (by simp; omega)
    have htc : toChar (Int.ofNat c) = c := by rw [toChar_print _ hip]; simp
    obtain ⟨l2, hb, hl2, htake⟩ := body_type { sh with queue := q2 } (Int.ofNat c) hk.1 hp
      (by simp only; push_cast at h64; omega) hip
    rw [htc] at hb htake
    rw [hcv] at hloop hreach
    have hok : shell_ok { { sh with queue := q2 } with
        line := l2, linecount := sh.linecount + 1, linepos := sh.linepos + 1, newline := 0 } := by
      obtain ⟨⟨_, hp0, hpc, _⟩, hh, _⟩ := hk
      push_cast at h64
      exact ⟨⟨hl2, by simp only; omega, by simp only; omega, by simp only; omega⟩, hh, hq2⟩
    obtain ⟨sh1, hk1, hq1, hlc, hlp, hln, hh, hcnt, hcur, hprm, hrun, hre⟩ := ih _ hok he2
      (by simp only; omega) (by simp only; push_cast at h64 ⊢; omega)
      (fun x hx => hpr x (by simp [hx]))
    simp only at hlc hln hh hcnt hcur hprm
    refine ⟨sh1, hk1, hq1, by rw [hlc]; simp only [List.length_cons]; push_cast; omega, hlp, ?_,
      hh, hcnt, hcur, hprm, ?_, ?_⟩
    · rw [hln, htake]; simp
    · intro n acc rest
      have := hloop (n + s.length) 0 acc (s.map Int.ofNat ++ rest)
      simp only [List.length_cons, List.map_cons, List.cons_append]
      rw [show n + (s.length + 1) = n + s.length + 1 by omega, this, hb]
      simp only [Bool.false_eq_true, if_false]
      rw [hrun n (acc ++ [c]) rest]
      simp
    · intro log hr
      exact hre log ((hreach log 0 _ hr hb).1 rfl)

/-! ## Typing a line -/

theorem body_cr (sh sh1 : shell) (hp : pack_line sh = some sh1) :
    p_readline_body sh 0 13 = some
      { sh := { sh1 with newline := 1 }, state := 0, out := [10], ret := true } := by
  simp [p_readline_body, addchar, hp]

theorem body_lf (sh sh1 : shell) (hp : pack_line sh = some sh1) (hn : sh.newline = 0) :
    p_readline_body sh 0 10 = some { sh := sh1, state := 0, out := [], ret := true } := by
  simp [p_readline_body, addchar, hp, hn]

theorem body_lf_skip (sh : shell) (hn : sh.newline ≠ 0) :
    p_readline_body sh 0 10 = some
      { sh := { sh with newline := 0 }, state := 0, out := [], ret := false } := by
  simp [p_readline_body, addchar, hn]

/-- Enter on a line whose bytes are all nonzero: the line is returned and
stored in row `hiscnt % 8`, and `hiscnt` is incremented as an `int`. -/
theorem pack_line_text (sh : shell) (hk : shell_ok sh) (s : List Nat)
    (hs : sh.line.take sh.linecount.toNat = s) (hz : ∀ c ∈ s, c ≠ 0) (hne : s ≠ []) :
    ∃ sh1, pack_line sh = some sh1 ∧ (sh.hiscnt < 2147483647 → shell_ok sh1) ∧
      cstr sh1.line = some s ∧
      sh1.linecount = 0 ∧ sh1.linepos = 0 ∧ sh1.hiscnt = wrap32 (sh.hiscnt + 1) ∧
      sh1.hiscur = wrap32 (sh.hiscnt + 1) ∧ sh1.queue = sh.queue ∧ sh1.prompt = sh.prompt ∧
      sh.linecount ≠ 0 ∧
      ((sh1.history)[(sh.hiscnt % 8).toNat]?).bind cstr = some s := by
  obtain ⟨t, row, ht, _, htz, _, hp⟩ := pack_line_spec sh hk.1 hk.2.1
  have hts : t = s := by rw [← hs]; exact htz (by rw [hs]; exact hz)
  subst hts
  have hlc : sh.linecount ≠ 0 := by
    intro h0
    rw [h0] at hs
    exact hne (by rw [← hs]; simp)
  rw [if_pos hlc] at hp
  have hh8 : sh.history.length = 8 := hk.2.1.1
  have hnn : 0 ≤ sh.hiscnt := by have := hk.2.1.2.2; omega
  refine ⟨_, hp, fun hlt => ?_, ht, rfl, rfl, rfl, rfl, rfl, rfl, hlc, ?_⟩
  · obtain ⟨sh1, t1, hp1, hok, _⟩ := pack_line_ok sh hk hlt
    rw [hp] at hp1
    rw [Option.some.inj hp1]
    exact hok
  · simp only
    rw [List.getElem?_set_self (by omega)]
    exact cstr_append_zero _ _ ((cstr_eq_some_iff _ _).1 ht).choose_spec.2

theorem print_ne_zero {s : List Nat} (hpr : ∀ c ∈ s, 32 ≤ c ∧ c ≤ 126) : ∀ c ∈ s, c ≠ 0 :=
  fun c hc => by have := hpr c hc; omega

/-- Typing a printable line and Enter into an empty line buffer, the queue
empty, in a well-formed state. -/
theorem typed_run (sgn : Bool) (log : List (List Nat)) (sh : shell)
    (s : List Nat) (rest : List Int) (more : Nat)
    (hr : Reachable sgn log sh 0) (hk : shell_ok sh)
    (hlc : sh.linecount = 0) (hlp : sh.linepos = 0)
    (hq : sh.queue.front = sh.queue.rear)
    (hn1 : 1 ≤ s.length) (hn64 : s.length ≤ 64) (hpr : ∀ c ∈ s, 32 ≤ c ∧ c ≤ 126) :
    ∃ r, p_readline sgn (s.length + 1 + more) sh (s.map Int.ofNat ++ 13 :: rest)
        = ending.done r ∧
      r.pending = rest ∧ cstr r.sh.line = some s ∧ r.sh.hiscnt = wrap32 (sh.hiscnt + 1) ∧
      ((r.sh.history)[(sh.hiscnt % 8).toNat]?).bind cstr = some s ∧
      Reachable sgn (log ++ [s]) r.sh 0 ∧
      r.sh.linecount = 0 ∧ r.sh.linepos = 0 ∧ r.sh.hiscur = r.sh.hiscnt ∧ r.sh.newline = 1 ∧
      r.sh.queue.front = r.sh.queue.rear ∧ r.out = s ++ [10] ∧
      (sh.hiscnt < 2147483647 → shell_ok r.sh) := by
  obtain ⟨sh1, hk1, hq1, hlc1, hlp1, hln1, hh1, hcnt1, hcur1, hprm1, hrun, hre⟩ :=
    loop_type sgn s sh hk hq (by rw [hlp, hlc]) (by rw [hlc]; omega) hpr
  rw [hlc] at hln1
  simp only [Int.toNat_zero, List.take_zero, List.nil_append] at hln1
  obtain ⟨q2, hq2, he2, hloop, hreach⟩ := loop_pass sgn sh1 13 hk1.2.2 hq1
  have hcv : charVal sgn (toChar 13) = 13 := charVal_toChar_ascii sgn 13 (by omega) (by omega)
  rw [hcv] at hloop hreach
  have hsne : s ≠ [] := by intro h; rw [h] at hn1; simp at hn1
  obtain ⟨sh2, hp2, hk2, hc2, hlc2, hlp2, hcnt2, hcur2, hqq2, _, hlcne, hrow2⟩ :=
    pack_line_text { sh1 with queue := q2 } (shell_ok_queue sh1 q2 hk1 hq2) s hln1
      (print_ne_zero hpr) hsne
  have hb := body_cr _ _ hp2
  have hrun1 := hrun (1 + more) [] (13 :: rest)
  have hl := hloop more 0 ([] ++ s) rest
  rw [hb] at hl
  simp only [if_true] at hl
  refine ⟨{ sh := { sh2 with newline := 1 }, out := [] ++ s ++ [10], pending := rest },
    ?_, rfl, hc2, by simp only; rw [hcnt2]; simp only; rw [hcnt1], ?_, ?_, hlc2, hlp2,
    by simp only; rw [hcur2, hcnt2], rfl, by simp only; rw [hqq2]; exact he2, by simp,
    fun hlt => shell_ok_newline sh2 1 (hk2 (by simp only; rw [hcnt1]; exact hlt))⟩
  · unfold p_readline
    rw [show s.length + 1 + more = 1 + more + s.length by omega, hrun1,
      show 1 + more = more + 1 by omega, hl]
  · simp only at hrow2 ⊢
    rw [← hcnt1]; exact hrow2
  · have := (hreach log 0 _ (hre log hr) hb).2 rfl s hc2
    rw [if_pos hlcne] at this
    exact this

theorem demo_run : p_readline false 2 m_shell [97, 13]
    = ending.done { sh := demo_shell, out := [97, 10], pending := [] } := by
  decide

theorem demo_reach : Reachable false [[97]] demo_shell 0 := by
  obtain ⟨r, h1, _, _, _, _, h2, _⟩ := typed_run false [] m_shell [97] [] 0 (Reachable.init [])
    (reach_inv (@Reachable.init false []) (by decide)).1 rfl rfl rfl (by decide) (by decide) (by decide)
  have h3 : p_readline false 2 m_shell [97, 13] = ending.done r := h1
  rw [demo_run] at h3
  have h4 := ending.done.inj h3
  rw [← h4] at h2
  exact h2

/-! ## Browsing the history -/

/-- The state `change_history` leaves when the row read holds the text `l`. -/
theorem up_key_load (log : List (List Nat)) (sh : shell) (hk : shell_ok sh) (hl : log_ok log sh)
    (hg : sh.hiscur > 0 ∧ wrap32 (sh.hiscur + HISTORY_COUNT) > sh.hiscnt) :
    ∃ l, log[(sh.hiscur - 1).toNat]? = some l ∧ (∀ c ∈ l, c ≠ 0) ∧ l.length ≤ 64 ∧
      up_key sh = some
        ({ sh with hiscur := sh.hiscur - 1, line := l ++ 0 :: sh.line.drop (l.length + 1),
                   linecount := (l.length : Int), linepos := (l.length : Int) },
         [13] ++ sh.prompt ++ l ++ [27, 91, 75]) := by
  obtain ⟨h0, h8, _, gw⟩ := up_guard hk.2.1 hg
  obtain ⟨⟨hll, _, _, _⟩, ⟨hhl, hrows, hcur0, hcur, _⟩, hq⟩ := hk
  obtain ⟨t, row, hrow, ht, htl, hch⟩ := change_history_spec { sh with hiscur := sh.hiscur - 1 }
    hll hhl hrows (by simp only; omega)
  obtain ⟨hn, hj⟩ := hl
  have hjj := hj (sh.hiscur - 1).toNat (by omega) (by omega)
  have hidx : (sh.hiscur - 1).toNat % 8 = ((sh.hiscur - 1) % 8).toNat := by omega
  rw [hidx, hrow] at hjj
  change cstr row = _ at hjj
  rw [ht] at hjj
  refine ⟨t, hjj.symm, ((cstr_eq_some_iff _ _).1 ht).choose_spec.2, htl, ?_⟩
  unfold up_key
  rw [if_pos hg, gw, hch]

theorem up_key_stop (sh : shell)
    (h : ¬ (sh.hiscur > 0 ∧ wrap32 (sh.hiscur + HISTORY_COUNT) > sh.hiscnt)) :
    up_key sh = some (sh, []) := by
  unfold up_key
  rw [if_neg h]

theorem down_key_stop (sh : shell) (h : ¬ (wrap32 (sh.hiscur + 1) < sh.hiscnt)) :
    down_key sh = some (sh, []) := by
  unfold down_key
  rw [if_neg h]

/-- Without overflow the test of `up_key` is the comparison of the exact sum. -/
theorem up_guard_iff (sh : shell) (h0 : 0 ≤ sh.hiscur) (h1 : sh.hiscur ≤ 2147483639) :
    (sh.hiscur > 0 ∧ wrap32 (sh.hiscur + HISTORY_COUNT) > sh.hiscnt) ↔
      (0 < sh.hiscur ∧ sh.hiscur + 8 > sh.hiscnt) := by
  unfold wrap32 HISTORY_COUNT
  constructor <;> intro h <;> omega

/-- Without overflow the test of `down_key` is the comparison of the exact sum. -/
theorem down_guard_iff (sh : shell) (h0 : 0 ≤ sh.hiscur) (h1 : sh.hiscur < 2147483647) :
    wrap32 (sh.hiscur + 1) < sh.hiscnt ↔ sh.hiscur + 1 < sh.hiscnt := by
  unfold wrap32
  constructor <;> intro h <;> omega

theorem loaded_line (l rest : List Nat) (hz : ∀ c ∈ l, c ≠ 0) :
    cstr (l ++ 0 :: rest) = some l ∧ (l ++ 0 :: rest).take l.length = l :=
  ⟨cstr_append_zero l rest hz, by simp⟩

theorem up_key_cur (sh : shell) (hk : shell_ok sh) :
    ∃ sh1 out, up_key sh = some (sh1, out) ∧ shell_ok sh1 ∧ frame sh sh1 ∧
      (sh1.hiscur = sh.hiscur ∨ sh1.hiscur = sh.hiscur - 1) := by
  unfold up_key
  have hh := hk.2.1
  obtain ⟨⟨hl, hp0, hpc, hc⟩, ⟨hhl, hrows, hcur0, hcur, hmax⟩, hq⟩ := hk
  split
  · rename_i hg
    obtain ⟨g0, g8, _, gw⟩ := up_guard hh hg
    rw [gw]
    obtain ⟨sh1, out, h1, h2, h3, h4⟩ := change_history_ok { sh with hiscur := sh.hiscur - 1 } hl hhl
      hrows (by simp only; omega) (by simp only; omega) hmax hq
    exact ⟨sh1, out, h1, h2, h3, Or.inr h4⟩
  · exact ⟨_, _, rfl, ⟨⟨hl, hp0, hpc, hc⟩, ⟨hhl, hrows, hcur0, hcur, hmax⟩, hq⟩, frame_refl _,
      Or.inl rfl⟩

theorem down_key_cur (sh : shell) (hk : shell_ok sh) (hlt : sh.hiscur < 2147483647) :
    ∃ sh1 out, down_key sh = some (sh1, out) ∧ shell_ok sh1 ∧ frame sh sh1 ∧
      (sh1.hiscur = sh.hiscur ∨ (sh1.hiscur = sh.hiscur + 1 ∧ sh.hiscur + 1 < sh.hiscnt)) := by
  unfold down_key
  rw [down_guard hk.2.1 hlt]
  obtain ⟨⟨hl, hp0, hpc, hc⟩, ⟨hhl, hrows, hcur0, hcur, hmax⟩, hq⟩ := hk
  split
  · rename_i hg
    obtain ⟨sh1, out, h1, h2, h3, h4⟩ := change_history_ok { sh with hiscur := sh.hiscur + 1 } hl hhl
      hrows (by simp only; omega) (by simp only; omega) hmax hq
    exact ⟨sh1, out, h1, h2, h3, Or.inr ⟨h4, hg⟩⟩
  · exact ⟨_, _, rfl, ⟨⟨hl, hp0, hpc, hc⟩, ⟨hhl, hrows, hcur0, hcur, hmax⟩, hq⟩, frame_refl _,
      Or.inl rfl⟩

theorem arrows_below (ks : List Bool) : ∀ (sh : shell), shell_ok sh → sh.hiscur < sh.hiscnt →
    ∃ sh2, arrows ks sh = some sh2 ∧ sh2.hiscur < sh2.hiscnt ∧ sh2.hiscnt = sh.hiscnt := by
  induction ks with
  | nil => intro sh _ h; exact ⟨sh, rfl, h, rfl⟩
  | cons k ks ih =>
    intro sh hk h
    cases k with
    | true =>
      obtain ⟨sh1, out, h1, hk1, hf, hc⟩ := up_key_cur sh hk
      obtain ⟨sh2, h2, h3, h4⟩ := ih sh1 hk1 (by rw [hf.2.1]; omega)
      exact ⟨sh2, by simp [arrows, h1, h2], h3, by rw [h4, hf.2.1]⟩
    | false =>
      obtain ⟨sh1, out, h1, hk1, hf, hc⟩ := down_key_cur sh hk
        (by have := hk.2.1.2.2.2.2; omega)
      obtain ⟨sh2, h2, h3, h4⟩ := ih sh1 hk1 (by rw [hf.2.1]; omega)
      exact ⟨sh2, by simp [arrows, h1, h2], h3, by rw [h4, hf.2.1]⟩

/-! ## Entering several lines -/

/-- Entering non-empty printable lines one after the other commits them, as
long as the count of committed lines stays within `INT_MAX`. -/
theorem enter_lines_reach (sgn : Bool) (ls : List (List Nat)) :
    ∀ (log : List (List Nat)) (sh : shell), Reachable sgn log sh 0 → shell_ok sh →
    sh.hiscnt = (log.length : Int) →
    sh.linecount = 0 → sh.linepos = 0 → sh.queue.front = sh.queue.rear →
    (∀ l ∈ ls, 1 ≤ l.length ∧ l.length ≤ 64 ∧ ∀ c ∈ l, 32 ≤ c ∧ c ≤ 126) →
    ((log.length + ls.length : Nat) : Int) ≤ 2147483647 →
    ∃ sh1, enterLines sgn sh ls = some sh1 ∧ Reachable sgn (log ++ ls) sh1 0 ∧
      shell_ok sh1 ∧ sh1.hiscnt = ((log.length + ls.length : Nat) : Int) ∧
      sh1.linecount = 0 ∧ sh1.linepos = 0 ∧ sh1.queue.front = sh1.queue.rear ∧
      (ls ≠ [] → sh1.hiscur = sh1.hiscnt) := by
  induction ls with
  | nil =>
    intro log sh hr hk hc hlc hlp hq _ _
    exact ⟨sh, rfl, by simpa using hr, hk, by simpa using hc, hlc, hlp, hq, fun h => absurd rfl h⟩
  | cons l ls ih =>
    intro log sh hr hk hc hlc hlp hq hall hmax
    obtain ⟨h1, h64, hpr⟩ := hall l (by simp)
    simp only [List.length_cons] at hmax
    push_cast at hmax
    have hlt : sh.hiscnt < 2147483647 := by omega
    obtain ⟨r, hrun, _, _, hcnt, _, hre, hlc1, hlp1, hcur1, _, hq1, _, hok⟩ :=
      typed_run sgn log sh l [] 0 hr hk hlc hlp hq h1 h64 hpr
    rw [wrap32_id _ (by omega) (by omega)] at hcnt
    obtain ⟨sh1, he, hr1, hk1, hc1, hlc2, hlp2, hq2, hcur2⟩ := ih (log ++ [l]) r.sh hre (hok hlt)
      (by rw [hcnt, hc]; simp) hlc1 hlp1 hq1
      (fun x hx => hall x (by simp [hx]))
      (by simp only [List.length_append, List.length_singleton]; push_cast; omega)
    refine ⟨sh1, ?_, by simpa using hr1, hk1, ?_, hlc2, hlp2, hq2, fun _ => ?_⟩
    · rw [enterLines]
      simp only [Nat.add_zero] at hrun
      rw [hrun]
      exact he
    · rw [hc1]
      simp only [List.length_append, List.length_cons, List.length_nil]
      push_cast
      omega
    · by_cases hls : ls = []
      · subst hls
        simp only [enterLines, Option.some.injEq] at he
        rw [← he]; exact hcur1
      · exact hcur2 hls

/-- Entering the line "a" `n` times, for any `n` up to `INT_MAX`, from the
zeroed state: `hiscnt` and `hiscur` both end at `n`. -/
theorem commits_reach (n : Nat) (hn : (n : Int) ≤ 2147483647) :
    ∃ sh, enterLines false m_shell (List.replicate n [97]) = some sh ∧
      Reachable false (List.replicate n [97]) sh 0 ∧ shell_ok sh ∧
      sh.hiscnt = (n : Int) ∧ sh.hiscur = (n : Int) ∧
      sh.linecount = 0 ∧ sh.linepos = 0 ∧ sh.queue.front = sh.queue.rear := by
  have h0 : shell_ok m_shell := (reach_inv (@Reachable.init false []) (by decide)).1
  obtain ⟨sh, h1, h2, h3, h4, h5, h6, h7, h8⟩ := enter_lines_reach false (List.replicate n [97])
    [] m_shell (Reachable.init []) h0 rfl rfl rfl rfl
    (fun l hl => by rw [List.eq_of_mem_replicate hl]; decide)
    (by rw [List.length_replicate]; simpa using hn)
  rw [List.length_replicate] at h4
  simp only [List.length_nil, Nat.zero_add] at h4
  refine ⟨sh, h1, by simpa using h2, h3, h4, ?_, h5, h6, h7⟩
  cases n with
  | zero =>
    simp only [List.replicate_zero, enterLines, Option.some.injEq] at h1
    rw [← h1]; rfl
  | succ k =>
    rw [h8 (by simp [List.replicate_succ]), h4]

theorem nine_run : enterLines false m_shell nine_lines = some nine_shell := by
  decide

theorem nine_reach : Reachable false nine_lines nine_shell 0 := by
  have h0 : shell_ok m_shell := (reach_inv (@Reachable.init false []) (by decide)).1
  obtain ⟨sh1, h1, h2, _⟩ := enter_lines_reach false nine_lines [] m_shell (Reachable.init [])
    h0 rfl rfl rfl rfl (by decide) (by decide)
  rw [nine_run] at h1
  rw [← Option.some.inj h1] at h2
  exact h2

theorem stale_reach : Reachable false [] stale_shell 0 :=
  Reachable.feed (b := 120) (r := 120) (Reachable.init []) (by decide)

/-- A pass that does not return, on a byte below 128 fed into the empty queue. -/
theorem loop_cont (sgn : Bool) (log : List (List Nat)) (sh : shell) (st b : Int)
    (hk : queue_ok sh.queue) (he : sh.queue.front = sh.queue.rear) (hr : Reachable sgn log sh st)
    (hb0 : 0 ≤ b) (hb1 : b < 128) :
    ∃ q2, queue_ok q2 ∧ q2.front = q2.rear ∧ ∀ p,
      p_readline_body { sh with queue := q2 } st b = some p → p.ret = false →
      (∀ (n : Nat) (acc : List Nat) (rest : List Int),
        p_readline_loop sgn (n + 1) sh st acc (b :: rest)
          = p_readline_loop sgn n p.sh p.state (acc ++ p.out) rest) ∧
      Reachable sgn log p.sh p.state := by
  obtain ⟨q2, hq2, he2, hloop, hreach⟩ := loop_pass sgn sh b hk he
  rw [charVal_toChar_ascii sgn b hb0 hb1] at hloop hreach
  refine ⟨q2, hq2, he2, fun p hp hret => ⟨fun n acc rest => ?_, (hreach log st p hr hp).1 hret⟩⟩
  rw [hloop n st acc rest, hp]
  simp only [hret, Bool.false_eq_true, if_false]

theorem body_esc (sh : shell) (st : Int) :
    p_readline_body sh st 27 = some
      { sh := { sh with newline := 0 }, state := 1, out := [], ret := false } := by
  simp [p_readline_body]

theorem body_bracket (sh : shell) :
    p_readline_body sh 1 91 = some
      { sh := { sh with newline := 0 }, state := 2, out := [], ret := false } := by
  simp [p_readline_body]

theorem body_abandon (sh : shell) :
    p_readline_body sh 1 120 = some
      { sh := { sh with newline := 0 }, state := 0, out := [], ret := false } := by
  simp [p_readline_body]

theorem body_up (sh sh1 : shell) (out : List Nat) (h : up_key sh = some (sh1, out)) :
    p_readline_body sh 2 65 = some
      { sh := { sh1 with newline := 0 }, state := 0, out := out, ret := false } := by
  simp [p_readline_body, h]

theorem body_down (sh sh1 : shell) (out : List Nat) (h : down_key sh = some (sh1, out)) :
    p_readline_body sh 2 66 = some
      { sh := { sh1 with newline := 0 }, state := 0, out := out, ret := false } := by
  simp [p_readline_body, h]

/-- The bytes ESC and `[` fed into the empty queue of a reachable state with
an idle decoder lead to a reachable state with the decoder in SawBracket,
which differs only in the queue and the CR flag. -/
theorem bracket_reach (sgn : Bool) (log : List (List Nat)) (sh : shell)
    (hk : queue_ok sh.queue) (he : sh.queue.front = sh.queue.rear)
    (hr : Reachable sgn log sh 0) :
    ∃ q2, queue_ok q2 ∧ q2.front = q2.rear ∧
      Reachable sgn log { sh with queue := q2, newline := 0 } 2 := by
  obtain ⟨q1, hq1, he1, hstep1⟩ := loop_cont sgn log sh 0 27 hk he hr (by omega) (by omega)
  obtain ⟨_, hr1⟩ := hstep1 _ (body_esc _ 0) rfl
  simp only at hr1
  obtain ⟨q2, hq2, he2, hstep2⟩ := loop_cont sgn log _ 1 91 hq1 he1 hr1 (by omega) (by omega)
  obtain ⟨_, hr2⟩ := hstep2 _ (body_bracket _) rfl
  exact ⟨q2, hq2, he2, hr2⟩

/-! ## The history counters at `INT_MAX` -/

/-- With `hiscur = hiscnt = INT_MAX` the sum in the test of `down_key` wraps
to `INT_MIN`, the test holds, and row `INT_MIN % 8 = 0` is loaded with
`hiscur = INT_MIN`. -/
theorem down_key_wrap (sh : shell) (hk : mem_ok sh) (hc : sh.hiscur = 2147483647)
    (hn : sh.hiscnt = 2147483647) :
    ∃ sh1 out, down_key sh = some (sh1, out) ∧ sh1.hiscur = -2147483648 ∧
      sh1.hiscnt = 2147483647 ∧ sh1.queue = sh.queue := by
  obtain ⟨⟨hl, _, _, _⟩, hhl, hrows, hq⟩ := hk
  have hw : wrap32 (sh.hiscur + 1) = -2147483648 := by rw [hc]; decide
  obtain ⟨t, row, _, _, _, hch⟩ := change_history_at { sh with hiscur := -2147483648 } hl hhl
    hrows 0 tmod8_int_min (le_refl 0)
  refine ⟨{ sh with hiscur := -2147483648, line := t ++ 0 :: sh.line.drop (t.length + 1),
                    linecount := (t.length : Int), linepos := (t.length : Int) },
    [13] ++ sh.prompt ++ t ++ [27, 91, 75], ?_, rfl, hn, rfl⟩
  unfold down_key
  rw [hw, if_pos (by rw [hn]; decide), hch]

/-- After `INT_MAX` commits, in a reachable state with the decoder in
SawBracket, `down_key` leaves `hiscur = INT_MIN`; and so a state with
`hiscur = INT_MIN` is reachable. -/
theorem overflow_down :
    ∃ sh0 sh2, Reachable false (List.replicate 2147483647 [97]) sh0 2 ∧
      sh0.hiscur = 2147483647 ∧ sh0.hiscnt = 2147483647 ∧ shell_ok sh0 ∧
      (∃ sh1 out, down_key sh0 = some (sh1, out) ∧ sh1.hiscur = -2147483648) ∧
      Reachable false (List.replicate 2147483647 [97]) sh2 0 ∧
      sh2.hiscur = -2147483648 ∧ sh2.hiscnt = 2147483647 ∧
      queue_ok sh2.queue ∧ sh2.queue.front = sh2.queue.rear := by
  obtain ⟨sh, _, hr, hk, hcnt, hcur, _, _, hq⟩ := commits_reach 2147483647 (by decide)
  obtain ⟨q2, hq2, he2, hr2⟩ := bracket_reach false _ sh hk.2.2 hq hr
  obtain ⟨q3, hq3, he3, hstep3⟩ := loop_cont false _ _ 2 66 hq2 he2 hr2 (by omega) (by omega)
  have hk2 : shell_ok { sh with queue := q2, newline := 0 } := ⟨hk.1, hk.2.1, hq2⟩
  have hm : mem_ok { sh with queue := q3, newline := 0 } :=
    mem_ok_queue _ q3 (shell_ok_mem hk) hq3
  obtain ⟨sh1, out, hd, h1, h2, h3⟩ := down_key_wrap _ hm (by simpa using hcur)
    (by simpa using hcnt)
  obtain ⟨sh1b, outb, hdb, h1b, _, _⟩ := down_key_wrap _ (shell_ok_mem hk2)
    (by simpa using hcur) (by simpa using hcnt)
  obtain ⟨_, hr3⟩ := hstep3 _ (body_down _ _ _ hd) rfl
  simp only at hr3 h3
  exact ⟨{ sh with queue := q2, newline := 0 }, { sh1 with newline := 0 }, hr2,
    by simpa using hcur, by simpa using hcnt, hk2, ⟨sh1b, outb, hdb, h1b⟩, hr3, h1, h2,
    by simp only; rw [h3]; exact hq3, by simp only; rw [h3]; exact he3⟩

/-- C1, as stated, fails, in two ways.  In the reachable state `stale_shell`
the line buffer is empty and the decoder idle, but the byte `x` is queued and
not yet polled: `p_readline` fed "a" and a carriage return comes back with
"xa", not "a".  And after `INT_MAX` commits, with the line buffer and the
queue empty, the commit of "a" takes `hiscnt` from `INT_MAX` to `INT_MIN`,
not to `hiscnt + 1`. -/
theorem typed_line_round_trip_counterexample :
    (Reachable false [] stale_shell 0 ∧ stale_shell.linecount = 0 ∧
      stale_shell.linepos = 0 ∧
      returned (p_readline false 3 stale_shell ([97].map Int.ofNat ++ 13 :: []))
        = some [120, 97]) ∧
    (∃ sh r, Reachable false (List.replicate 2147483647 [97]) sh 0 ∧
      sh.linecount = 0 ∧ sh.linepos = 0 ∧ sh.queue.front = sh.queue.rear ∧
      sh.hiscnt = 2147483647 ∧
      p_readline false 2 sh ([97].map Int.ofNat ++ 13 :: []) = ending.done r ∧
      cstr r.sh.line = some [97] ∧ r.sh.hiscnt = -2147483648 ∧
      r.sh.hiscnt ≠ sh.hiscnt + 1) := by
  refine ⟨⟨stale_reach, rfl, rfl, by decide⟩, ?_⟩
  obtain ⟨sh, _, hr, hk, hcnt, _, hlc, hlp, hq⟩ := commits_reach 2147483647 (by decide)
  have hcnt1 : sh.hiscnt = 2147483647 := by simpa using hcnt
  obtain ⟨r, hrun, _, hc, hn, _⟩ := typed_run false _ sh [97] [] 0 hr hk hlc hlp hq
    (by decide) (by decide) (by decide)
  have hn1 : r.sh.hiscnt = -2147483648 := by rw [hn, hcnt1]; decide
  exact ⟨sh, r, hr, hlc, hlp, hq, hcnt1, hrun, hc, hn1, by rw [hn1, hcnt1]; decide⟩

/-- C1, amended. From a reachable state with an empty line buffer, an idle
decoder and an empty queue, in which fewer than `INT_MAX` lines have been
committed, `p_readline` fed `n` printable bytes `s` (`1 <= n <= 64`) and then
a carriage return comes back at the carriage return (what follows it is still
pending), the returned string is `s`, `hiscnt` has grown by one and history
row `old hiscnt % 8` holds `s`; the state it returns in is reachable with `s`
appended to the committed lines. -/
theorem typed_line_round_trip (sgn : Bool) (log : List (List Nat)) (sh : shell)
    (s : List Nat) (rest : List Int) (more : Nat)
    (hr : Reachable sgn log sh 0) (hlc : sh.linecount = 0) (hlp : sh.linepos = 0)
    (hq : sh.queue.front = sh.queue.rear) (hmax : (log.length : Int) < 2147483647)
    (hn1 : 1 ≤ s.length) (hn64 : s.length ≤ 64) (hpr : ∀ c ∈ s, 32 ≤ c ∧ c ≤ 126) :
    ∃ r, p_readline sgn (s.length + 1 + more) sh (s.map Int.ofNat ++ 13 :: rest)
        = ending.done r ∧
      r.pending = rest ∧ cstr r.sh.line = some s ∧ r.sh.hiscnt = sh.hiscnt + 1 ∧
      ((r.sh.history)[(sh.hiscnt % 8).toNat]?).bind cstr = some s ∧
      Reachable sgn (log ++ [s]) r.sh 0 := by
  obtain ⟨hk, hl, _⟩ := reach_inv hr hmax
  obtain ⟨r, h1, h2, h3, h4, h5, h6, _⟩ :=
    typed_run sgn log sh s rest more hr hk hlc hlp hq hn1 hn64 hpr
  have hc := hl.1
  have hnn := hk.2.1.2.2.1
  rw [wrap32_id _ (by omega) (by omega)] at h4
  exact ⟨r, h1, h2, h3, h4, h5, h6⟩

theorem typed_line_round_trip_witness :
    ∃ r, p_readline false (2 + 1 + 0) demo_shell ([104, 105].map Int.ofNat ++ 13 :: [10])
        = ending.done r ∧
      r.pending = [10] ∧ cstr r.sh.line = some [104, 105] ∧
      r.sh.hiscnt = demo_shell.hiscnt + 1 ∧
      ((r.sh.history)[(demo_shell.hiscnt % 8).toNat]?).bind cstr = some [104, 105] ∧
      Reachable false ([[97]] ++ [[104, 105]]) r.sh 0 :=
  typed_line_round_trip false [[97]] demo_shell [104, 105] [10] 0 demo_reach rfl rfl rfl
    (by decide) (by decide) (by decide) (by decide)

/-- C8. With `linecount = 0`, Enter (a carriage return, or a line feed while
the CR flag is clear) received by an idle decoder makes the pass end in
`return shell->line` with the empty string in `line`, and leaves `hiscnt`,
`hiscur` and all history rows as they were. -/
theorem empty_line_rule (sh : shell) (ch : Int) (hl : sh.line.length = 65)
    (h0 : sh.linecount = 0) (hch : ch = 13 ∨ (ch = 10 ∧ sh.newline = 0)) :
    ∃ p, p_readline_body sh 0 ch = some p ∧ p.ret = true ∧ cstr p.sh.line = some [] ∧
      p.sh.hiscnt = sh.hiscnt ∧ p.sh.history = sh.history ∧ p.sh.hiscur = sh.hiscur ∧
      p.sh.linecount = 0 ∧ p.sh.linepos = 0 := by
  have hw : wr sh.line sh.linecount 0 = some (sh.line.set 0 0) := by
    rw [wr_eq_some 0 (by omega) (by omega), h0]; rfl
  have hp : pack_line sh = some { sh with line := sh.line.set 0 0, linecount := 0, linepos := 0 } := by
    unfold pack_line
    rw [hw]
    simp [h0]
  have hc : cstr (sh.line.set 0 0) = some [] := by
    cases hs : sh.line with
    | nil => rw [hs] at hl; simp at hl
    | cons a t => simp [cstr]
  rcases hch with h | ⟨h, hn⟩
  · subst h
    exact ⟨_, body_cr _ _ hp, rfl, hc, rfl, rfl, rfl, rfl, rfl⟩
  · subst h
    exact ⟨_, body_lf _ _ hp hn, rfl, hc, rfl, rfl, rfl, rfl, rfl⟩

theorem empty_line_rule_witness :
    ∃ p, p_readline_body demo_shell 0 13 = some p ∧ p.ret = true ∧ cstr p.sh.line = some [] ∧
      p.sh.hiscnt = demo_shell.hiscnt ∧ p.sh.history = demo_shell.history ∧
      p.sh.hiscur = demo_shell.hiscur ∧ p.sh.linecount = 0 ∧ p.sh.linepos = 0 :=
  empty_line_rule demo_shell 13 (by decide) (by decide) (Or.inl rfl)

/-- C9. With `linecount = 64`, at any cursor position, `insert_char` leaves
the whole state as it was and writes nothing; so does `addchar` on a
printable byte. -/
theorem insert_at_capacity (sh : shell) (ch : Int) (h : sh.linecount = 64) :
    insert_char sh ch = some (sh, []) ∧
    (isprint ch = true → addchar sh ch = some (sh, [], 0)) := by
  have hi : insert_char sh ch = some (sh, []) := insert_char_full sh ch (by omega)
  refine ⟨hi, fun hp => ?_⟩
  have hr := (isprint_iff ch).1 hp
  unfold addchar
  simp only [show ch ≠ 13 by omega, show ch ≠ 10 by omega, show ¬ (ch = 8 ∨ ch = 127) by omega,
    if_false, hp, if_true, hi]

theorem insert_at_capacity_witness :
    insert_char { m_shell with linecount := 64, linepos := 3 } 65
      = some ({ m_shell with linecount := 64, linepos := 3 }, []) ∧
    (isprint 65 = true → addchar { m_shell with linecount := 64, linepos := 3 } 65
      = some ({ m_shell with linecount := 64, linepos := 3 }, [], 0)) :=
  insert_at_capacity { m_shell with linecount := 64, linepos := 3 } 65 rfl

/-! ## History browsing -/

/-- The state after a successful `up_key`, with what the invariants say about it. -/
theorem up_key_step (log : List (List Nat)) (sh : shell) (hk : shell_ok sh) (hl : log_ok log sh)
    (hg : sh.hiscur > 0 ∧ wrap32 (sh.hiscur + HISTORY_COUNT) > sh.hiscnt) :
    ∃ sh1 out l, up_key sh = some (sh1, out) ∧ shell_ok sh1 ∧ log_ok log sh1 ∧
      log[(sh.hiscur - 1).toNat]? = some l ∧ cstr sh1.line = some l ∧
      sh1.line.take l.length = l ∧ sh1.linecount = (l.length : Int) ∧
      sh1.linepos = (l.length : Int) ∧ sh1.hiscur = sh.hiscur - 1 ∧ sh1.hiscnt = sh.hiscnt ∧
      sh1.history = sh.history ∧ sh1.queue = sh.queue ∧
      out = [13] ++ sh.prompt ++ l ++ [27, 91, 75] := by
  obtain ⟨l, hlog, hz, _, hup⟩ := up_key_load log sh hk hl hg
  obtain ⟨sh1, out, hup1, hk1, hf⟩ := up_key_ok sh hk
  rw [hup] at hup1
  have he := Option.some.inj hup1
  simp only [Prod.mk.injEq] at he
  obtain ⟨he1, he2⟩ := he
  subst he1
  obtain ⟨hc, ht⟩ := loaded_line l (sh.line.drop (l.length + 1)) hz
  exact ⟨_, _, l, hup, hk1, log_ok_history hl rfl rfl, hlog, hc, ht, rfl, rfl, rfl, rfl, rfl, rfl,
    rfl⟩

/-- C10, as stated, fails: after 2147483640 (`INT_MAX - 7`) commits the
state is reachable with `hiscur = hiscnt >= 1`, the sum `hiscur + 8` in the
test of `up_key` wraps to a negative `int`, and `up_key` does nothing; the
`down_key` after it does nothing either, so the line buffer holds no history
entry (it is empty, and every committed line is "a") and `hiscur` is still
`hiscnt`. -/
theorem history_down_bound_counterexample :
    ∃ sh, Reachable false (List.replicate 2147483640 [97]) sh 0 ∧
      sh.hiscnt = 2147483640 ∧ sh.hiscur = sh.hiscnt ∧ 1 ≤ sh.hiscnt ∧
      wrap32 (sh.hiscur + HISTORY_COUNT) = -2147483648 ∧
      up_key sh = some (sh, []) ∧ down_key sh = some (sh, []) ∧
      content sh = [] ∧ sh.hiscur ≠ sh.hiscnt - 1 := by
  obtain ⟨sh, _, hr, hk, hcnt, hcur, hlc, _, _⟩ := commits_reach 2147483640 (by decide)
  have hcnt1 : sh.hiscnt = 2147483640 := by simpa using hcnt
  have hcur1 : sh.hiscur = 2147483640 := by simpa using hcur
  have hw : wrap32 (sh.hiscur + HISTORY_COUNT) = -2147483648 := by rw [hcur1]; decide
  refine ⟨sh, hr, hcnt1, by rw [hcur1, hcnt1], by rw [hcnt1]; decide, hw, ?_, ?_, ?_, ?_⟩
  · exact up_key_stop sh (fun hg => absurd hg.2 (by rw [hw, hcnt1]; decide))
  · refine down_key_stop sh ?_
    rw [hcur1, hcnt1]; decide
  · simp [content, hlc]
  · rw [hcur1, hcnt1]; decide

/-- C10, amended. In a reachable state with `hiscur = hiscnt >= 1` in which
fewer than 2147483640 (`INT_MAX - 7`) lines have been committed, `up_key`
loads the most recently committed line and leaves `hiscur = hiscnt - 1`; a
`down_key` then changes nothing and writes nothing, as does every further
one; and whatever arrow keys follow, `hiscur` stays below `hiscnt`. -/
theorem history_down_bound (sgn : Bool) (log : List (List Nat)) (sh : shell) (st : Int)
    (hr : Reachable sgn log sh st) (he : sh.hiscur = sh.hiscnt) (h1 : 1 ≤ sh.hiscnt)
    (hmax : (log.length : Int) < 2147483640) :
    ∃ sh1 out l, up_key sh = some (sh1, out) ∧ down_key sh1 = some (sh1, []) ∧
      log.getLast? = some l ∧ cstr sh1.line = some l ∧
      sh1.line.take sh1.linecount.toNat = l ∧
      sh1.hiscur = sh.hiscnt - 1 ∧ sh1.hiscnt = sh.hiscnt ∧
      ∀ ks, ∃ sh2, arrows ks sh1 = some sh2 ∧ sh2.hiscur < sh2.hiscnt ∧
        sh2.hiscnt = sh.hiscnt := by
  obtain ⟨hk, hl, _⟩ := reach_inv hr (by omega)
  have hc := hl.1
  have hg : sh.hiscur > 0 ∧ wrap32 (sh.hiscur + HISTORY_COUNT) > sh.hiscnt :=
    (up_guard_iff sh (by omega) (by omega)).2 ⟨by omega, by omega⟩
  obtain ⟨sh1, out, l, hup, hk1, _, hlog, hcs, ht, hlc, _, hcur, hcnt, _⟩ :=
    up_key_step log sh hk hl hg
  refine ⟨sh1, out, l, hup, down_key_stop sh1 ?_, ?_, hcs, ?_, by omega, hcnt, ?_⟩
  · rw [down_guard_iff sh1 (by omega) (by omega)]
    omega
  · rw [List.getLast?_eq_getElem?, ← hlog]
    congr 1
    omega
  · rw [hlc]; simpa using ht
  · intro ks
    obtain ⟨sh2, h2, h3, h4⟩ := arrows_below ks sh1 hk1 (by omega)
    exact ⟨sh2, h2, h3, by rw [h4, hcnt]⟩

theorem history_down_bound_witness :
    ∃ sh1 out l, up_key demo_shell = some (sh1, out) ∧ down_key sh1 = some (sh1, []) ∧
      [[97]].getLast? = some l ∧ cstr sh1.line = some l ∧
      sh1.line.take sh1.linecount.toNat = l ∧
      sh1.hiscur = demo_shell.hiscnt - 1 ∧ sh1.hiscnt = demo_shell.hiscnt ∧
      ∀ ks, ∃ sh2, arrows ks sh1 = some sh2 ∧ sh2.hiscur < sh2.hiscnt ∧
        sh2.hiscnt = demo_shell.hiscnt :=
  history_down_bound false [[97]] demo_shell 0 demo_reach rfl (by decide) (by decide)

theorem upN_inv (log : List (List Nat)) (sh : shell) (hk : shell_ok sh) (hl : log_ok log sh)
    (he : sh.hiscur = sh.hiscnt) (hn : 1 ≤ log.length) (hmax : sh.hiscnt ≤ 2147483639)
    (k : Nat) :
    ∃ shk outk, upN k sh = some (shk, outk) ∧ shell_ok shk ∧ log_ok log shk ∧
      shk.hiscnt = sh.hiscnt ∧
      shk.hiscur = ((log.length - min k (min log.length 8) : Nat) : Int) ∧
      (1 ≤ k → ∃ l, log[log.length - min k (min log.length 8)]? = some l ∧
        cstr shk.line = some l ∧ shk.line.take l.length = l ∧
        shk.linecount = (l.length : Int) ∧ shk.linepos = (l.length : Int)) := by
  have hcnt := hl.1
  induction k with
  | zero =>
    exact ⟨sh, [], rfl, hk, hl, rfl, by rw [he, hcnt]; simp, fun h => absurd h (by decide)⟩
  | succ k ih =>
    obtain ⟨shk, outk, hup, hkk, hlk, hck, hcur, hload⟩ := ih
    by_cases hlt : k < min log.length 8
    · have hg0 : 0 < shk.hiscur := by clear hload; omega
      have hg8 : shk.hiscur + 8 > shk.hiscnt := by clear hload; omega
      have hg := (up_guard_iff shk (by clear hload; omega) (by clear hload; omega)).2 ⟨hg0, hg8⟩
      obtain ⟨sh1, out, l, hu, hk1, hl1, hlog, hc, ht, hlc, hlp, hcur1, hcnt1, _⟩ :=
        up_key_step log shk hkk hlk hg
      have hcur2 : sh1.hiscur = ((log.length - min (k + 1) (min log.length 8) : Nat) : Int) := by
        clear hload; omega
      have hidx : (shk.hiscur - 1).toNat = log.length - min (k + 1) (min log.length 8) := by
        clear hload; omega
      refine ⟨sh1, outk ++ out, by simp [upN, hup, hu], hk1, hl1, by rw [hcnt1, hck],
        hcur2, fun _ => ⟨l, ?_, hc, ht, hlc, hlp⟩⟩
      rw [← hlog, hidx]
    · have hg : ¬ (0 < shk.hiscur ∧ shk.hiscur + 8 > shk.hiscnt) := by clear hload; omega
      have hs := up_key_stop shk
        (fun h => hg ((up_guard_iff shk (by clear hload; omega) (by clear hload; omega)).1 h))
      have hcur2 : shk.hiscur = ((log.length - min (k + 1) (min log.length 8) : Nat) : Int) := by
        clear hload; omega
      have hidx : min k (min log.length 8) = min (k + 1) (min log.length 8) := by
        clear hload; omega
      have hk1 : 1 ≤ k := by clear hload; omega
      refine ⟨shk, outk ++ [], by simp [upN, hup, hs], hkk, hlk, hck, hcur2, fun _ => ?_⟩
      obtain ⟨l, h1, h2⟩ := hload hk1
      rw [hidx] at h1
      exact ⟨l, h1, h2⟩

/-- C4, as stated, fails: after `n = 2147483640` (`INT_MAX - 7`) commits of
the line "a" from the zeroed state, with no browsing in between, the sum
`hiscur + 8` in the test of `up_key` wraps to a negative `int`, and the first
press of the up arrow loads nothing: the state is unchanged, with
`linecount = 0`, not the length of "a". -/
theorem history_browse_up_counterexample :
    ∃ sh, enterLines false m_shell (List.replicate 2147483640 [97]) = some sh ∧
      Reachable false (List.replicate 2147483640 [97]) sh 0 ∧
      sh.hiscnt = 2147483640 ∧ sh.hiscur = sh.hiscnt ∧
      wrap32 (sh.hiscur + HISTORY_COUNT) = -2147483648 ∧
      up_key sh = some (sh, []) ∧ upN 1 sh = some (sh, []) ∧ sh.linecount = 0 := by
  obtain ⟨sh, he, hr, hk, hcnt, hcur, hlc, _, _⟩ := commits_reach 2147483640 (by decide)
  have hcnt1 : sh.hiscnt = 2147483640 := by simpa using hcnt
  have hcur1 : sh.hiscur = 2147483640 := by simpa using hcur
  have hw : wrap32 (sh.hiscur + HISTORY_COUNT) = -2147483648 := by rw [hcur1]; decide
  have hup : up_key sh = some (sh, []) := up_key_stop sh (fun hg => absurd hg.2 (by rw [hw, hcnt1]; decide))
  refine ⟨sh, he, hr, hcnt1, by rw [hcur1, hcnt1], hw, hup, ?_, hlc⟩
  simp [upN, hup]

/-- C4, amended. In a reachable state with `n >= 1` committed lines,
`n < 2147483640` (`INT_MAX - 7`), and the browse cursor at rest
(`hiscur = hiscnt`, as after any commit), the state after `k` presses of the
up arrow has `hiscur = n - min k (min n 8)`; for `1 <= k <= min n 8` the line
buffer holds exactly line number `n - k`, with `linecount = linepos` its
length; from `min n 8` presses on, a further `up_key` changes nothing and
writes nothing; with more than eight lines committed `hiscur` never goes
below `n - 8`, so line number 0 is never loaded. -/
theorem history_browse_up (sgn : Bool) (log : List (List Nat)) (sh : shell) (st : Int)
    (hr : Reachable sgn log sh st) (he : sh.hiscur = sh.hiscnt) (hn : 1 ≤ log.length)
    (hmax : (log.length : Int) < 2147483640) (k : Nat) :
    ∃ shk outk, upN k sh = some (shk, outk) ∧
      shk.hiscur = ((log.length - min k (min log.length 8) : Nat) : Int) ∧
      (1 ≤ k → k ≤ min log.length 8 → ∃ l, log[log.length - k]? = some l ∧
        cstr shk.line = some l ∧ shk.line.take l.length = l ∧
        shk.linecount = (l.length : Int) ∧ shk.linepos = (l.length : Int)) ∧
      (min log.length 8 ≤ k → up_key shk = some (shk, [])) ∧
      (8 < log.length → 1 ≤ shk.hiscur ∧ ∀ l, cstr shk.line = some l → 1 ≤ k →
        log[shk.hiscur.toNat]? = some l) := by
  obtain ⟨hk, hl, _⟩ := reach_inv hr (by omega)
  have hcnt := hl.1
  obtain ⟨shk, outk, hup, hkk, hlk, hck, hcur, hload⟩ := upN_inv log sh hk hl he hn (by omega) k
  have hstop : min log.length 8 ≤ k → ¬ (0 < shk.hiscur ∧ shk.hiscur + 8 > shk.hiscnt) := by
    clear hload; intro h; omega
  have hlow : 8 < log.length → 1 ≤ shk.hiscur := by clear hload; intro h; omega
  have hidx1 : k ≤ min log.length 8 → min k (min log.length 8) = k := by
    clear hload; intro h; omega
  have hidx2 : shk.hiscur.toNat = log.length - min k (min log.length 8) := by
    clear hload; omega
  have hgi := up_guard_iff shk (by clear hload; omega) (by clear hload; omega)
  refine ⟨shk, outk, hup, hcur, fun h1 h2 => ?_,
    fun h => up_key_stop shk (fun hg => hstop h (hgi.1 hg)),
    fun h => ⟨hlow h, fun l hl1 h1 => ?_⟩⟩
  · obtain ⟨l, h3, h4⟩ := hload h1
    rw [hidx1 h2] at h3
    exact ⟨l, h3, h4⟩
  · obtain ⟨l2, h3, h4, _⟩ := hload h1
    rw [h4] at hl1
    rw [← Option.some.inj hl1, ← h3, hidx2]

theorem history_browse_up_witness :
    ∃ shk outk, upN 8 nine_shell = some (shk, outk) ∧
      shk.hiscur = ((nine_lines.length - min 8 (min nine_lines.length 8) : Nat) : Int) ∧
      (1 ≤ 8 → 8 ≤ min nine_lines.length 8 →
        ∃ l, nine_lines[nine_lines.length - 8]? = some l ∧
        cstr shk.line = some l ∧ shk.line.take l.length = l ∧
        shk.linecount = (l.length : Int) ∧ shk.linepos = (l.length : Int)) ∧
      (min nine_lines.length 8 ≤ 8 → up_key shk = some (shk, [])) ∧
      (8 < nine_lines.length → 1 ≤ shk.hiscur ∧
        ∀ l, cstr shk.line = some l → 1 ≤ 8 → nine_lines[shk.hiscur.toNat]? = some l) :=
  history_browse_up false nine_lines nine_shell 0 nine_reach rfl (by decide) (by decide) 8

/-! ## Escape sequences and CRLF -/

/-- C6, as stated, fails: after 2147483640 (`INT_MAX - 7`) commits the
state is reachable with an idle decoder and `hiscur = hiscnt >= 1`; the
passes on ESC, `[`, `A` end in `up_key`, where the sum `hiscur + 8` wraps to
a negative `int`, and nothing is loaded: `hiscur` is not decremented and the
line buffer is still empty. -/
theorem escape_absorption_counterexample :
    ∃ sh p1 p2 p3, Reachable false (List.replicate 2147483640 [97]) sh 0 ∧
      sh.hiscnt = 2147483640 ∧ sh.hiscur = sh.hiscnt ∧ 1 ≤ sh.hiscnt ∧
      p_readline_body sh 0 27 = some p1 ∧ p_readline_body p1.sh p1.state 91 = some p2 ∧
      p_readline_body p2.sh p2.state 65 = some p3 ∧
      p3.sh.hiscur = sh.hiscur ∧ p3.sh.hiscur ≠ sh.hiscur - 1 ∧ content p3.sh = [] := by
  obtain ⟨sh, _, hr, hk, hcnt, hcur, hlc, _, _⟩ := commits_reach 2147483640 (by decide)
  have hcnt1 : sh.hiscnt = 2147483640 := by simpa using hcnt
  have hcur1 : sh.hiscur = 2147483640 := by simpa using hcur
  have hw : wrap32 (sh.hiscur + HISTORY_COUNT) = -2147483648 := by rw [hcur1]; decide
  have hup : up_key { sh with newline := 0 } = some ({ sh with newline := 0 }, []) :=
    up_key_stop _ (fun hg => absurd hg.2 (by simp only; rw [hw, hcnt1]; decide))
  refine ⟨sh, _, _, _, hr, hcnt1, by rw [hcur1, hcnt1], by rw [hcnt1]; decide,
    body_esc sh 0, body_bracket _, body_up _ _ _ hup, rfl, ?_, ?_⟩
  · simp only; rw [hcur1]; decide
  · simp [content, hlc]

/-- C6, amended. In a reachable state with an idle decoder: with
`hiscur = hiscnt >= 1` and fewer than 2147483640 (`INT_MAX - 7`) lines
committed, the passes of the loop on ESC, `[`, `A` do not return and write
nothing before `up_key` runs, the decoder is idle again, `hiscur` is one less
and the line buffer holds exactly the history entry of that number (the last
committed line), with `linecount = linepos` its length; the passes on ESC,
`x` do not return, write nothing, leave the decoder idle and the line buffer,
its counters and the history as they were; and when the queue is empty, bytes
fed by the producer are the bytes the passes receive: the loop consumes the
three bytes, or the two, and goes on from the states just described. -/
theorem escape_absorption (sgn : Bool) (log : List (List Nat)) (sh : shell)
    (hr : Reachable sgn log sh 0) :
    (sh.hiscur = sh.hiscnt → 1 ≤ sh.hiscnt → (log.length : Int) < 2147483640 →
      ∃ p1 p2 p3 l,
        p_readline_body sh 0 27 = some p1 ∧ p_readline_body p1.sh p1.state 91 = some p2 ∧
        p_readline_body p2.sh p2.state 65 = some p3 ∧
        p1.ret = false ∧ p2.ret = false ∧ p3.ret = false ∧ p3.state = 0 ∧
        p1.out = [] ∧ p2.out = [] ∧
        p3.sh.hiscur = sh.hiscur - 1 ∧ log[(sh.hiscur - 1).toNat]? = some l ∧
        log.getLast? = some l ∧
        cstr p3.sh.line = some l ∧ p3.sh.line.take l.length = l ∧
        p3.sh.linecount = (l.length : Int) ∧ p3.sh.linepos = (l.length : Int) ∧
        p3.sh.history = sh.history ∧ p3.sh.hiscnt = sh.hiscnt ∧
        (sh.queue.front = sh.queue.rear →
          ∃ q, queue_ok q ∧ q.front = q.rear ∧ Reachable sgn log { p3.sh with queue := q } 0 ∧
            ∀ (n : Nat) (acc : List Nat) (rest : List Int),
              p_readline_loop sgn (n + 3) sh 0 acc (27 :: 91 :: 65 :: rest)
                = p_readline_loop sgn n { p3.sh with queue := q } 0 (acc ++ p3.out) rest)) ∧
    (∃ p1 p2,
      p_readline_body sh 0 27 = some p1 ∧ p_readline_body p1.sh p1.state 120 = some p2 ∧
      p1.ret = false ∧ p2.ret = false ∧ p2.state = 0 ∧ p1.out = [] ∧ p2.out = [] ∧
      p2.sh.line = sh.line ∧ p2.sh.linecount = sh.linecount ∧ p2.sh.linepos = sh.linepos ∧
      p2.sh.history = sh.history ∧ p2.sh.hiscnt = sh.hiscnt ∧ p2.sh.hiscur = sh.hiscur ∧
      (sh.queue.front = sh.queue.rear →
        ∃ q, queue_ok q ∧ q.front = q.rear ∧ Reachable sgn log { p2.sh with queue := q } 0 ∧
          ∀ (n : Nat) (acc : List Nat) (rest : List Int),
            p_readline_loop sgn (n + 2) sh 0 acc (27 :: 120 :: rest)
              = p_readline_loop sgn n { p2.sh with queue := q } 0 acc rest)) := by
  have hqk : queue_ok sh.queue := (reach_mem hr).1.2.2.2
  constructor
  · intro hcur h1 hmax
    obtain ⟨hk, hl, _⟩ := reach_inv hr (by omega)
    have hc := hl.1
    have hk0 : shell_ok { sh with newline := 0 } := hk
    have hl0 : log_ok log { sh with newline := 0 } := log_ok_history hl rfl rfl
    have hg : sh.hiscur > 0 ∧ wrap32 (sh.hiscur + HISTORY_COUNT) > sh.hiscnt :=
      (up_guard_iff sh (by omega) (by omega)).2 ⟨by omega, by omega⟩
    obtain ⟨l, hlog, hz, _, hup⟩ := up_key_load log { sh with newline := 0 } hk0 hl0 hg
    obtain ⟨hcs, ht⟩ := loaded_line l (sh.line.drop (l.length + 1)) hz
    simp only at hlog
    refine ⟨_, _, _, l, body_esc sh 0, body_bracket _, body_up _ _ _ hup, rfl, rfl, rfl, rfl,
      rfl, rfl, rfl, hlog, ?_, hcs, ht, rfl, rfl, rfl, rfl, fun hq => ?_⟩
    · rw [List.getLast?_eq_getElem?, ← hlog]
      congr 1
      omega
    · obtain ⟨q1, hq1, he1, hstep1⟩ := loop_cont sgn log sh 0 27 hqk hq hr (by omega) (by omega)
      obtain ⟨hrun1, hr1⟩ := hstep1 _ (body_esc _ 0) rfl
      simp only at hrun1 hr1
      obtain ⟨q2, hq2, he2, hstep2⟩ := loop_cont sgn log _ 1 91 hq1 he1 hr1 (by omega) (by omega)
      obtain ⟨hrun2, hr2⟩ := hstep2 _ (body_bracket _) rfl
      simp only at hrun2 hr2
      obtain ⟨q3, hq3, he3, hstep3⟩ := loop_cont sgn log _ 2 65 hq2 he2 hr2 (by omega) (by omega)
      have hk3 : shell_ok { sh with queue := q3, newline := 0 } := ⟨hk.1, hk.2.1, hq3⟩
      have hl3 : log_ok log { sh with queue := q3, newline := 0 } := log_ok_history hl rfl rfl
      obtain ⟨l3, hlog3, _, _, hup3⟩ := up_key_load log _ hk3 hl3 hg
      simp only at hlog3
      have hl3l : l3 = l := Option.some.inj (hlog3.symm.trans hlog)
      subst hl3l
      obtain ⟨hrun3, hr3⟩ := hstep3 _ (body_up _ _ _ hup3) rfl
      simp only at hrun3 hr3
      refine ⟨q3, hq3, he3, hr3, fun n acc rest => ?_⟩
      rw [hrun1 (n + 2) acc, hrun2 (n + 1), hrun3 n]
      simp
  · refine ⟨_, _, body_esc sh 0, body_abandon _, rfl, rfl, rfl, rfl, rfl, rfl, rfl, rfl, rfl,
      rfl, rfl, fun hq => ?_⟩
    obtain ⟨q1, hq1, he1, hstep1⟩ := loop_cont sgn log sh 0 27 hqk hq hr (by omega) (by omega)
    obtain ⟨hrun1, hr1⟩ := hstep1 _ (body_esc _ 0) rfl
    simp only at hrun1 hr1
    obtain ⟨q2, hq2, he2, hstep2⟩ := loop_cont sgn log _ 1 120 hq1 he1 hr1 (by omega) (by omega)
    obtain ⟨hrun2, hr2⟩ := hstep2 _ (body_abandon _) rfl
    simp only at hrun2 hr2
    refine ⟨q2, hq2, he2, hr2, fun n acc rest => ?_⟩
    rw [hrun1 (n + 1) acc, hrun2 n]
    simp

theorem escape_absorption_witness :
    (∃ p1 p2 p3 l,
        p_readline_body demo_shell 0 27 = some p1 ∧
        p_readline_body p1.sh p1.state 91 = some p2 ∧
        p_readline_body p2.sh p2.state 65 = some p3 ∧
        p1.ret = false ∧ p2.ret = false ∧ p3.ret = false ∧ p3.state = 0 ∧
        p1.out = [] ∧ p2.out = [] ∧
        p3.sh.hiscur = demo_shell.hiscur - 1 ∧
        [[97]][(demo_shell.hiscur - 1).toNat]? = some l ∧
        [[97]].getLast? = some l ∧
        cstr p3.sh.line = some l ∧ p3.sh.line.take l.length = l ∧
        p3.sh.linecount = (l.length : Int) ∧ p3.sh.linepos = (l.length : Int) ∧
        p3.sh.history = demo_shell.history ∧ p3.sh.hiscnt = demo_shell.hiscnt ∧
        (demo_shell.queue.front = demo_shell.queue.rear →
          ∃ q, queue_ok q ∧ q.front = q.rear ∧
            Reachable false [[97]] { p3.sh with queue := q } 0 ∧
            ∀ (n : Nat) (acc : List Nat) (rest : List Int),
              p_readline_loop false (n + 3) demo_shell 0 acc (27 :: 91 :: 65 :: rest)
                = p_readline_loop false n { p3.sh with queue := q } 0 (acc ++ p3.out) rest)) ∧
    (∃ p1 p2,
      p_readline_body demo_shell 0 27 = some p1 ∧
      p_readline_body p1.sh p1.state 120 = some p2 ∧
      p1.ret = false ∧ p2.ret = false ∧ p2.state = 0 ∧ p1.out = [] ∧ p2.out = [] ∧
      p2.sh.line = demo_shell.line ∧ p2.sh.linecount = demo_shell.linecount ∧
      p2.sh.linepos = demo_shell.linepos ∧ p2.sh.history = demo_shell.history ∧
      p2.sh.hiscnt = demo_shell.hiscnt ∧ p2.sh.hiscur = demo_shell.hiscur ∧
      (demo_shell.queue.front = demo_shell.queue.rear →
        ∃ q, queue_ok q ∧ q.front = q.rear ∧
          Reachable false [[97]] { p2.sh with queue := q } 0 ∧
          ∀ (n : Nat) (acc : List Nat) (rest : List Int),
            p_readline_loop false (n + 2) demo_shell 0 acc (27 :: 120 :: rest)
              = p_readline_loop false n { p2.sh with queue := q } 0 acc rest)) :=
  ⟨(escape_absorption false [[97]] demo_shell demo_reach).1 rfl (by decide) (by decide),
    (escape_absorption false [[97]] demo_shell demo_reach).2⟩

/-- C5, as stated, fails, in two ways.  In the reachable state `stale_shell`
the line buffer is empty and the decoder idle, but the byte `x` is queued and
not yet polled: `p_readline` fed `a`, `b`, CR, LF comes back with "xab", not
"ab".  And after `INT_MAX` commits, with the line buffer and the queue empty,
the commit of "ab" takes `hiscnt` from `INT_MAX` to `INT_MIN`, not to
`hiscnt + 1`. -/
theorem crlf_collapse_counterexample :
    (Reachable false [] stale_shell 0 ∧ stale_shell.linecount = 0 ∧
      stale_shell.linepos = 0 ∧
      returned (p_readline false 4 stale_shell (97 :: 98 :: 13 :: 10 :: []))
        = some [120, 97, 98]) ∧
    (∃ sh r, Reachable false (List.replicate 2147483647 [97]) sh 0 ∧
      sh.linecount = 0 ∧ sh.linepos = 0 ∧ sh.queue.front = sh.queue.rear ∧
      sh.hiscnt = 2147483647 ∧
      p_readline false 3 sh (97 :: 98 :: 13 :: 10 :: []) = ending.done r ∧
      cstr r.sh.line = some [97, 98] ∧ r.sh.hiscnt = -2147483648 ∧
      r.sh.hiscnt ≠ sh.hiscnt + 1) := by
  refine ⟨⟨stale_reach, rfl, rfl, by decide⟩, ?_⟩
  obtain ⟨sh, _, hr, hk, hcnt, _, hlc, hlp, hq⟩ := commits_reach 2147483647 (by decide)
  have hcnt1 : sh.hiscnt = 2147483647 := by simpa using hcnt
  obtain ⟨r, hrun, _, hc, hn, _⟩ := typed_run false _ sh [97, 98] [10] 0 hr hk hlc hlp hq
    (by decide) (by decide) (by decide)
  have hn1 : r.sh.hiscnt = -2147483648 := by rw [hn, hcnt1]; decide
  exact ⟨sh, r, hr, hlc, hlp, hq, hcnt1, hrun, hc, hn1, by rw [hn1, hcnt1]; decide⟩

/-- C5, amended. From a reachable state with an empty line buffer, an idle
decoder and an empty queue, in which fewer than `INT_MAX` lines have been
committed, the bytes `a`, `b`, CR, LF commit exactly one line: `p_readline`
returns "ab" at the CR with `hiscnt` one higher, the CR flag set and the LF
still pending; the next call consumes the LF without returning (with nothing
after it, it waits for ever) and leaves the line buffer, its counters, the
history, `hiscnt` and `hiscur` as they were, the CR flag now clear; the
committed lines are the old ones and "ab", before and after the LF. -/
theorem crlf_collapse (sgn : Bool) (log : List (List Nat)) (sh : shell)
    (rest : List Int) (more : Nat)
    (hr : Reachable sgn log sh 0) (hlc : sh.linecount = 0) (hlp : sh.linepos = 0)
    (hq : sh.queue.front = sh.queue.rear) (hmax : (log.length : Int) < 2147483647) :
    ∃ r, p_readline sgn (3 + more) sh (97 :: 98 :: 13 :: 10 :: rest) = ending.done r ∧
      r.pending = 10 :: rest ∧ cstr r.sh.line = some [97, 98] ∧
      r.sh.hiscnt = sh.hiscnt + 1 ∧ r.sh.newline = 1 ∧
      Reachable sgn (log ++ [[97, 98]]) r.sh 0 ∧
      ∃ sh2, (∀ n, p_readline sgn (n + 1) r.sh (10 :: rest) = p_readline_loop sgn n sh2 0 [] rest) ∧
        p_readline sgn (more + 2) r.sh [10] = ending.starved ∧
        sh2.hiscnt = r.sh.hiscnt ∧ sh2.history = r.sh.history ∧ sh2.hiscur = r.sh.hiscur ∧
        sh2.linecount = r.sh.linecount ∧ sh2.linepos = r.sh.linepos ∧ sh2.line = r.sh.line ∧
        sh2.prompt = r.sh.prompt ∧ sh2.newline = 0 ∧
        Reachable sgn (log ++ [[97, 98]]) sh2 0 := by
  obtain ⟨hk, hl, _⟩ := reach_inv hr hmax
  have hc0 := hl.1
  have hnn := hk.2.1.2.2.1
  obtain ⟨r, hrun, hpend, hc, hcnt, _, hre, _, _, _, hnl, hqe, _, hok⟩ :=
    typed_run sgn log sh [97, 98] (10 :: rest) more hr hk hlc hlp hq (by decide) (by decide)
      (by decide)
  rw [wrap32_id _ (by omega) (by omega)] at hcnt
  have hkr := hok (by omega)
  obtain ⟨q2, hq2, he2, hstep⟩ := loop_cont sgn _ r.sh 0 10 hkr.2.2 hqe hre (by omega) (by omega)
  obtain ⟨hrun2, hr2⟩ := hstep _ (body_lf_skip _ (by simp only; rw [hnl]; decide)) rfl
  simp only at hrun2 hr2
  refine ⟨r, hrun, hpend, hc, hcnt, hnl, hre, { r.sh with queue := q2, newline := 0 },
    fun n => ?_, ?_, rfl, rfl, rfl, rfl, rfl, rfl, rfl, rfl, hr2⟩
  · unfold p_readline
    rw [hrun2 n [] rest]
    simp
  · unfold p_readline
    rw [hrun2 (more + 1) [] []]
    exact loop_starved sgn _ more 0 _ hq2 he2

theorem crlf_collapse_witness :
    ∃ r, p_readline false (3 + 0) demo_shell (97 :: 98 :: 13 :: 10 :: [99]) = ending.done r ∧
      r.pending = 10 :: [99] ∧ cstr r.sh.line = some [97, 98] ∧
      r.sh.hiscnt = demo_shell.hiscnt + 1 ∧ r.sh.newline = 1 ∧
      Reachable false ([[97]] ++ [[97, 98]]) r.sh 0 ∧
      ∃ sh2, (∀ n, p_readline false (n + 1) r.sh (10 :: [99])
          = p_readline_loop false n sh2 0 [] [99]) ∧
        p_readline false (0 + 2) r.sh [10] = ending.starved ∧
        sh2.hiscnt = r.sh.hiscnt ∧ sh2.history = r.sh.history ∧ sh2.hiscur = r.sh.hiscur ∧
        sh2.linecount = r.sh.linecount ∧ sh2.linepos = r.sh.linepos ∧ sh2.line = r.sh.line ∧
        sh2.prompt = r.sh.prompt ∧ sh2.newline = 0 ∧
        Reachable false ([[97]] ++ [[97, 98]]) sh2 0 :=
  crlf_collapse false [[97]] demo_shell [99] 0 demo_reach rfl rfl rfl (by decide)

/-! ## Logical content after an edit -/

/-- The new logical content after an insertion, from the pointwise description. -/
theorem splice_of_pointwise (ln l2 : List Nat) (lp lc : Int) (c : Nat) (h0 : 0 ≤ lp)
    (h1 : lp ≤ lc) (h2 : lc < ln.length)
    (hp : ∀ i : Nat, l2[i]? =
      if (i : Int) = lp then some c
      else if lp < (i : Int) ∧ (i : Int) ≤ lc + 1 then ln[i - 1]?
      else ln[i]?) :
    l2.take (lc + 1).toNat
      = (ln.take lc.toNat).take lp.toNat ++ c :: (ln.take lc.toNat).drop lp.toNat := by
  apply List.ext_getElem?
  intro i
  have hlen : ((ln.take lc.toNat).take lp.toNat).length = lp.toNat := by
    simp only [List.length_take]; omega
  rw [List.getElem?_take, hp i, List.getElem?_append, hlen, List.getElem?_take,
    List.getElem?_take, List.getElem?_cons, List.getElem?_drop, List.getElem?_take]
  split_ifs <;> first | rfl | (exfalso; omega) | (congr 1; omega)

/-- The new logical content after a deletion, from the pointwise description. -/
theorem delete_of_pointwise (ln l2 : List Nat) (lp lc : Int) (h0 : 0 < lp)
    (h1 : lp ≤ lc) (h2 : lc < ln.length)
    (hp : ∀ i : Nat, l2[i]? =
      if (i : Int) = lc - 1 then some 0
      else if lp - 1 ≤ (i : Int) ∧ (i : Int) < lc then ln[i + 1]?
      else ln[i]?) :
    l2.take (lc - 1).toNat
      = (ln.take lc.toNat).take (lp - 1).toNat ++ (ln.take lc.toNat).drop lp.toNat := by
  apply List.ext_getElem?
  intro i
  have hlen : ((ln.take lc.toNat).take (lp - 1).toNat).length = (lp - 1).toNat := by
    simp only [List.length_take]; omega
  rw [List.getElem?_take, hp i, List.getElem?_append, hlen, List.getElem?_take,
    List.getElem?_take, List.getElem?_drop, List.getElem?_take]
  split_ifs <;> first | rfl | (exfalso; omega) | (congr 1; omega)

/-- Insertion: the resulting state, its logical content and the echo. -/
theorem insert_content (sh : shell) (ch : Int) (hl : sh.line.length = 65)
    (h0 : 0 ≤ sh.linepos) (h1 : sh.linepos ≤ sh.linecount) (h2 : sh.linecount < 64) :
    ∃ l2, insert_char sh ch = some
        ({ sh with line := l2, linecount := sh.linecount + 1, linepos := sh.linepos + 1 },
         toChar ch :: (content sh).drop sh.linepos.toNat
           ++ List.replicate (sh.linecount - sh.linepos).toNat 8) ∧
      l2.length = 65 ∧
      l2.take (sh.linecount + 1).toNat
        = (content sh).take sh.linepos.toNat ++ toChar ch :: (content sh).drop sh.linepos.toNat ∧
      (∀ i : Nat, l2[i]? =
        if (i : Int) = sh.linepos then some (toChar ch)
        else if sh.linepos < (i : Int) ∧ (i : Int) ≤ sh.linecount + 1 then (sh.line)[i - 1]?
        else (sh.line)[i]?) := by
  obtain ⟨l2, hi, hl2, hp⟩ := insert_char_spec sh ch ⟨hl, h0, h1, by omega⟩ h2
  have hs := splice_of_pointwise sh.line l2 sh.linepos sh.linecount (toChar ch) h0 h1
    (by omega) hp
  have hout : (l2.drop sh.linepos.toNat).take (sh.linecount + 1 - sh.linepos).toNat
      = toChar ch :: (content sh).drop sh.linepos.toNat := by
    have hlen : ((sh.line.take sh.linecount.toNat).take sh.linepos.toNat).length
        = sh.linepos.toNat := by
      simp only [List.length_take]; omega
    rw [show (sh.linecount + 1 - sh.linepos).toNat
        = (sh.linecount + 1).toNat - sh.linepos.toNat by omega, ← List.drop_take, hs,
      List.drop_append_eq_append_drop, hlen, List.drop_of_length_le (by rw [hlen])]
    simp [content]
  rw [hout] at hi
  exact ⟨l2, hi, hl2, hs, hp⟩

/-- Deletion: the resulting state and its logical content. -/
theorem remove_content (sh : shell) (hl : sh.line.length = 65)
    (h0 : 0 < sh.linepos) (h1 : sh.linepos ≤ sh.linecount) (h2 : sh.linecount ≤ 64) :
    ∃ l2 out, remove_char sh = some
        { sh with linepos := sh.linepos - 1, linecount := sh.linecount - 1, line := l2 } ∧
      backspace sh = some
        ({ sh with linepos := sh.linepos - 1, linecount := sh.linecount - 1, line := l2 }, out) ∧
      l2.length = 65 ∧ l2[(sh.linecount - 1).toNat]? = some 0 ∧
      l2.take (sh.linecount - 1).toNat
        = (content sh).take (sh.linepos - 1).toNat ++ (content sh).drop sh.linepos.toNat := by
  have hk : line_ok sh := ⟨hl, by omega, h1, h2⟩
  obtain ⟨l2, hr, hl2, hp⟩ := remove_char_spec sh hk h0
  obtain ⟨sh1, out, hb, _, hb1⟩ := backspace_spec sh hk
  have h3 := hb1 h0
  rw [hr] at h3
  rw [← Option.some.inj h3] at hb
  refine ⟨l2, out, hr, hb, hl2, ?_, delete_of_pointwise sh.line l2 sh.linepos sh.linecount h0 h1
    (by omega) hp⟩
  rw [hp, if_pos (by omega)]

/-! ## Insertion and deletion -/

/-- C14. With `0 <= linepos <= linecount < 64`, `insert_char` yields a state
whose logical content is the old content up to the cursor, then the byte
`(char)ch`, then the old content from the cursor on, with `linecount` and
`linepos` both one higher. -/
theorem insert_splices (sh : shell) (ch : Int) (hl : sh.line.length = 65)
    (h0 : 0 ≤ sh.linepos) (h1 : sh.linepos ≤ sh.linecount) (h2 : sh.linecount < 64) :
    ∃ sh1 out, insert_char sh ch = some (sh1, out) ∧
      content sh1 = (content sh).take sh.linepos.toNat ++ [toChar ch]
        ++ (content sh).drop sh.linepos.toNat ∧
      sh1.linecount = sh.linecount + 1 ∧ sh1.linepos = sh.linepos + 1 := by
  obtain ⟨l2, hi, _, hs, _⟩ := insert_content sh ch hl h0 h1 h2
  refine ⟨_, _, hi, ?_, rfl, rfl⟩
  simp only [content]
  rw [hs]
  simp [content]

theorem insert_splices_witness :
    ∃ sh1 out, insert_char home_shell 98
        = some (sh1, out) ∧
      content sh1 = (content home_shell).take
          home_shell.linepos.toNat ++ [toChar 98]
        ++ (content home_shell).drop
          home_shell.linepos.toNat ∧
      sh1.linecount = home_shell.linecount + 1 ∧
      sh1.linepos = home_shell.linepos + 1 :=
  insert_splices home_shell 98 (by decide) (by decide)
    (by decide) (by decide)

/-- C15. With `linepos <= linecount <= 64`, `backspace` at `linepos = 0`
returns the state unchanged and writes nothing; otherwise the new logical
content is the old content without the byte before the cursor, and
`linecount` and `linepos` are both one lower. -/
theorem backspace_deletes (sh : shell) (hl : sh.line.length = 65)
    (h1 : sh.linepos ≤ sh.linecount) (h2 : sh.linecount ≤ 64) :
    (sh.linepos = 0 → backspace sh = some (sh, [])) ∧
    (0 < sh.linepos → ∃ sh1 out, backspace sh = some (sh1, out) ∧
      content sh1 = (content sh).take (sh.linepos - 1).toNat
        ++ (content sh).drop sh.linepos.toNat ∧
      sh1.linecount = sh.linecount - 1 ∧ sh1.linepos = sh.linepos - 1) := by
  constructor
  · intro hz
    simp [backspace, hz]
  · intro hp
    obtain ⟨l2, out, _, hb, _, _, hs⟩ := remove_content sh hl hp h1 h2
    exact ⟨_, out, hb, hs, rfl, rfl⟩

theorem backspace_deletes_witness :
    (end_shell.linepos = 0 →
      backspace end_shell
        = some (end_shell, [])) ∧
    (0 < end_shell.linepos →
      ∃ sh1 out, backspace end_shell = some (sh1, out) ∧
      content sh1 = (content end_shell).take
          (end_shell.linepos - 1).toNat
        ++ (content end_shell).drop
          end_shell.linepos.toNat ∧
      sh1.linecount = end_shell.linecount - 1 ∧
      sh1.linepos = end_shell.linepos - 1) :=
  backspace_deletes end_shell (by decide) (by decide)
    (by decide)

/-- C16. With `0 <= linepos <= linecount < 64`, the bytes `insert_char`
writes are `(char)ch`, then the old content from the cursor on, then one
backspace byte for each of those `linecount - linepos` shifted bytes. -/
theorem insert_echo (sh : shell) (ch : Int) (hl : sh.line.length = 65)
    (h0 : 0 ≤ sh.linepos) (h1 : sh.linepos ≤ sh.linecount) (h2 : sh.linecount < 64) :
    ∃ sh1, insert_char sh ch = some
        (sh1, [toChar ch] ++ (content sh).drop sh.linepos.toNat
          ++ List.replicate (sh.linecount - sh.linepos).toNat 8) ∧
      ((content sh).drop sh.linepos.toNat).length = (sh.linecount - sh.linepos).toNat := by
  obtain ⟨l2, hi, _, _, _⟩ := insert_content sh ch hl h0 h1 h2
  refine ⟨_, hi, ?_⟩
  simp only [content, List.length_drop, List.length_take]
  omega

theorem insert_echo_witness :
    ∃ sh1, insert_char home_shell 98 = some
        (sh1, [toChar 98] ++ (content home_shell).drop
            home_shell.linepos.toNat
          ++ List.replicate (home_shell.linecount
            - home_shell.linepos).toNat 8) ∧
      ((content home_shell).drop
          home_shell.linepos.toNat).length
        = (home_shell.linecount
            - home_shell.linepos).toNat :=
  insert_echo home_shell 98 (by decide) (by decide)
    (by decide) (by decide)

/-- C19. With `0 <= linepos <= linecount < 64`, `insert_char` followed at
once by `backspace` gives back the logical content, `linecount` and `linepos`
of before the insertion, and the history, `hiscur` and `hiscnt` are as they
were. -/
theorem insert_backspace_round_trip (sh : shell) (ch : Int) (hl : sh.line.length = 65)
    (h0 : 0 ≤ sh.linepos) (h1 : sh.linepos ≤ sh.linecount) (h2 : sh.linecount < 64) :
    ∃ sh1 out1 sh2 out2, insert_char sh ch = some (sh1, out1) ∧
      backspace sh1 = some (sh2, out2) ∧
      content sh2 = content sh ∧ sh2.linecount = sh.linecount ∧ sh2.linepos = sh.linepos ∧
      sh2.history = sh.history ∧ sh2.hiscur = sh.hiscur ∧ sh2.hiscnt = sh.hiscnt := by
  obtain ⟨l2, hi, hl2, hs, _⟩ := insert_content sh ch hl h0 h1 h2
  obtain ⟨l3, out, _, hb, _, _, hs3⟩ := remove_content
    { sh with line := l2, linecount := sh.linecount + 1, linepos := sh.linepos + 1 }
    hl2 (by simp only; omega) (by simp only; omega) (by simp only; omega)
  refine ⟨_, _, _, out, hi, hb, ?_, by simp, by simp, rfl, rfl, rfl⟩
  have hlen : ((content sh).take sh.linepos.toNat).length = sh.linepos.toNat := by
    simp only [content, List.length_take]; omega
  simp only [content] at hs3 ⊢
  rw [show sh.linecount + 1 - 1 = sh.linecount by omega] at hs3 ⊢
  rw [hs3, hs, show (sh.linepos + 1 - 1).toNat = sh.linepos.toNat by omega,
    show (sh.linepos + 1).toNat = sh.linepos.toNat + 1 by omega,
    List.take_append_eq_append_take, List.drop_append_eq_append_drop, hlen]
  simp only [content, Nat.sub_self, List.take_zero, List.append_nil, Nat.add_sub_cancel_left,
    List.drop_succ_cons, List.drop_zero]
  rw [List.take_take, Nat.min_self,
    List.drop_of_length_le (by simp only [List.length_take]; omega), List.nil_append,
    List.take_append_drop]

theorem insert_backspace_round_trip_witness :
    ∃ sh1 out1 sh2 out2, insert_char home_shell 98
        = some (sh1, out1) ∧
      backspace sh1 = some (sh2, out2) ∧
      content sh2 = content home_shell ∧
      sh2.linecount = home_shell.linecount ∧
      sh2.linepos = home_shell.linepos ∧
      sh2.history = home_shell.history ∧
      sh2.hiscur = home_shell.hiscur ∧
      sh2.hiscnt = home_shell.hiscnt :=
  insert_backspace_round_trip home_shell 98 (by decide)
    (by decide) (by decide) (by decide)

/-! ## The queue refines a bounded FIFO -/

/-- Simulation of the queue by the abstract FIFO, from any well-formed queue. -/
theorem qrun_refines (sgn : Bool) (ops : List qcall) : ∀ (q : queue), queue_ok q →
    (∀ b ∈ contents q, b < 256) →
    ∃ q1, qrun sgn q ops = some (q1, (fifo_run sgn (contents q) ops).2) ∧ queue_ok q1 ∧
      contents q1 = (fifo_run sgn (contents q) ops).1 ∧ (∀ b ∈ contents q1, b < 256) := by
  induction ops with
  | nil => intro q hq hb; exact ⟨q, rfl, hq, rfl, hb⟩
  | cons c cs ih =>
    intro q hq hb
    cases c with
    | push ch =>
      by_cases hn : occupancy q < 15
      · obtain ⟨q1, hp, hq1, _, _, _, hc⟩ := push_ok q ch hq hn
        have hb1 : ∀ b ∈ contents q1, b < 256 := by
          intro b hm
          rw [hc, List.mem_append] at hm
          rcases hm with h | h
          · exact hb b h
          · rw [List.mem_singleton.1 h]; exact toChar_lt ch
        obtain ⟨q2, hr, hq2, hc2, hb2⟩ := ih q1 hq1 hb1
        have hf : fifo_push (contents q) ch = (contents q1, 0) := by
          rw [fifo_push, if_pos (by rw [contents_length]; exact hn), hc]
        refine ⟨q2, ?_, hq2, ?_, hb2⟩
        · simp only [qrun, hp, hr, fifo_run, hf, Option.map_some']
        · simp only [fifo_run, hf]; exact hc2
      · have hp := push_full q ch hq hn
        obtain ⟨q2, hr, hq2, hc2, hb2⟩ := ih q hq hb
        have hf : fifo_push (contents q) ch = (contents q, 1) := by
          rw [fifo_push, if_neg (by rw [contents_length]; exact hn)]
        refine ⟨q2, ?_, hq2, ?_, hb2⟩
        · simp only [qrun, hp, hr, fifo_run, hf, Option.map_some']
        · simp only [fifo_run, hf]; exact hc2
    | pop =>
      by_cases hn : 0 < occupancy q
      · obtain ⟨q1, b, t, hp, hq1, _, _, _, hc, hc1⟩ := pop_ok sgn q hq hn
        have hb1 : ∀ x ∈ contents q1, x < 256 := by
          intro x hm
          exact hb x (by rw [hc, ← hc1]; exact List.mem_cons_of_mem _ hm)
        obtain ⟨q2, hr, hq2, hc2, hb2⟩ := ih q1 hq1 hb1
        have hf : fifo_pop sgn (contents q) = (contents q1, charVal sgn b) := by
          rw [hc, hc1]; rfl
        refine ⟨q2, ?_, hq2, ?_, hb2⟩
        · simp only [qrun, hp, hr, fifo_run, hf, Option.map_some']
        · simp only [fifo_run, hf]; exact hc2
      · have h0 : occupancy q = 0 := by omega
        have hp := pop_empty sgn q hq h0
        have hc : contents q = [] := List.eq_nil_of_length_eq_zero (by rw [contents_length, h0])
        obtain ⟨q2, hr, hq2, hc2, hb2⟩ := ih q hq hb
        have hf : fifo_pop sgn (contents q) = (contents q, QUEUE_EMPTY) := by
          rw [hc]; rfl
        refine ⟨q2, ?_, hq2, ?_, hb2⟩
        · simp only [qrun, hp, hr, fifo_run, hf, Option.map_some']
        · simp only [fifo_run, hf]; exact hc2

/-- C18. From the empty queue `front = rear = 0`, whatever sequence of
`queue_push` and `queue_pop` calls is made: no call faults, the values
returned are, call for call, those of the abstract FIFO of capacity 15
started empty, the bytes held are the abstract list, their number is
`(front - rear) mod 16` and at most 15, both indices stay in `0..15`, and a
pop of the queue reached returns `QUEUE_EMPTY` exactly when the list is
empty. -/
theorem queue_refines_fifo (sgn : Bool) (arr : List Nat) (ops : List qcall)
    (ha : arr.length = 16) :
    ∃ q, qrun sgn { front := 0, rear := 0, array := arr } ops
        = some (q, (fifo_run sgn [] ops).2) ∧
      (0 ≤ q.front ∧ q.front < 16 ∧ 0 ≤ q.rear ∧ q.rear < 16) ∧
      contents q = (fifo_run sgn [] ops).1 ∧
      (contents q).length = ((q.front - q.rear) % 16).toNat ∧ (contents q).length ≤ 15 ∧
      ((fifo_pop sgn (contents q)).2 = QUEUE_EMPTY ↔ contents q = []) ∧
      (∃ q1, queue_pop sgn q = some (q1, (fifo_pop sgn (contents q)).2)) := by
  have hq0 : queue_ok { front := 0, rear := 0, array := arr } :=
    ⟨ha, by simp, by simp, by simp, by simp⟩
  have hc0 : contents { front := 0, rear := 0, array := arr } = [] := by
    simp [contents, occupancy]
  obtain ⟨q, hr, hq, hc, hb⟩ := qrun_refines sgn ops _ hq0 (by rw [hc0]; simp)
  rw [hc0] at hr hc
  have hlen : (contents q).length = occupancy q := contents_length q
  have hlt := occupancy_lt q
  refine ⟨q, hr, ⟨hq.2.1, hq.2.2.1, hq.2.2.2.1, hq.2.2.2.2⟩, hc, hlen, by omega, ?_, ?_⟩
  · cases hcq : contents q with
    | nil => simp [fifo_pop]
    | cons b t =>
      have hb256 : b < 256 := hb b (by rw [hcq]; simp)
      simp only [fifo_pop, reduceCtorEq, iff_false]
      exact charVal_ne_empty sgn b hb256
  · by_cases hn : 0 < occupancy q
    · obtain ⟨q1, b, t, hp, _, _, _, _, hcb, _⟩ := pop_ok sgn q hq hn
      exact ⟨q1, by rw [hp, hcb]; rfl⟩
    · have h0 : occupancy q = 0 := by omega
      have hcn : contents q = [] := List.eq_nil_of_length_eq_zero (by rw [contents_length, h0])
      exact ⟨q, by rw [pop_empty sgn q hq h0, hcn]; rfl⟩

theorem queue_refines_fifo_witness :
    ∃ q, qrun true { front := 0, rear := 0, array := List.replicate 16 0 }
        [qcall.pop, qcall.push 200, qcall.push 66, qcall.pop, qcall.pop, qcall.pop]
        = some (q, (fifo_run true []
            [qcall.pop, qcall.push 200, qcall.push 66, qcall.pop, qcall.pop, qcall.pop]).2) ∧
      (0 ≤ q.front ∧ q.front < 16 ∧ 0 ≤ q.rear ∧ q.rear < 16) ∧
      contents q = (fifo_run true []
        [qcall.pop, qcall.push 200, qcall.push 66, qcall.pop, qcall.pop, qcall.pop]).1 ∧
      (contents q).length = ((q.front - q.rear) % 16).toNat ∧ (contents q).length ≤ 15 ∧
      ((fifo_pop true (contents q)).2 = QUEUE_EMPTY ↔ contents q = []) ∧
      (∃ q1, queue_pop true q = some (q1, (fifo_pop true (contents q)).2)) :=
  queue_refines_fifo true (List.replicate 16 0)
    [qcall.pop, qcall.push 200, qcall.push 66, qcall.pop, qcall.pop, qcall.pop] (by decide)

/-! ## Printable content is preserved -/

theorem printable_ne_zero {c : Nat} (h : printable c) : c ≠ 0 := by
  unfold printable at h; omega

theorem insert_printable (sh sh1 : shell) (ch : Int) (out : List Nat) (hk : line_ok sh)
    (hp : printable_ok sh) (hc : isprint ch = true) (h : insert_char sh ch = some (sh1, out)) :
    printable_ok sh1 ∧ sh1.hiscur = sh.hiscur ∧ sh1.hiscnt = sh.hiscnt := by
  by_cases h64 : sh.linecount < 64
  · obtain ⟨l2, hi, _, hs, _⟩ := insert_content sh ch hk.1 hk.2.1 hk.2.2.1 h64
    rw [hi] at h
    simp only [Option.some.injEq, Prod.mk.injEq] at h
    rw [← h.1]
    refine ⟨⟨?_, hp.2⟩, rfl, rfl⟩
    intro c hm
    simp only [content] at hm
    rw [hs, List.mem_append, List.mem_cons] at hm
    rcases hm with hm | hm | hm
    · exact hp.1 c (List.mem_of_mem_take hm)
    · rw [hm, toChar_print ch hc]
      have := (isprint_iff ch).1 hc
      unfold printable; omega
    · exact hp.1 c (List.mem_of_mem_drop hm)
  · rw [insert_char_full sh ch h64] at h
    simp only [Option.some.injEq, Prod.mk.injEq] at h
    rw [← h.1]
    exact ⟨hp, rfl, rfl⟩

theorem backspace_printable (sh sh1 : shell) (out : List Nat) (hk : line_ok sh)
    (hp : printable_ok sh) (h : backspace sh = some (sh1, out)) :
    printable_ok sh1 ∧ sh1.hiscur = sh.hiscur ∧ sh1.hiscnt = sh.hiscnt := by
  by_cases h0 : 0 < sh.linepos
  · obtain ⟨l2, out2, _, hb, _, _, hs⟩ := remove_content sh hk.1 h0 hk.2.2.1 hk.2.2.2
    rw [hb] at h
    simp only [Option.some.injEq, Prod.mk.injEq] at h
    rw [← h.1]
    refine ⟨⟨?_, hp.2⟩, rfl, rfl⟩
    intro c hm
    simp only [content] at hm
    rw [hs, List.mem_append] at hm
    rcases hm with hm | hm
    · exact hp.1 c (List.mem_of_mem_take hm)
    · exact hp.1 c (List.mem_of_mem_drop hm)
  · have : backspace sh = some (sh, []) := by simp [backspace, h0]
    rw [this] at h
    simp only [Option.some.injEq, Prod.mk.injEq] at h
    rw [← h.1]
    exact ⟨hp, rfl, rfl⟩

theorem change_history_printable (sh sh1 : shell) (out : List Nat) (hk : mem_ok sh)
    (hp : printable_ok sh) (h : change_history sh = some (sh1, out)) :
    printable_ok sh1 ∧ sh1.hiscur = sh.hiscur ∧ sh1.hiscnt = sh.hiscnt := by
  obtain ⟨t, row, hrow, ht, _, he, _⟩ := change_history_some sh sh1 out hk.1.1 hk.2.1 hk.2.2.1 h
  rw [he]
  refine ⟨⟨?_, hp.2⟩, rfl, rfl⟩
  intro c hm
  simp only [content, Int.toNat_ofNat, List.take_left'] at hm
  exact hp.2 row hrow t ht c hm

/-- A `pack_line` that stays inside the arrays hands back the logical
content of the line buffer, whatever the history counters hold. -/
theorem pack_line_printable (sh sh1 : shell) (hk : mem_ok sh)
    (hp : printable_ok sh) (h : pack_line sh = some sh1) :
    printable_ok sh1 ∧ cstr sh1.line = some (content sh) ∧
      (sh.linecount = 0 → sh1.hiscur = sh.hiscur ∧ sh1.hiscnt = sh.hiscnt) ∧
      (sh.linecount ≠ 0 → sh1.hiscur = sh1.hiscnt) := by
  obtain ⟨t, ht, _, htz, hcase⟩ := pack_line_some sh sh1 hk.1 hk.2.1 hk.2.2.1 h
  have hts : t = content sh := htz (fun c hc => printable_ne_zero (hp.1 c hc))
  subst hts
  rcases hcase with ⟨h0, he⟩ | ⟨h0, row, j, _, hmem, he⟩
  · rw [he]
    refine ⟨⟨?_, hp.2⟩, ht, fun _ => ⟨rfl, rfl⟩, fun hne => absurd h0 hne⟩
    intro c hm
    simp [content] at hm
  · rw [he]
    refine ⟨⟨?_, ?_⟩, ht, fun hz => absurd hz h0, fun _ => rfl⟩
    · intro c hm
      simp [content] at hm
    · intro r hr u hu
      simp only at hr
      rcases List.mem_or_eq_of_mem_set hr with hm | hm
      · exact hp.2 r hm u hu
      · rw [hm, cstr_append_zero _ _ (fun c hc => printable_ne_zero (hp.1 c hc))] at hu
        rw [← Option.some.inj hu]
        exact hp.1

/-! ## Printable content and browse cursor across a pass -/

theorem up_key_inv2 (sh sh1 : shell) (out : List Nat) (hk : mem_ok sh)
    (hp : printable_ok sh) (h : up_key sh = some (sh1, out)) :
    printable_ok sh1 ∧ (history_ok sh → browse_ok sh → browse_ok sh1) := by
  unfold up_key at h
  split at h
  · rename_i hg
    obtain ⟨h1, h2, h3⟩ := change_history_printable _ sh1 out
      (show mem_ok { sh with hiscur := wrap32 (sh.hiscur - 1) } from hk) hp h
    simp only at h2 h3
    refine ⟨h1, fun hh hb => ?_⟩
    obtain ⟨g0, g8, _, gw⟩ := up_guard hh hg
    unfold browse_ok at hb ⊢
    rw [h2, h3, gw]
    omega
  · simp only [Option.some.injEq, Prod.mk.injEq] at h
    rw [← h.1]
    exact ⟨hp, fun _ hb => hb⟩

theorem down_key_inv2 (sh sh1 : shell) (out : List Nat) (hk : mem_ok sh)
    (hp : printable_ok sh) (h : down_key sh = some (sh1, out)) :
    printable_ok sh1 ∧
      (history_ok sh → sh.hiscnt < 2147483647 → browse_ok sh → browse_ok sh1) := by
  unfold down_key at h
  split at h
  · rename_i hg
    obtain ⟨h1, h2, h3⟩ := change_history_printable _ sh1 out
      (show mem_ok { sh with hiscur := wrap32 (sh.hiscur + 1) } from hk) hp h
    simp only at h2 h3
    refine ⟨h1, fun hh hlt hb => ?_⟩
    have gw := down_guard hh (by have := hh.2.2.2.1; omega)
    unfold browse_ok at hb ⊢
    rw [h2, h3, gw]
    omega
  · simp only [Option.some.injEq, Prod.mk.injEq] at h
    rw [← h.1]
    exact ⟨hp, fun _ _ hb => hb⟩

theorem left_key_inv2 (sh sh1 : shell) (out : List Nat)
    (hp : printable_ok sh) (h : left_key sh = some (sh1, out)) :
    printable_ok sh1 ∧ (browse_ok sh → browse_ok sh1) := by
  unfold left_key at h
  split at h <;>
  · simp only [Option.some.injEq, Prod.mk.injEq] at h
    rw [← h.1]
    exact ⟨hp, fun hb => hb⟩

theorem right_key_inv2 (sh sh1 : shell) (out : List Nat)
    (hp : printable_ok sh) (h : right_key sh = some (sh1, out)) :
    printable_ok sh1 ∧ (browse_ok sh → browse_ok sh1) := by
  unfold right_key at h
  split at h
  · split at h
    · exact absurd h (by simp)
    · simp only [Option.some.injEq, Prod.mk.injEq] at h
      rw [← h.1]
      exact ⟨hp, fun hb => hb⟩
  · simp only [Option.some.injEq, Prod.mk.injEq] at h
    rw [← h.1]
    exact ⟨hp, fun hb => hb⟩

theorem addchar_inv2 (sh sh1 : shell) (ch r : Int) (out : List Nat) (hk : mem_ok sh)
    (hp : printable_ok sh) (h : addchar sh ch = some (sh1, out, r)) :
    printable_ok sh1 ∧ (browse_ok sh → browse_ok sh1) ∧
      (r ≠ 0 → cstr sh1.line = some (content sh)) := by
  unfold addchar at h
  unfold browse_ok
  have hpack : ∀ sh2, pack_line sh = some sh2 →
      printable_ok sh2 ∧ (sh.hiscnt ≤ sh.hiscur + 8 → sh2.hiscnt ≤ sh2.hiscur + 8) ∧
        cstr sh2.line = some (content sh) := by
    intro sh2 h2
    obtain ⟨h3, h4, h5, h6⟩ := pack_line_printable sh sh2 hk hp h2
    refine ⟨h3, fun hb => ?_, h4⟩
    by_cases h0 : sh.linecount = 0
    · have := h5 h0; omega
    · have := h6 h0; omega
  split at h
  · cases hpk : pack_line sh with
    | none => rw [hpk] at h; exact absurd h (by simp)
    | some sh2 =>
      rw [hpk] at h
      simp only [Option.some.injEq, Prod.mk.injEq] at h
      obtain ⟨h3, h4, h5⟩ := hpack sh2 hpk
      rw [← h.1]
      exact ⟨h3, h4, fun _ => h5⟩
  · split at h
    · split at h
      · simp only [Option.some.injEq, Prod.mk.injEq] at h
        rw [← h.1, ← h.2.2]
        exact ⟨hp, fun hb => hb, fun hne => absurd rfl hne⟩
      · cases hpk : pack_line sh with
        | none => rw [hpk] at h; exact absurd h (by simp)
        | some sh2 =>
          rw [hpk] at h
          simp only [Option.some.injEq, Prod.mk.injEq] at h
          obtain ⟨h3, h4, h5⟩ := hpack sh2 hpk
          rw [← h.1]
          exact ⟨h3, h4, fun _ => h5⟩
    · split at h
      · cases hbs : backspace sh with
        | none => rw [hbs] at h; exact absurd h (by simp)
        | some r2 =>
          obtain ⟨sh2, out2⟩ := r2
          rw [hbs] at h
          simp only [Option.some.injEq, Prod.mk.injEq] at h
          obtain ⟨h3, h4, h5⟩ := backspace_printable sh sh2 out2 hk.1 hp hbs
          rw [← h.1, ← h.2.2]
          exact ⟨h3, fun hb => by omega, fun hne => absurd rfl hne⟩
      · split at h
        · rename_i hpr
          cases hin : insert_char sh ch with
          | none => rw [hin] at h; exact absurd h (by simp)
          | some r2 =>
            obtain ⟨sh2, out2⟩ := r2
            rw [hin] at h
            simp only [Option.some.injEq, Prod.mk.injEq] at h
            obtain ⟨h3, h4, h5⟩ := insert_printable sh sh2 ch out2 hk.1 hp hpr hin
            rw [← h.1, ← h.2.2]
            exact ⟨h3, fun hb => by omega, fun hne => absurd rfl hne⟩
        · simp only [Option.some.injEq, Prod.mk.injEq] at h
          rw [← h.1, ← h.2.2]
          exact ⟨hp, fun hb => hb, fun hne => absurd rfl hne⟩

/-- A pass that stays inside the arrays keeps the content printable and
hands back the old content when it returns, whatever the history counters
hold; below `INT_MAX` commits it keeps the browse cursor within eight entries
of the commit count. -/
theorem body_inv2 (sh : shell) (st ch : Int) (p : pass) (hk : mem_ok sh)
    (hp : printable_ok sh) (h : p_readline_body sh st ch = some p) :
    printable_ok p.sh ∧
      (history_ok sh → sh.hiscnt < 2147483647 → browse_ok sh → browse_ok p.sh) ∧
      (p.ret = true → cstr p.sh.line = some (content sh)) := by
  unfold p_readline_body at h
  split at h
  · rw [← Option.some.inj h]
    exact ⟨hp, fun _ _ hb => hb, fun hr => by simp at hr⟩
  · split at h
    · rw [← Option.some.inj h]
      exact ⟨hp, fun _ _ hb => hb, fun hr => by simp at hr⟩
    · split at h
      · have harrow : ∀ sh1 out,
            (if ch = 0x41 then up_key sh
              else if ch = 0x42 then down_key sh
              else if ch = 0x43 then right_key sh
              else if ch = 0x44 then left_key sh
              else some (sh, [])) = some (sh1, out) →
            printable_ok sh1 ∧
              (history_ok sh → sh.hiscnt < 2147483647 → browse_ok sh → browse_ok sh1) := by
          intro sh1 out ha
          split at ha
          · obtain ⟨h1, h2⟩ := up_key_inv2 sh sh1 out hk hp ha
            exact ⟨h1, fun hh _ hb => h2 hh hb⟩
          · split at ha
            · exact down_key_inv2 sh sh1 out hk hp ha
            · split at ha
              · obtain ⟨h1, h2⟩ := right_key_inv2 sh sh1 out hp ha
                exact ⟨h1, fun _ _ hb => h2 hb⟩
              · split at ha
                · obtain ⟨h1, h2⟩ := left_key_inv2 sh sh1 out hp ha
                  exact ⟨h1, fun _ _ hb => h2 hb⟩
                · simp only [Option.some.injEq, Prod.mk.injEq] at ha
                  rw [← ha.1]; exact ⟨hp, fun _ _ hb => hb⟩
        simp only at h
        split at h
        · exact absurd h (by simp)
        · rename_i sh1 out heq
          rw [← Option.some.inj h]
          obtain ⟨h1, h2⟩ := harrow sh1 out heq
          exact ⟨h1, h2, fun hr => by simp at hr⟩
      · split at h
        · exact absurd h (by simp)
        · rename_i sh1 out r heq
          obtain ⟨h1, h2, h3⟩ := addchar_inv2 sh sh1 ch r out hk hp heq
          split at h
          · rename_i hr
            rw [← Option.some.inj h]
            exact ⟨h1, fun _ _ hb => h2 hb, fun _ => h3 hr⟩
          · rw [← Option.some.inj h]
            exact ⟨h1, fun _ _ hb => h2 hb, fun hr => by simp at hr⟩

/-! ## Printable content and resident browse cursor -/

/-- In every reachable state, however many lines have been committed, the
content of the line buffer and the strings in the history rows are printable,
and the committed lines are non-empty and printable. -/
theorem reach_print {sgn : Bool} {log : List (List Nat)} {sh : shell} {st : Int}
    (h : Reachable sgn log sh st) :
    printable_ok sh ∧ ∀ l ∈ log, l ≠ [] ∧ ∀ c ∈ l, printable c := by
  induction h with
  | init p =>
    refine ⟨⟨?_, ?_⟩, fun l hl => by simp at hl⟩
    · intro c hc
      simp [content, m_shell] at hc
    · intro row hrow t ht
      simp only [m_shell] at hrow
      rw [List.eq_of_mem_replicate hrow] at ht
      have : cstr (List.replicate 65 0) = some [] := by decide
      rw [this] at ht
      rw [← Option.some.inj ht]
      simp
  | @feed log sh sh1 st b r hre ha ih =>
    unfold shell_addchar at ha
    split at ha
    · exact absurd ha (by simp)
    · simp only [Option.some.injEq, Prod.mk.injEq] at ha
      rw [← ha.1]
      exact ih
  | @pass log sh st ch q p hre hpop hne hb hr ih =>
    obtain ⟨hk, _⟩ := reach_mem hre
    have hq := pop_queue_ok sgn sh.queue q ch hk.2.2.2 hpop
    obtain ⟨h1, _, _⟩ := body_inv2 { sh with queue := q } st ch p (mem_ok_queue sh q hk hq)
      ih.1 hb
    exact ⟨h1, ih.2⟩
  | @ret log sh st ch q p t pr hre hpop hne hb hr ht ih =>
    obtain ⟨hk, _⟩ := reach_mem hre
    have hq := pop_queue_ok sgn sh.queue q ch hk.2.2.2 hpop
    obtain ⟨h1, _, h3⟩ := body_inv2 { sh with queue := q } st ch p (mem_ok_queue sh q hk hq)
      ih.1 hb
    refine ⟨h1, ?_⟩
    have h4 := h3 hr
    rw [ht] at h4
    have ht2 : t = content sh := Option.some.inj h4
    by_cases h0 : sh.linecount = 0
    · rw [if_neg (by simp [h0])]
      exact ih.2
    · rw [if_pos h0]
      intro l hl
      rcases List.mem_append.1 hl with hm | hm
      · exact ih.2 l hm
      · rw [List.mem_singleton.1 hm, ht2]
        refine ⟨?_, ih.1.1⟩
        intro hnil
        have hlen : (content sh).length = sh.linecount.toNat := by
          simp only [content, List.length_take]
          have := hk.1.1
          have := hk.1.2.2.2
          omega
        rw [hnil] at hlen
        have := hk.1.2.1
        have := hk.1.2.2.1
        simp at hlen
        omega

/-- While fewer than `INT_MAX` lines have been committed the browse cursor
is at most eight entries behind the commit count. -/
theorem reach_browse {sgn : Bool} {log : List (List Nat)} {sh : shell} {st : Int}
    (h : Reachable sgn log sh st) : (log.length : Int) < 2147483647 → browse_ok sh := by
  induction h with
  | init p => intro _; simp [browse_ok, m_shell]
  | @feed log sh sh1 st b r hre ha ih =>
    intro hn
    unfold shell_addchar at ha
    split at ha
    · exact absurd ha (by simp)
    · simp only [Option.some.injEq, Prod.mk.injEq] at ha
      rw [← ha.1]
      exact ih hn
  | @pass log sh st ch q p hre hpop hne hb hr ih =>
    intro hn
    obtain ⟨hk, hl, _⟩ := reach_inv hre hn
    have hq := pop_queue_ok sgn sh.queue q ch hk.2.2 hpop
    obtain ⟨_, h2, _⟩ := body_inv2 { sh with queue := q } st ch p
      (mem_ok_queue sh q (shell_ok_mem hk) hq) (reach_print hre).1 hb
    exact h2 hk.2.1 (by have := hl.1; simp only; omega) (ih hn)
  | @ret log sh st ch q p t pr hre hpop hne hb hr ht ih =>
    intro hn
    have hn0 : (log.length : Int) < 2147483647 := by
      split at hn
      · simp only [List.length_append, List.length_cons, List.length_nil] at hn
        push_cast at hn
        omega
      · exact hn
    obtain ⟨hk, hl, _⟩ := reach_inv hre hn0
    have hq := pop_queue_ok sgn sh.queue q ch hk.2.2 hpop
    obtain ⟨_, h2, _⟩ := body_inv2 { sh with queue := q } st ch p
      (mem_ok_queue sh q (shell_ok_mem hk) hq) (reach_print hre).1 hb
    exact h2 hk.2.1 (by have := hl.1; simp only; omega) (ih hn0)

/-- What `change_history` does when `hiscur` is the number of a resident
committed line: it reads the row holding that line and loads it. -/
theorem load_slot (log : List (List Nat)) (sh : shell) (hk : shell_ok sh) (hl : log_ok log sh)
    (j : Int) (h0 : 0 ≤ j) (h1 : j < sh.hiscnt) (h8 : sh.hiscnt ≤ j + 8) :
    ∃ l row, log[j.toNat]? = some l ∧
      rdRow sh.history (Int.tmod j HISTORY_COUNT) = some row ∧ cstr row = some l ∧
      change_history { sh with hiscur := j } = some
        ({ sh with hiscur := j, line := l ++ 0 :: sh.line.drop (l.length + 1),
                   linecount := (l.length : Int), linepos := (l.length : Int) },
         [13] ++ sh.prompt ++ l ++ [27, 91, 75]) ∧
      cstr (l ++ 0 :: sh.line.drop (l.length + 1)) = some l := by
  obtain ⟨⟨hll, _, _, _⟩, ⟨hhl, hrows, hcur0, hcur, _⟩, hq⟩ := hk
  obtain ⟨t, row, hrow, ht, htl, hch⟩ := change_history_spec { sh with hiscur := j }
    hll hhl hrows h0
  obtain ⟨hn, hj⟩ := hl
  have hjj := hj j.toNat (by omega) (by omega)
  have hidx : j.toNat % 8 = (j % 8).toNat := by omega
  rw [hidx, hrow] at hjj
  change cstr row = _ at hjj
  rw [ht] at hjj
  obtain ⟨hm, hm0, hm1⟩ := tmod8 j h0
  refine ⟨t, row, hjj.symm, ?_, ht, hch,
    cstr_append_zero _ _ ((cstr_eq_some_iff _ _).1 ht).choose_spec.2⟩
  rw [hm]
  unfold rdRow
  rw [if_pos hm0]
  exact hrow

/-- C20, as stated, fails: after `INT_MAX` commits a state with the decoder
in SawBracket is reachable in which `hiscur = hiscnt = INT_MAX`; there the
sum `hiscur + 1` in the test of `down_key` wraps to `INT_MIN`, the test
holds, and `change_history` runs with `hiscur = INT_MIN`, which is the number
of no committed line; the state the pass leaves is reachable and has
`hiscur < 0`. -/
theorem browse_cursor_counterexample :
    ∃ sh0 sh2, Reachable false (List.replicate 2147483647 [97]) sh0 2 ∧
      sh0.hiscur = 2147483647 ∧ sh0.hiscnt = 2147483647 ∧
      (∃ sh1 out, down_key sh0 = some (sh1, out) ∧ sh1.hiscur = -2147483648) ∧
      Reachable false (List.replicate 2147483647 [97]) sh2 0 ∧
      sh2.hiscur = -2147483648 ∧ ¬ (0 ≤ sh2.hiscur) := by
  obtain ⟨sh0, sh2, h1, h2, h3, _, h5, h6, h7, _⟩ := overflow_down
  exact ⟨sh0, sh2, h1, h2, h3, h5, h6, h7, by rw [h7]; decide⟩

/-- C20, amended. In every reachable state in which fewer than `INT_MAX`
lines have been committed, `0 <= hiscur <= hiscnt`, `hiscnt - 8 <= hiscur`
and `hiscnt` is the number of lines committed; when the test of `up_key`
holds, the row `change_history` reads, `history[hiscur % 8]` for the
decremented `hiscur`, holds the committed line of that number, which is what
gets loaded, and likewise for `down_key` and the incremented `hiscur`; when
their test fails they call nothing and change nothing. -/
theorem browse_cursor_resident (sgn : Bool) (log : List (List Nat)) (sh : shell) (st : Int)
    (hr : Reachable sgn log sh st) (hmax : (log.length : Int) < 2147483647) :
    (0 ≤ sh.hiscur ∧ sh.hiscur ≤ sh.hiscnt ∧ sh.hiscnt - 8 ≤ sh.hiscur ∧
      sh.hiscnt = (log.length : Int)) ∧
    (sh.hiscur > 0 ∧ wrap32 (sh.hiscur + HISTORY_COUNT) > sh.hiscnt →
      ∃ l row sh1 out, log[(sh.hiscur - 1).toNat]? = some l ∧ l ≠ [] ∧
        rdRow sh.history (Int.tmod (wrap32 (sh.hiscur - 1)) HISTORY_COUNT) = some row ∧
        cstr row = some l ∧
        change_history { sh with hiscur := wrap32 (sh.hiscur - 1) } = some (sh1, out) ∧
        up_key sh = some (sh1, out) ∧ sh1.hiscur = sh.hiscur - 1 ∧ cstr sh1.line = some l) ∧
    (wrap32 (sh.hiscur + 1) < sh.hiscnt →
      ∃ l row sh1 out, log[(sh.hiscur + 1).toNat]? = some l ∧ l ≠ [] ∧
        rdRow sh.history (Int.tmod (wrap32 (sh.hiscur + 1)) HISTORY_COUNT) = some row ∧
        cstr row = some l ∧
        change_history { sh with hiscur := wrap32 (sh.hiscur + 1) } = some (sh1, out) ∧
        down_key sh = some (sh1, out) ∧ sh1.hiscur = sh.hiscur + 1 ∧ cstr sh1.line = some l) ∧
    (¬ (sh.hiscur > 0 ∧ wrap32 (sh.hiscur + HISTORY_COUNT) > sh.hiscnt) →
      up_key sh = some (sh, [])) ∧
    (¬ (wrap32 (sh.hiscur + 1) < sh.hiscnt) → down_key sh = some (sh, [])) := by
  obtain ⟨hk, hl, _⟩ := reach_inv hr hmax
  have hlog := (reach_print hr).2
  have hb := reach_browse hr hmax
  unfold browse_ok at hb
  have hc0 := hk.2.1.2.2.1
  have hc1 := hk.2.1.2.2.2.1
  have hcl := hl.1
  refine ⟨⟨hc0, hc1, by omega, hl.1⟩, fun hg => ?_, fun hg => ?_, up_key_stop sh,
    down_key_stop sh⟩
  · obtain ⟨g0, g8, _, gw⟩ := up_guard hk.2.1 hg
    obtain ⟨l, row, h1, h2, h3, h4, h5⟩ := load_slot log sh hk hl (sh.hiscur - 1) (by omega)
      (by omega) (by omega)
    rw [gw]
    refine ⟨l, row, _, _, h1, (hlog l (List.getElem?_mem h1)).1, h2, h3, h4, ?_, rfl, h5⟩
    unfold up_key
    rw [if_pos hg, gw, h4]
  · have gw := down_guard hk.2.1 (show sh.hiscur < 2147483647 by omega)
    rw [gw] at hg ⊢
    obtain ⟨l, row, h1, h2, h3, h4, h5⟩ := load_slot log sh hk hl (sh.hiscur + 1) (by omega)
      (by omega) (by omega)
    refine ⟨l, row, _, _, h1, (hlog l (List.getElem?_mem h1)).1, h2, h3, h4, ?_, rfl, h5⟩
    unfold down_key
    rw [gw, if_pos hg, h4]

theorem browse_cursor_resident_witness :
    (0 ≤ nine_shell.hiscur ∧ nine_shell.hiscur ≤ nine_shell.hiscnt ∧
      nine_shell.hiscnt - 8 ≤ nine_shell.hiscur ∧
      nine_shell.hiscnt = (nine_lines.length : Int)) ∧
    (∃ l row sh1 out, nine_lines[(nine_shell.hiscur - 1).toNat]? = some l ∧ l ≠ [] ∧
        rdRow nine_shell.history (Int.tmod (wrap32 (nine_shell.hiscur - 1)) HISTORY_COUNT)
          = some row ∧
        cstr row = some l ∧
        change_history { nine_shell with hiscur := wrap32 (nine_shell.hiscur - 1) }
          = some (sh1, out) ∧
        up_key nine_shell = some (sh1, out) ∧ sh1.hiscur = nine_shell.hiscur - 1 ∧
        cstr sh1.line = some l) ∧
    (wrap32 (nine_shell.hiscur + 1) < nine_shell.hiscnt →
      ∃ l row sh1 out, nine_lines[(nine_shell.hiscur + 1).toNat]? = some l ∧ l ≠ [] ∧
        rdRow nine_shell.history (Int.tmod (wrap32 (nine_shell.hiscur + 1)) HISTORY_COUNT)
          = some row ∧
        cstr row = some l ∧
        change_history { nine_shell with hiscur := wrap32 (nine_shell.hiscur + 1) }
          = some (sh1, out) ∧
        down_key nine_shell = some (sh1, out) ∧ sh1.hiscur = nine_shell.hiscur + 1 ∧
        cstr sh1.line = some l) ∧
    (¬ (nine_shell.hiscur > 0 ∧
        wrap32 (nine_shell.hiscur + HISTORY_COUNT) > nine_shell.hiscnt) →
      up_key nine_shell = some (nine_shell, [])) ∧
    (down_key nine_shell = some (nine_shell, [])) :=
  have h := browse_cursor_resident false nine_lines nine_shell 0 nine_reach (by decide)
  ⟨h.1, h.2.1 (by decide), h.2.2.1, h.2.2.2.1, h.2.2.2.2 (by decide)⟩

/-! ## Decoder reset and the terminator -/

/-- C12, as stated, fails: an ESC received in SawEscape, or in SawBracket,
is not `[` and yet leaves the decoder in SawEscape, not Idle. -/
theorem decoder_reset_counterexample :
    (27 : Int) ≠ 0x5B ∧
    (∃ p, p_readline_body m_shell 1 27 = some p ∧ p.state = 1 ∧ p.state ≠ 0) ∧
    (∃ p, p_readline_body m_shell 2 27 = some p ∧ p.state = 1 ∧ p.state ≠ 0) := by
  refine ⟨by decide,
    ⟨{ sh := m_shell, state := 1, out := [], ret := false }, by decide, rfl, by decide⟩,
    ⟨{ sh := m_shell, state := 1, out := [], ret := false }, by decide, rfl, by decide⟩⟩

/-- C12, amended. In a well-formed state: a byte other than ESC and `[`
received in SawEscape, and a byte other than ESC received in SawBracket,
leaves the decoder Idle, without a return; ESC received in any decoder state
leaves it in SawEscape; and `[` received in SawEscape leads to SawBracket. -/
theorem decoder_reset (sh : shell) (ch : Int) (hk : shell_ok sh) :
    (ch ≠ 0x1B → ch ≠ 0x5B →
      ∃ p, p_readline_body sh 1 ch = some p ∧ p.state = 0 ∧ p.ret = false) ∧
    (ch ≠ 0x1B →
      ∃ p, p_readline_body sh 2 ch = some p ∧ p.state = 0 ∧ p.ret = false) ∧
    (∀ st, ∃ p, p_readline_body sh st 0x1B = some p ∧ p.state = 1 ∧ p.ret = false) ∧
    (∃ p, p_readline_body sh 1 0x5B = some p ∧ p.state = 2 ∧ p.ret = false) := by
  refine ⟨fun h1 h2 => ⟨{ sh := { sh with newline := 0 }, state := 0, out := [], ret := false },
      by simp [p_readline_body, h1, h2], rfl, rfl⟩, fun h1 => ?_,
    fun st => ⟨{ sh := { sh with newline := 0 }, state := 1, out := [], ret := false },
      by simp [p_readline_body], rfl, rfl⟩,
    ⟨{ sh := { sh with newline := 0 }, state := 2, out := [], ret := false },
      by simp [p_readline_body], rfl, rfl⟩⟩
  obtain ⟨sh1, out, ha⟩ := arrow_total sh ch hk
  refine ⟨{ sh := { sh1 with newline := 0 }, state := 0, out := out, ret := false }, ?_, rfl, rfl⟩
  unfold p_readline_body
  simp only [h1, if_false, show (2 : Int) ≠ 1 by decide, if_true, ha]

theorem decoder_reset_witness :
    ((120 : Int) ≠ 0x1B → (120 : Int) ≠ 0x5B →
      ∃ p, p_readline_body demo_shell 1 120 = some p ∧ p.state = 0 ∧ p.ret = false) ∧
    ((120 : Int) ≠ 0x1B →
      ∃ p, p_readline_body demo_shell 2 120 = some p ∧ p.state = 0 ∧ p.ret = false) ∧
    (∀ st, ∃ p, p_readline_body demo_shell st 0x1B = some p ∧ p.state = 1 ∧ p.ret = false) ∧
    (∃ p, p_readline_body demo_shell 1 0x5B = some p ∧ p.state = 2 ∧ p.ret = false) :=
  decoder_reset demo_shell 120 (reach_inv demo_reach (by decide)).1

theorem term_run_append (d : display) (xs ys : List Nat) :
    term_run d (xs ++ ys) = term_run (term_run d xs) ys := by
  simp [term_run, List.foldl_append]

/-- Printable bytes written from the cursor on. -/
theorem term_run_print (xs : List Nat) : ∀ (d : display), (∀ c ∈ xs, printable c) →
    (term_run d xs).cursor = d.cursor + xs.length ∧
    ∀ i, (term_run d xs).cells i =
      if d.cursor ≤ i ∧ i < d.cursor + xs.length then xs.getD (i - d.cursor) 32
      else d.cells i := by
  induction xs with
  | nil =>
    intro d _
    refine ⟨rfl, fun i => ?_⟩
    rw [if_neg (by simp)]
    rfl
  | cons x xs ih =>
    intro d hp
    have hx : printable x := hp x (by simp)
    unfold printable at hx
    have hput : term_put d x
        = { cells := fun i => if i = d.cursor then x else d.cells i, cursor := d.cursor + 1 } := by
      unfold term_put
      rw [if_neg (by omega), if_pos hx]
    obtain ⟨h1, h2⟩ := ih (term_put d x) (fun c hc => hp c (by simp [hc]))
    have hrun : term_run d (x :: xs) = term_run (term_put d x) xs := rfl
    rw [hput] at h1 h2
    simp only at h1 h2
    rw [hrun, hput]
    refine ⟨by rw [h1]; simp only [List.length_cons]; omega, fun i => ?_⟩
    rw [h2 i]
    simp only [List.length_cons]
    by_cases hi : i = d.cursor
    · subst hi
      rw [if_neg (by omega), if_pos rfl, if_pos (by omega)]
      simp
    · by_cases hr : d.cursor + 1 ≤ i ∧ i < d.cursor + 1 + xs.length
      · rw [if_pos hr, if_pos (by omega)]
        obtain ⟨k, hk⟩ : ∃ k, i - d.cursor = k + 1 := ⟨i - d.cursor - 1, by omega⟩
        rw [hk, show i - (d.cursor + 1) = k by omega]
        simp
      · rw [if_neg hr, if_neg hi, if_neg (by omega)]

/-- Backspace bytes only move the cursor. -/
theorem term_run_back (k : Nat) : ∀ (d : display),
    (term_run d (List.replicate k 8)).cursor = d.cursor - k ∧
    (term_run d (List.replicate k 8)).cells = d.cells := by
  induction k with
  | zero => intro d; exact ⟨rfl, rfl⟩
  | succ k ih =>
    intro d
    have hput : term_put d 8 = { d with cursor := d.cursor - 1 } := by
      unfold term_put
      rw [if_pos rfl]
    have hrun : term_run d (List.replicate (k + 1) 8) = term_run (term_put d 8) (List.replicate k 8) :=
      rfl
    obtain ⟨h1, h2⟩ := ih (term_put d 8)
    rw [hput] at h1 h2
    simp only at h1 h2
    rw [hrun, hput, h1, h2]
    exact ⟨by omega, rfl⟩

/-- Printable bytes written from the cursor on, then backspaces. -/
theorem term_write (d : display) (xs : List Nat) (k : Nat) (hp : ∀ c ∈ xs, printable c) :
    (term_run d (xs ++ List.replicate k 8)).cursor = d.cursor + xs.length - k ∧
    ∀ i, (term_run d (xs ++ List.replicate k 8)).cells i =
      if d.cursor ≤ i ∧ i < d.cursor + xs.length then xs.getD (i - d.cursor) 32
      else d.cells i := by
  obtain ⟨h1, h2⟩ := term_run_print xs d hp
  obtain ⟨h3, h4⟩ := term_run_back k (term_run d xs)
  rw [term_run_append, h3, h4, h1]
  exact ⟨rfl, h2⟩

theorem getD_drop_blank (t : List Nat) (q j : Nat) :
    (t.drop q ++ [32]).getD j 32 = t.getD (q + j) 32 := by
  simp only [List.getD_eq_getElem?_getD, List.getElem?_append, List.length_drop,
    List.getElem?_drop]
  by_cases h : j < t.length - q
  · rw [if_pos h]
  · rw [if_neg h, List.getElem?_eq_none (show t.length ≤ q + j by omega)]
    cases hj : j - (t.length - q) with
    | zero => rfl
    | succ m => simp

/-! ## Echo of a deletion -/

/-- The echo of a deletion, for a line without NUL bytes: backspace, the new
content from the new cursor on, a blank, and backspaces back to the cursor. -/
theorem backspace_echo (sh : shell) (hl : sh.line.length = 65)
    (h0 : 0 < sh.linepos) (h1 : sh.linepos ≤ sh.linecount) (h2 : sh.linecount ≤ 64)
    (hz : ∀ c ∈ content sh, c ≠ 0) :
    ∃ l2, backspace sh = some
        ({ sh with linepos := sh.linepos - 1, linecount := sh.linecount - 1, line := l2 },
         [8] ++ (l2.take (sh.linecount - 1).toNat).drop (sh.linepos - 1).toNat ++ [32]
           ++ List.replicate ((sh.linecount - sh.linepos).toNat + 1) 8) ∧
      l2.take (sh.linecount - 1).toNat
        = (content sh).take (sh.linepos - 1).toNat ++ (content sh).drop sh.linepos.toNat := by
  obtain ⟨l2, out, hrm, _, hl2, hnul, hs⟩ := remove_content sh hl h0 h1 h2
  refine ⟨l2, ?_, hs⟩
  have hm : (sh.linecount - 1).toNat < l2.length := by omega
  have hz2 : ∀ c ∈ (l2.take (sh.linecount - 1).toNat).drop (sh.linepos - 1).toNat, c ≠ 0 := by
    intro c hc
    have hc2 := List.mem_of_mem_drop hc
    rw [hs, List.mem_append] at hc2
    rcases hc2 with h | h
    · exact hz c (List.mem_of_mem_take h)
    · exact hz c (List.mem_of_mem_drop h)
  have hdrop : l2.drop (sh.linepos - 1).toNat
      = (l2.take (sh.linecount - 1).toNat).drop (sh.linepos - 1).toNat
        ++ 0 :: l2.drop ((sh.linecount - 1).toNat + 1) := by
    have h3 : l2.drop (sh.linecount - 1).toNat = 0 :: l2.drop ((sh.linecount - 1).toNat + 1) := by
      rw [List.drop_eq_getElem_cons hm]
      rw [List.getElem?_eq_getElem hm] at hnul
      rw [Option.some.inj hnul]
    rw [← h3]
    conv_lhs => rw [← List.take_append_drop (sh.linecount - 1).toNat l2]
    rw [List.drop_append_of_le_length (by simp only [List.length_take]; omega)]
  have hcs : cstrAt l2 (sh.linepos - 1)
      = some ((l2.take (sh.linecount - 1).toNat).drop (sh.linepos - 1).toNat) := by
    unfold cstrAt
    rw [if_pos (by omega), hdrop]
    exact cstr_append_zero _ _ hz2
  unfold backspace
  simp only [gt_iff_lt, h0, if_true, hrm]
  by_cases hmid : sh.linepos - 1 < sh.linecount - 1
  · rw [if_pos hmid, hcs]
    simp only [Option.some.injEq, Prod.mk.injEq, true_and]
    rw [show (sh.linecount - 1 - (sh.linepos - 1)).toNat = (sh.linecount - sh.linepos).toNat by omega,
      List.replicate_succ]
    simp
  · rw [if_neg hmid]
    have hnil : (l2.take (sh.linecount - 1).toNat).drop (sh.linepos - 1).toNat = [] := by
      apply List.drop_of_length_le
      simp only [List.length_take]; omega
    rw [hnil, show (sh.linecount - sh.linepos).toNat = 0 by omega]
    rfl

/-! ## Display consistency -/

theorem content_length (sh : shell) (hl : sh.line.length = 65) (h0 : 0 ≤ sh.linecount)
    (h2 : sh.linecount ≤ 64) : (content sh).length = sh.linecount.toNat := by
  simp only [content, List.length_take]; omega

theorem printable_blank : printable 32 := by
  unfold printable; omega

/-- The display after an insertion. -/
theorem insert_display (sh : shell) (d : display) (ch : Int) (hl : sh.line.length = 65)
    (h0 : 0 ≤ sh.linepos) (h1 : sh.linepos ≤ sh.linecount) (h2 : sh.linecount ≤ 64)
    (hpr : ∀ c ∈ content sh, printable c) (hd : shows d (content sh) sh.linepos.toNat)
    (hc : isprint ch = true) :
    ∃ sh1 out, insert_char sh ch = some (sh1, out) ∧
      shows (term_run d out) (content sh1) sh1.linepos.toNat := by
  by_cases h64 : sh.linecount < 64
  · obtain ⟨l2, hi, _, hs, _⟩ := insert_content sh ch hl h0 h1 h64
    refine ⟨_, _, hi, ?_⟩
    have hlen := content_length sh hl (by omega) h2
    have hch : printable (toChar ch) := by
      rw [toChar_print ch hc]
      have := (isprint_iff ch).1 hc
      unfold printable; omega
    have hY : ∀ c ∈ toChar ch :: (content sh).drop sh.linepos.toNat, printable c := by
      intro c hm
      rcases List.mem_cons.1 hm with h | h
      · rw [h]; exact hch
      · exact hpr c (List.mem_of_mem_drop h)
    obtain ⟨hcur, hcells⟩ := term_write d (toChar ch :: (content sh).drop sh.linepos.toNat)
      (sh.linecount - sh.linepos).toNat hY
    obtain ⟨hd1, hd2⟩ := hd
    simp only [List.length_cons, List.length_drop, hlen] at hcur hcells
    have hc1 : content { sh with
          line := l2, linecount := sh.linecount + 1, linepos := sh.linepos + 1 }
        = (content sh).take sh.linepos.toNat ++ toChar ch :: (content sh).drop sh.linepos.toNat :=
      hs
    refine ⟨by rw [hcur, hd1]; simp only; omega, fun i => ?_⟩
    rw [hcells i, hd1, hd2 i, hc1]
    have htl : ((content sh).take sh.linepos.toNat).length = sh.linepos.toNat := by
      simp only [List.length_take, hlen]; omega
    simp only [List.getD_eq_getElem?_getD]
    rw [List.getElem?_append, htl]
    by_cases hr : sh.linepos.toNat ≤ i ∧ i < sh.linepos.toNat + (sh.linecount.toNat - sh.linepos.toNat + 1)
    · rw [if_pos hr, if_neg (by omega)]
    · rw [if_neg hr]
      by_cases hlt : i < sh.linepos.toNat
      · rw [if_pos hlt, List.getElem?_take, if_pos hlt]
      · rw [if_neg hlt, List.getElem?_eq_none (by rw [hlen]; omega),
          List.getElem?_eq_none (by simp only [List.length_cons, List.length_drop, hlen]; omega)]
  · refine ⟨sh, [], insert_char_full sh ch h64, hd⟩

/-- The display after a deletion. -/
theorem backspace_display (sh : shell) (d : display) (hl : sh.line.length = 65)
    (h1 : sh.linepos ≤ sh.linecount) (h2 : sh.linecount ≤ 64)
    (hpr : ∀ c ∈ content sh, printable c) (hd : shows d (content sh) sh.linepos.toNat) :
    ∃ sh1 out, backspace sh = some (sh1, out) ∧
      shows (term_run d out) (content sh1) sh1.linepos.toNat := by
  by_cases hp : 0 < sh.linepos
  · obtain ⟨l2, hb, hs⟩ := backspace_echo sh hl hp h1 h2 (fun c hc => printable_ne_zero (hpr c hc))
    refine ⟨_, _, hb, ?_⟩
    have hlen := content_length sh hl (by omega) h2
    have hlen2 : (l2.take (sh.linecount - 1).toNat).length = (sh.linecount - 1).toNat := by
      rw [hs]
      simp only [List.length_append, List.length_take, List.length_drop, hlen]; omega
    have hX : ∀ c ∈ (l2.take (sh.linecount - 1).toNat).drop (sh.linepos - 1).toNat ++ [32],
        printable c := by
      intro c hm
      rcases List.mem_append.1 hm with h | h
      · have h3 := List.mem_of_mem_drop h
        rw [hs, List.mem_append] at h3
        rcases h3 with h4 | h4
        · exact hpr c (List.mem_of_mem_take h4)
        · exact hpr c (List.mem_of_mem_drop h4)
      · rw [List.mem_singleton.1 h]; exact printable_blank
    obtain ⟨hd1, hd2⟩ := hd
    have hput : term_put d 8 = { d with cursor := d.cursor - 1 } := by
      unfold term_put; rw [if_pos rfl]
    have hpc : (term_put d 8).cursor = sh.linepos.toNat - 1 := by rw [hput, ← hd1]
    have hpe : (term_put d 8).cells = d.cells := by rw [hput]
    obtain ⟨hcur, hcells⟩ := term_write (term_put d 8)
      ((l2.take (sh.linecount - 1).toNat).drop (sh.linepos - 1).toNat ++ [32])
      ((sh.linecount - sh.linepos).toNat + 1) hX
    have hrun : term_run d ([8] ++ (l2.take (sh.linecount - 1).toNat).drop (sh.linepos - 1).toNat
          ++ [32] ++ List.replicate ((sh.linecount - sh.linepos).toNat + 1) 8)
        = term_run (term_put d 8)
          (((l2.take (sh.linecount - 1).toNat).drop (sh.linepos - 1).toNat ++ [32])
            ++ List.replicate ((sh.linecount - sh.linepos).toNat + 1) 8) := by
      simp [term_run]
    rw [hrun]
    rw [hpc, hpe] at hcells
    rw [hpc] at hcur
    simp only [List.length_append, List.length_drop, hlen2, List.length_singleton]
      at hcur hcells
    have hc1 : content { sh with
          linepos := sh.linepos - 1, linecount := sh.linecount - 1, line := l2 }
        = l2.take (sh.linecount - 1).toNat := rfl
    refine ⟨by rw [hcur]; simp only; omega, fun i => ?_⟩
    rw [hcells i, hd2 i, hc1]
    by_cases hr : sh.linepos.toNat - 1 ≤ i ∧
        i < sh.linepos.toNat - 1 + ((sh.linecount - 1).toNat - (sh.linepos - 1).toNat + 1)
    · rw [if_pos hr, getD_drop_blank]
      congr 1
      omega
    · rw [if_neg hr, hs]
      simp only [List.getD_eq_getElem?_getD]
      rw [List.getElem?_append]
      simp only [List.length_take, hlen]
      by_cases hlt : i < sh.linepos.toNat - 1
      · rw [if_pos (by omega), List.getElem?_take, if_pos (by omega)]
      · rw [if_neg (by omega), List.getElem?_eq_none (by rw [hlen]; omega),
          List.getElem?_eq_none (by simp only [List.length_drop, hlen]; omega)]
  · refine ⟨sh, [], by simp [backspace, hp], hd⟩

/-- C17. For a terminal whose printable bytes overwrite the cell under the
cursor and advance it and whose backspace moves the cursor left without
erasing: if the line buffer holds printable bytes, the cells show
`line[0..linecount)` with blanks beyond and the cursor is at offset
`linepos`, then after `insert_char` of a printable byte, after `backspace`,
after `left_key` and after `right_key` the terminal that received the bytes
written shows the new `line[0..linecount)` with blanks beyond and its cursor
is at the new `linepos`. -/
theorem display_consistency (sh : shell) (d : display) (hl : sh.line.length = 65)
    (h0 : 0 ≤ sh.linepos) (h1 : sh.linepos ≤ sh.linecount) (h2 : sh.linecount ≤ 64)
    (hpr : ∀ c ∈ content sh, printable c) (hd : shows d (content sh) sh.linepos.toNat) :
    (∀ ch, isprint ch = true → ∃ sh1 out, insert_char sh ch = some (sh1, out) ∧
      shows (term_run d out) (content sh1) sh1.linepos.toNat) ∧
    (∃ sh1 out, backspace sh = some (sh1, out) ∧
      shows (term_run d out) (content sh1) sh1.linepos.toNat) ∧
    (∃ sh1 out, left_key sh = some (sh1, out) ∧
      shows (term_run d out) (content sh1) sh1.linepos.toNat) ∧
    (∃ sh1 out, right_key sh = some (sh1, out) ∧
      shows (term_run d out) (content sh1) sh1.linepos.toNat) := by
  refine ⟨fun ch hc => insert_display sh d ch hl h0 h1 h2 hpr hd hc,
    backspace_display sh d hl h1 h2 hpr hd, ?_, ?_⟩
  · by_cases hp : 0 < sh.linepos
    · refine ⟨{ sh with linepos := sh.linepos - 1 }, [8], by simp [left_key, hp], ?_, ?_⟩
      · have hput : term_run d [8] = { d with cursor := d.cursor - 1 } := by
          simp [term_run, term_put]
        rw [hput, hd.1]
        simp only
        omega
      · intro i
        have hput : term_run d [8] = { d with cursor := d.cursor - 1 } := by
          simp [term_run, term_put]
        rw [hput]
        exact hd.2 i
    · exact ⟨sh, [], by simp [left_key, hp], hd⟩
  · by_cases hp : sh.linepos < sh.linecount
    · have hlen := content_length sh hl (by omega) h2
      obtain ⟨v, hv⟩ := get_some_of_lt sh.line sh.linepos.toNat (by omega)
      have hcv : (content sh)[sh.linepos.toNat]? = some v := by
        simp only [content]
        rw [List.getElem?_take, if_pos (by omega), hv]
      have hpv : printable v := hpr v (List.getElem?_mem hcv)
      refine ⟨{ sh with linepos := sh.linepos + 1 }, [v], ?_, ?_, ?_⟩
      · unfold right_key
        rw [if_pos hp, rd_eq_get h0, hv]
      · obtain ⟨hcur, _⟩ := term_run_print [v] d (by simpa using hpv)
        rw [hcur, hd.1]
        simp only [List.length_singleton]
        omega
      · intro i
        obtain ⟨_, hcells⟩ := term_run_print [v] d (by simpa using hpv)
        rw [hcells i, hd.1]
        simp only [List.length_singleton]
        by_cases hi : sh.linepos.toNat ≤ i ∧ i < sh.linepos.toNat + 1
        · rw [if_pos hi, show i - sh.linepos.toNat = 0 by omega]
          have hieq : i = sh.linepos.toNat := by omega
          show v = (content sh).getD i 32
          rw [List.getD_eq_getElem?_getD, hieq, hcv]
          rfl
        · rw [if_neg hi]
          exact hd.2 i
    · exact ⟨sh, [], by simp [right_key, hp], hd⟩

theorem display_consistency_witness :
    (∀ ch, isprint ch = true → ∃ sh1 out, insert_char home_shell ch = some (sh1, out) ∧
      shows (term_run { cells := fun i => (content home_shell).getD i 32, cursor := 0 } out)
        (content sh1) sh1.linepos.toNat) ∧
    (∃ sh1 out, backspace home_shell = some (sh1, out) ∧
      shows (term_run { cells := fun i => (content home_shell).getD i 32, cursor := 0 } out)
        (content sh1) sh1.linepos.toNat) ∧
    (∃ sh1 out, left_key home_shell = some (sh1, out) ∧
      shows (term_run { cells := fun i => (content home_shell).getD i 32, cursor := 0 } out)
        (content sh1) sh1.linepos.toNat) ∧
    (∃ sh1 out, right_key home_shell = some (sh1, out) ∧
      shows (term_run { cells := fun i => (content home_shell).getD i 32, cursor := 0 } out)
        (content sh1) sh1.linepos.toNat) :=
  display_consistency home_shell { cells := fun i => (content home_shell).getD i 32, cursor := 0 }
    (by decide) (by decide) (by decide) (by decide) (by decide) ⟨rfl, fun _ => rfl⟩

end BerryShell
